import Mathlib

/-!
Verification of logtools: `ip_tree.c`, `input.c`.

A shallow embedding of the IP tree (`ip_tree.c`), of the address scanner
`detectip_str` and of the line buffer (`input.c`), with the properties of the
specification stated over it.

Conventions.
* `ip_t` is `uint32_t`; addresses are `Nat`, and every arithmetic step that can
  leave 32 bits is reduced with `% 2 ^ 32`.
* `int` values (`block`, `bit`, `end`, `pos`, return codes) are `Int`.
* For shift counts in `0 .. 31` the shifts are the C shifts.  C leaves a shift
  of a 32-bit value by 32 or more, or by a negative count, undefined.  In
  `validateip`, where prefix 0 asks for a shift by 32, the count is taken
  modulo 32, which is what the shift instructions of x86-64 and AArch64 do with
  it.  In `node_insert`, `node_search` and `dumpnode` the count is written
  `bit.toNat`; it is negative only below depth 32, which no tree built with
  prefixes in `0 .. 32` reaches.
* `detectip_str` is the sequence of `(ip, block)` pairs the scanner brings to
  the label `found`.  What the callers read from the scratch arrays is
  `detectip_arrays`: that sequence when every store is inside the arrays, and
  undefined (`none`) once a store has gone past their capacity.
-/

namespace Logtools

/-! ## ip_tree.h: return codes -/

def IP_ERROR_ADDRESS_INVALID : Int := -1000
def IP_ERROR_ADDRESS_INVALID_BAD_CIDR : Int := -1001
def IP_ERROR_ADDRESS_INVALID_BAD_IP : Int := -1002
def IP_NOT_FOUND : Int := -1100
def IP_POS_OUT_OF_BOUNDS : Int := -1101

/-! ## ip_tree.c: the tree -/

/-- A node reference: the sentinel `ZERO` (no address of the range), the
sentinel `FULL` (every address of the range), or an allocated `struct IPNode`
with `children[0]` and `children[1]`. -/
inductive IPNode where
  | ZERO : IPNode
  | FULL : IPNode
  | Branch (c0 c1 : IPNode) : IPNode
  deriving DecidableEq, Repr

/-- The `struct IPTree`: one root reference. -/
structure IPTree where
  root : IPNode
  deriving DecidableEq, Repr

/-- The function `makeiptree`: a tree whose root is `ZERO`. -/
def makeiptree : IPTree := ⟨.ZERO⟩

/-- The function `validateip`.  The shift `0xffffffff << (32 - cidr)` is a shift
of a 32-bit value: for `cidr` in `1 .. 32` the count is in `0 .. 31`; for
`cidr = 0` (count 32) and `cidr > 32` (negative count) C leaves it undefined,
and the count is taken modulo 32, as the shift instruction does. -/
def validateip (ip : Nat) (cidr : Int) : Int :=
  if ip > 0xffffffff then IP_ERROR_ADDRESS_INVALID_BAD_IP
  else if (ip &&& 0xffffffff &&& ((0xffffffff <<< ((32 - cidr) % 32).toNat) % 2 ^ 32)) ≠ ip
  then IP_ERROR_ADDRESS_INVALID_BAD_CIDR
  else 0

/-- The tail of `node_insert`: "if both branches are full then collapse them". -/
def collapse (c0 c1 : IPNode) : IPNode :=
  if c0 = .FULL ∧ c1 = .FULL then .FULL else .Branch c0 c1

/-- The body of `node_insert`, with a counter bounding the recursion depth.
The first argument is the node found at `*node_p`, the result is the node
stored at `*node_p` on return. -/
def node_insert_fuel : Nat → IPNode → Nat → Int → Int → IPNode
  | 0, node, _, _, _ => node
  | _ + 1, .FULL, _, _, _ => .FULL
  | fuel + 1, .ZERO, ip, bit, end_ =>
    if bit ≤ end_ then .FULL
    else if (ip >>> bit.toNat) &&& 1 = 0 then
      collapse (node_insert_fuel fuel .ZERO ip (bit - 1) end_) .ZERO
    else
      collapse .ZERO (node_insert_fuel fuel .ZERO ip (bit - 1) end_)
  | fuel + 1, .Branch c0 c1, ip, bit, end_ =>
    if bit ≤ end_ then .FULL
    else if (ip >>> bit.toNat) &&& 1 = 0 then
      collapse (node_insert_fuel fuel c0 ip (bit - 1) end_) c1
    else
      collapse c0 (node_insert_fuel fuel c1 ip (bit - 1) end_)

/-- The function `node_insert`.  The recursion stops when `bit ≤ end`, after at
most `bit - end` nested calls, so `bit - end + 1` levels always suffice
(`node_insert_eq` below is the recursion equation of the C function). -/
def node_insert (node : IPNode) (ip : Nat) (bit end_ : Int) : IPNode :=
  node_insert_fuel ((bit - end_).toNat + 1) node ip bit end_

/-- The function `node_search`. -/
def node_search : IPNode → Nat → Int → Int
  | .FULL, _, _ => 1
  | .ZERO, _, _ => 0
  | .Branch c0 c1, ip, bit =>
    if (ip >>> bit.toNat) &&& 1 = 0 then node_search c0 ip (bit - 1)
    else node_search c1 ip (bit - 1)

/-- The function `addip`: the return code and the tree afterwards. -/
def addip (tree : IPTree) (ip : Nat) (block : Int) : Int × IPTree :=
  if validateip ip block ≠ 0 then (validateip ip block, tree)
  else (0, ⟨node_insert tree.root ip 31 (31 - block)⟩)

/-- The function `findip`. -/
def findip (tree : IPTree) (ip : Nat) : Int :=
  node_search tree.root ip 31

/-- The function `iptree_empty`. -/
def iptree_empty (tree : IPTree) : Bool :=
  decide (tree.root = .ZERO)

/-- The function `dumpnode`: the calls `dumpip(ip, cidr)` it makes, in order. -/
def dumpnode : IPNode → Nat → Int → List (Nat × Int)
  | .ZERO, _, _ => []
  | .FULL, ip, bit => [(ip, 31 - bit)]
  | .Branch c0 c1, ip, bit =>
    dumpnode c0 ip (bit - 1) ++ dumpnode c1 (ip ||| ((1 <<< bit.toNat) % 2 ^ 32)) (bit - 1)

/-- Decimal digits of `n` as ASCII bytes (the `%u` conversion). -/
def fmt_u (n : Nat) : List Nat :=
  (Nat.toDigits 10 n).map Char.toNat

/-- The `%d` conversion. -/
def fmt_d (n : Int) : List Nat :=
  if n < 0 then 45 :: fmt_u n.natAbs else fmt_u n.toNat

/-- The function `dumpip`: the bytes of the line it prints,
`"%u.%u.%u.%u/%d\n"`. -/
def dumpip (ip : Nat) (cidr : Int) : List Nat :=
  fmt_u (ip >>> 24) ++ [46] ++ fmt_u ((ip >>> 16) &&& 0xff) ++ [46] ++
    fmt_u ((ip >>> 8) &&& 0xff) ++ [46] ++ fmt_u (ip &&& 0xff) ++ [47] ++ fmt_d cidr ++ [10]

/-- The function `dumptree`: the lines printed, in order. -/
def dumptree (tree : IPTree) : List (List Nat) :=
  (dumpnode tree.root 0 31).map (fun b => dumpip b.1 b.2)

/-- A sequence of `addip` calls, each on the tree the previous one left: the
final tree, and the calls that returned 0, in order. -/
def addip_seq : IPTree → List (Nat × Int) → IPTree × List (Nat × Int)
  | tree, [] => (tree, [])
  | tree, (ip, block) :: calls =>
    let r := addip tree ip block
    let rest := addip_seq r.2 calls
    (rest.1, if r.1 = 0 then (ip, block) :: rest.2 else rest.2)

/-! ## ip_tree.c: the scanner `detectip_str` -/

/-- The labels of the state machine in `detectip_str` that read a byte. -/
inductive DState where
  | scan | ipbyte1 | dot1 | ipbyte2 | dot2 | ipbyte3 | dot3 | ipbyte4 | cidr1 | cidr2
  deriving DecidableEq, Repr

/-- The case range `'0' ... '9'`. -/
def isdigit (byte : Nat) : Bool := decide (48 ≤ byte ∧ byte ≤ 57)

/-- The state machine of `detectip_str`, run over the bytes it reads (`*data`
up to and including `*end`), from the label `st` with the locals `ip`
(`uint32_t`), `ipbyte` (`unsigned char`) and `block`.  The result is the
sequence of `(ip, block)` pairs stored at the label `found`, in the order of
the index `count` they are stored at.  At the end of the bytes the labels
`ipbyte4`, `cidr1`, `cidr2` go through `tail` to `found`, the others to
`finish`. -/
def detectip_run : List Nat → DState → Nat → Nat → Int → List (Nat × Int)
  | [], st, ip, ipbyte, block =>
    match st with
    | .ipbyte4 | .cidr1 | .cidr2 =>
      [(if ipbyte ≠ 0 then ((ip * 0x100) % 2 ^ 32 + ipbyte) % 2 ^ 32 else ip, block)]
    | _ => []
  | byte :: data, st, ip, ipbyte, block =>
    match st with
    | .scan =>
      if isdigit byte then detectip_run data .ipbyte1 0 (byte - 48) block
      else detectip_run data .scan ip ipbyte block
    | .ipbyte1 =>
      if isdigit byte then
        detectip_run data .ipbyte1 ip (((ipbyte * 10) % 256 + (byte - 48)) % 256) block
      else if byte = 46 then detectip_run data .dot1 ip ipbyte block
      else detectip_run data .scan ip ipbyte block
    | .dot1 =>
      if isdigit byte then detectip_run data .ipbyte2 ipbyte (byte - 48) block
      else detectip_run data .scan ip ipbyte block
    | .ipbyte2 =>
      if isdigit byte then
        detectip_run data .ipbyte2 ip (((ipbyte * 10) % 256 + (byte - 48)) % 256) block
      else if byte = 46 then detectip_run data .dot2 ip ipbyte block
      else detectip_run data .scan ip ipbyte block
    | .dot2 =>
      if isdigit byte then
        detectip_run data .ipbyte3 (((ip * 0x100) % 2 ^ 32 + ipbyte) % 2 ^ 32) (byte - 48) block
      else detectip_run data .scan ip ipbyte block
    | .ipbyte3 =>
      if isdigit byte then
        detectip_run data .ipbyte3 ip (((ipbyte * 10) % 256 + (byte - 48)) % 256) block
      else if byte = 46 then detectip_run data .dot3 ip ipbyte block
      else detectip_run data .scan ip ipbyte block
    | .dot3 =>
      if isdigit byte then
        detectip_run data .ipbyte4 (((ip * 0x100) % 2 ^ 32 + ipbyte) % 2 ^ 32) (byte - 48) block
      else detectip_run data .scan ip ipbyte block
    | .ipbyte4 =>
      if isdigit byte then
        detectip_run data .ipbyte4 ip (((ipbyte * 10) % 256 + (byte - 48)) % 256) block
      else if byte = 47 then
        detectip_run data .cidr1 (((ip * 0x100) % 2 ^ 32 + ipbyte) % 2 ^ 32) 0 block
      else
        (((ip * 0x100) % 2 ^ 32 + ipbyte) % 2 ^ 32, block) :: detectip_run data .scan 0 0 32
    | .cidr1 =>
      if isdigit byte then detectip_run data .cidr2 ip ipbyte (byte - 48)
      else (ip, 32) :: detectip_run data .scan 0 0 32
    | .cidr2 =>
      if isdigit byte then (ip, block * 10 + (byte - 48)) :: detectip_run data .scan 0 0 32
      else (ip, block) :: detectip_run data .scan 0 0 32

/-- The scanner of `detectip_str` from the label `init` (`ip = 0`, `ipbyte = 0`,
`block = 32`): the `(ip, block)` pairs it brings to the label `found`, in
order.  Their number is the `count` returned.  What a caller finds in the
scratch arrays is `detectip_arrays` below. -/
def detectip_str (data : List Nat) : List (Nat × Int) :=
  detectip_run data .scan 0 0 32

/-- The loop of `findip_str` for `pos == 0`, over `ips[idx]`, `idx < count`. -/
def findip_loop (tree : IPTree) : List (Nat × Int) → Int
  | [] => 0
  | c :: cands => if findip tree c.1 ≠ 0 then findip tree c.1 else findip_loop tree cands

/-- The function `findip_str` over the candidates in the order they were found,
which is what the scratch arrays hold when no store went past them
(`findip_str_arrays` below reads the arrays).  `pos` and `idx` are not
bounded here. -/
def findip_str (tree : IPTree) (data : List Nat) (pos : Int) : Int :=
  let cands := detectip_str data
  let count : Int := cands.length
  if count = 0 then IP_NOT_FOUND
  else if pos = 0 then findip_loop tree cands
  else
    let idx : Int := if pos > 0 then pos - 1 else count - pos
    if idx ≥ count then IP_POS_OUT_OF_BOUNDS
    else findip tree (cands.getD idx.toNat (0, 0)).1

/-- The function `addip_str` over the candidates in the order they were found,
which is what the scratch arrays hold when no store went past them
(`addip_str_arrays` below reads the arrays): the return code and the tree
afterwards. -/
def addip_str (tree : IPTree) (data : List Nat) : Int × IPTree :=
  match detectip_str data with
  | [] => (IP_NOT_FOUND, tree)
  | c :: _ => addip tree c.1 c.2

/-- The decimal value of a run of ASCII digits. -/
def decval (ds : List Nat) : Nat :=
  ds.foldl (fun a b => a * 10 + (b - 48)) 0

/-- A decimal octet in `0 .. 255`: a non-empty run of ASCII digits whose value
is at most 255. -/
def is_octet (ds : List Nat) : Prop :=
  ds ≠ [] ∧ (∀ b ∈ ds, isdigit b = true) ∧ decval ds ≤ 255

/-- The text `a.b.c.d` of a dotted quad, from the digits of its octets. -/
def quad_text (da db dc dd : List Nat) : List Nat :=
  da ++ 46 :: (db ++ 46 :: (dc ++ 46 :: dd))

/-- The address `a * 2^24 + b * 2^16 + c * 2^8 + d` of a dotted quad. -/
def quad_ip (da db dc dd : List Nat) : Nat :=
  decval da * 2 ^ 24 + decval db * 2 ^ 16 + decval dc * 2 ^ 8 + decval dd

/-- The bytes of a string literal. -/
def bytes_of (s : String) : List Nat :=
  s.toList.map Char.toNat

/-! ## input.c: the line buffer -/

def AIO_BASE_BUFSIZE : Nat := 32768
def AIO_ERROR_LINE_LONGER_THAN_BUFSIZE : Int := -7001
def AIO_ERROR_LINE_ZERO_LENGTH : Int := -7002
def AIO_ERROR_IO_READ_ERROR : Int := -7101
def AIO_ERROR_BUFFER_FILL_FAIL : Int := -7200
def AIO_ERROR_END_BUFFER : Int := -7300

/-- The global `aio_eol`, initialised to the newline byte. -/
def aio_eol : Nat := 10

/-- The macro `ALIGN_TO`, on a non-negative value. -/
def ALIGN_TO (val : Int) (alignment : Nat) : Int :=
  if val % alignment = 0 then val else val + (alignment - val % alignment)

/-- What the next `read` call on the bound descriptor does: deliver bytes (as
many of them as the call asks for, at most; none is the end of the stream),
fail with `errno == EINTR`, or fail with another error. -/
inductive ReadEvent where
  | bytes (bs : List Nat) : ReadEvent
  | eintr : ReadEvent
  | error : ReadEvent
  deriving DecidableEq, Repr

/-- The `struct aio_buffer`.  Pointers are addresses; `mem` is the memory they
point into (the arena is `[data, data + size)`), `src` is what the descriptor
`fd` delivers from now on. -/
structure aio_buffer where
  data : Int
  size : Nat
  start : Int
  end_ : Int
  limit : Nat
  fd : Int
  linestart : Int
  linelimit : Int
  mem : Int → Nat
  src : List ReadEvent

/-- The call `memmove(dst, from, n)`. -/
def mem_move (mem : Int → Nat) (dst from_ : Int) (n : Nat) : Int → Nat :=
  fun a => if dst ≤ a ∧ a < dst + n then mem (from_ + (a - dst)) else mem a

/-- The bytes a `read` call stores at `dst`. -/
def mem_write (mem : Int → Nat) (dst : Int) (bs : List Nat) : Int → Nat :=
  fun a => if dst ≤ a ∧ a < dst + bs.length then bs.getD (a - dst).toNat 0 else mem a

/-- The loop `while((bytesread = read(fd, readstart, readsize)) < 0 && errno == EINTR)`:
the final `bytesread`, the bytes stored at `readstart`, and what the descriptor
delivers afterwards. -/
def read_retry : List ReadEvent → Nat → Int × List Nat × List ReadEvent
  | [], _ => (0, [], [])
  | .eintr :: evs, readsize => read_retry evs readsize
  | .error :: evs, _ => (-1, [], evs)
  | .bytes bs :: evs, readsize =>
    if bs.length ≤ readsize then (bs.length, bs, evs)
    else (readsize, bs.take readsize, .bytes (bs.drop readsize) :: evs)

/-- The function `aio_buffer_fill`: the return code, `*adjust` and the buffer
afterwards; `none` when `assert(readsize > 0)` fails.  `readsize` is a `size_t`
(64 bits): `limit - keep` wraps when `keep > limit`. -/
def aio_buffer_fill (buffer : aio_buffer) (keep : Nat) : Option (Int × Int × aio_buffer) :=
  let readsize : Nat :=
    if keep ≤ buffer.limit then buffer.limit - keep else 2 ^ 64 - (keep - buffer.limit)
  if readsize = 0 then none
  else
    let readstart : Int := buffer.start + keep
    let keepstart : Int := buffer.end_ - keep
    let adjust : Int := buffer.start - keepstart
    let mem1 := if keep ≠ 0 then mem_move buffer.mem buffer.start keepstart keep else buffer.mem
    let r := read_retry buffer.src readsize
    let mem2 := mem_write mem1 readstart r.2.1
    if r.1 = 0 then
      some (AIO_ERROR_END_BUFFER, adjust, { buffer with mem := mem2, src := r.2.2 })
    else
      some (0, adjust, { buffer with mem := mem2, src := r.2.2, end_ := readstart + r.1 })

/-- The function `aio_buffer_alloc`, with the page size `getpagesize()` returned
and the address and contents of the memory `xmalloc` returned. -/
def aio_buffer_alloc (aio_pagesize : Nat) (addr : Int) (mem : Int → Nat) : aio_buffer :=
  { data := addr
    size := (ALIGN_TO AIO_BASE_BUFSIZE aio_pagesize).toNat + aio_pagesize + 1
    start := 0, end_ := 0, limit := 0, fd := -1, linestart := 0, linelimit := 0
    mem := mem, src := [] }

/-- The function `aio_buffer_init`, binding the descriptor `fd`, which will
deliver `src`. -/
def aio_buffer_init (aio_pagesize : Nat) (buffer : aio_buffer) (fd : Int)
    (src : List ReadEvent) : Option (Int × aio_buffer) :=
  let start := ALIGN_TO (buffer.data + 1) aio_pagesize
  let limit := buffer.size - (start - buffer.data).toNat
  let b : aio_buffer :=
    { buffer with
      fd := fd, src := src, start := start, limit := limit, end_ := start + limit
      mem := fun a => if a = start - 1 then aio_eol else buffer.mem a
      linestart := start, linelimit := start - 1 }
  match aio_buffer_fill b 0 with
  | none => none
  | some (res, _, b1) => some (res, b1)

/-- The `for` loop of `aio_buffer_loadline`, from its condition, with the locals
`linestart` and `linelimit`.  The first argument bounds the number of
iterations: the result is `none` when it is used up, `some none` when the
assertion in `aio_buffer_fill` fails, and otherwise the return code with the
buffer afterwards. -/
def loadline_loop : Nat → aio_buffer → Int → Int → Option (Option (Int × aio_buffer))
  | 0, _, _, _ => none
  | fuel + 1, buffer, linestart, linelimit =>
    if buffer.mem linelimit ≠ aio_eol then
      if linelimit ≥ buffer.end_ then
        match aio_buffer_fill buffer (linelimit - linestart).toNat with
        | none => some none
        | some (res, adjust, b1) =>
          if res ≠ 0 then
            some (some (res,
              { b1 with linestart := linestart + adjust, linelimit := linelimit + adjust }))
          else loadline_loop fuel b1 (linestart + adjust) (linelimit + adjust + 1)
      else loadline_loop fuel buffer linestart (linelimit + 1)
    else some (some (0, { buffer with linestart := linestart, linelimit := linelimit }))

/-- A bound on what the descriptor still delivers: one per event and one per
byte. -/
def src_weight : List ReadEvent → Nat
  | [] => 0
  | .bytes bs :: evs => bs.length + 1 + src_weight evs
  | .eintr :: evs => 1 + src_weight evs
  | .error :: evs => 1 + src_weight evs

/-- The number of iterations the loop of `aio_buffer_loadline` can still make
from the cursor `linelimit`: every iteration either moves `linelimit` towards
`end` or consumes part of what the descriptor delivers
(`loadline_loop_terminates`). -/
def loadline_bound (buffer : aio_buffer) (linelimit : Int) : Nat :=
  (buffer.end_ - linelimit).toNat + src_weight buffer.src + 1

/-- The function `aio_buffer_loadline`: the return code and the buffer
afterwards; `none` when the assertion in `aio_buffer_fill` fails. -/
def aio_buffer_loadline (buffer : aio_buffer) : Option (Int × aio_buffer) :=
  (loadline_loop (loadline_bound buffer (buffer.linelimit + 1)) buffer
    (buffer.linelimit + 1) (buffer.linelimit + 1)).join

/-- The bytes of the current line, `[linestart, linelimit)`. -/
def aio_line (buffer : aio_buffer) : List Nat :=
  (List.range (buffer.linelimit - buffer.linestart).toNat).map
    (fun i => buffer.mem (buffer.linestart + i))

/-- The loop `while((res = aio_buffer_loadline(buffer)) == 0)` of `work` and
`loadlist` in ipscan.c, at most `n` times round: the lines it sees and the
return code that ends it. -/
def loadline_all : Nat → aio_buffer → List (List Nat) × Option Int
  | 0, _ => ([], none)
  | n + 1, buffer =>
    match aio_buffer_loadline buffer with
    | none => ([], none)
    | some (res, b1) =>
      if res = 0 then ((aio_line b1) :: (loadline_all n b1).1, (loadline_all n b1).2)
      else ([], some res)

/-- The lines read from a descriptor: `aio_buffer_alloc`, `aio_buffer_init`, then
the loop of `aio_buffer_loadline` calls. -/
def read_lines (aio_pagesize : Nat) (addr : Int) (mem : Int → Nat) (src : List ReadEvent)
    (n : Nat) : List (List Nat) × Option Int :=
  match aio_buffer_init aio_pagesize (aio_buffer_alloc aio_pagesize addr mem) 0 src with
  | none => ([], none)
  | some (res, b) => if res = 0 then loadline_all n b else ([], some res)

/-! ## Measures and predicates on trees, blocks and the driver -/

/-- The largest number of allocated nodes (`Branch`) on a path from this node
to a sentinel. -/
def height : IPNode → Nat
  | .ZERO => 0
  | .FULL => 0
  | .Branch c0 c1 => max (height c0) (height c1) + 1

/-- No allocated node below (or at) this node has both children equal to
`FULL`. -/
def no_full_pair : IPNode → Bool
  | .ZERO => true
  | .FULL => true
  | .Branch c0 c1 => !(decide (c0 = .FULL) && decide (c1 = .FULL)) && no_full_pair c0 &&
      no_full_pair c1

/-- The shift amounts `bit` that `node_search` uses on its way down, one per
child link followed, in order. -/
def node_search_shifts : IPNode → Nat → Int → List Int
  | .FULL, _, _ => []
  | .ZERO, _, _ => []
  | .Branch c0 c1, ip, bit =>
    bit :: (if (ip >>> bit.toNat) &&& 1 = 0 then node_search_shifts c0 ip (bit - 1)
      else node_search_shifts c1 ip (bit - 1))

/-- The address `x` lies in the block `ip/cidr`, that is in
`[ip, ip + 2 ^ (32 - cidr))`. -/
def block_mem (x : Nat) (b : Nat × Int) : Prop :=
  b.1 ≤ x ∧ x < b.1 + 2 ^ (32 - b.2).toNat

/-- A CIDR block: a 32-bit address and a prefix in `0 .. 32`, the bits of the
address below the prefix being zero. -/
def cidr_block (b : Nat × Int) : Prop :=
  b.1 < 2 ^ 32 ∧ 0 ≤ b.2 ∧ b.2 ≤ 32 ∧ b.1 % 2 ^ (32 - b.2).toNat = 0

/-- The buffer as the loop `while((res = aio_buffer_loadline(buffer)) == 0)`
leaves it, after at most `n` rounds. -/
def loadline_last : Nat → aio_buffer → aio_buffer
  | 0, buffer => buffer
  | n + 1, buffer =>
    match aio_buffer_loadline buffer with
    | none => buffer
    | some (res, b1) => if res = 0 then loadline_last n b1 else b1

/-- The lines read from a second descriptor by a buffer that was first bound to
another one and read to its end: `aio_buffer_alloc`, `aio_buffer_init` on the
first descriptor, the loop of `aio_buffer_loadline` calls, then
`aio_buffer_init` on the second descriptor and the loop again. -/
def rebind_lines (aio_pagesize : Nat) (addr : Int) (mem : Int → Nat)
    (src1 src2 : List ReadEvent) (n : Nat) : List (List Nat) × Option Int :=
  match aio_buffer_init aio_pagesize (aio_buffer_alloc aio_pagesize addr mem) 0 src1 with
  | none => ([], none)
  | some (res1, b) =>
    match aio_buffer_init aio_pagesize (if res1 = 0 then loadline_last n b else b) 0 src2 with
    | none => ([], none)
    | some (res, b2) => if res = 0 then loadline_all n b2 else ([], some res)

/-- Some leaf below (or at) this node is `FULL`. -/
def has_full : IPNode → Bool
  | .ZERO => false
  | .FULL => true
  | .Branch c0 c1 => has_full c0 || has_full c1

/-- Some leaf below (or at) this node is `ZERO`. -/
def has_zero : IPNode → Bool
  | .ZERO => true
  | .FULL => false
  | .Branch c0 c1 => has_zero c0 || has_zero c1

/-- Every allocated node below (or at) this node has a `FULL` leaf and a `ZERO`
leaf beneath it. -/
def mixed : IPNode → Bool
  | .ZERO => true
  | .FULL => true
  | .Branch c0 c1 =>
    (has_full c0 || has_full c1) && (has_zero c0 || has_zero c1) && mixed c0 && mixed c1

/-- No allocated node below (or at) this node has both children equal to
`ZERO`. -/
def no_zero_pair : IPNode → Bool
  | .ZERO => true
  | .FULL => true
  | .Branch c0 c1 => !(decide (c0 = .ZERO) && decide (c1 = .ZERO)) && no_zero_pair c0 &&
      no_zero_pair c1

/-- What a caller sees after an `aio_buffer_loadline` call: the return code,
`linestart`, `linelimit` and `end` as offsets from `start`, the bytes of
`[linestart, linelimit)` and the byte at `linelimit`. -/
def loadline_view (r : Option (Int × aio_buffer)) :
    Option (Int × Int × Int × Int × List Nat × Nat) :=
  r.map (fun p => (p.1, p.2.linestart - p.2.start, p.2.linelimit - p.2.start,
    p.2.end_ - p.2.start, aio_line p.2, p.2.mem p.2.linelimit))

/-- The `n`-th `aio_buffer_loadline` call after `aio_buffer_alloc` and
`aio_buffer_init` (`n = 0` is the first), when all calls before it returned. -/
def loadline_nth (aio_pagesize : Nat) (addr : Int) (mem : Int → Nat) (src : List ReadEvent) :
    Nat → Option (Int × aio_buffer)
  | 0 =>
    (aio_buffer_init aio_pagesize (aio_buffer_alloc aio_pagesize addr mem) 0 src).bind
      (fun p => aio_buffer_loadline p.2)
  | n + 1 =>
    (loadline_nth aio_pagesize addr mem src n).bind (fun p => aio_buffer_loadline p.2)

/-- The `for` loop of `aio_buffer_setlinelimit`, from its condition, with the
local `limit`.  The first argument bounds the number of iterations: the result
is `none` when it is used up, `some none` when the assertion in
`aio_buffer_fill` fails, and otherwise the buffer afterwards, with `linelimit`
set to `limit`.  (`limit` stays above `linestart`, so `limit - linestart` is
positive.) -/
def setlinelimit_loop : Nat → aio_buffer → Int → Option (Option aio_buffer)
  | 0, _, _ => none
  | fuel + 1, buffer, limit =>
    if buffer.mem limit ≠ aio_eol then
      if limit = buffer.end_ then
        match aio_buffer_fill buffer (limit - buffer.linestart).toNat with
        | none => some none
        | some (res, adj, b1) =>
          if res ≠ 0 then some (some { b1 with linelimit := limit })
          else
            setlinelimit_loop fuel { b1 with linestart := b1.linestart + adj }
              (limit + adj + 1)
      else setlinelimit_loop fuel buffer (limit + 1)
    else some (some { buffer with linelimit := limit })

/-- The function `aio_buffer_setlinelimit` (it returns 0 whenever it returns):
the buffer afterwards.  The loop tests `limit == buffer->end`, so once `limit`
is past `end` it runs on until it meets a terminator byte; the first argument
bounds the number of iterations. -/
def aio_buffer_setlinelimit (fuel : Nat) (buffer : aio_buffer) : Option (Option aio_buffer) :=
  setlinelimit_loop fuel buffer (buffer.linestart + 1)

/-- The part of the ordering `data ≤ start ≤ linestart ≤ linelimit ≤ end ≤
data + size` that holds between any two calls: the window starts after the
first byte of the arena and ends with it, `linestart` is not before `start`,
the cursor `linelimit` is not before `linestart - 1`, and `end` is not after
the arena. -/
def buffer_ok (b : aio_buffer) : Prop :=
  b.data < b.start ∧ b.start + b.limit = b.data + b.size ∧ b.start ≤ b.linestart ∧
    b.linestart ≤ b.linelimit + 1 ∧ b.end_ ≤ b.data + b.size

instance buffer_ok_decidable (b : aio_buffer) : Decidable (buffer_ok b) := by
  unfold buffer_ok
  exact inferInstance

/-- The `FULL` leaves below (or at) a node, each given by the child indices
followed from the node (`false` for `children[0]`, `true` for `children[1]`),
in the order in which `dumpnode` reaches them. -/
def full_paths : IPNode → List (List Bool)
  | .ZERO => []
  | .FULL => [[]]
  | .Branch c0 c1 =>
    (full_paths c0).map (fun p => false :: p) ++ (full_paths c1).map (fun p => true :: p)

/-- The bits of a path as a number: the first child index is the bit at
position `top - 1`, the next one the bit below it, and so on; all other bits
are zero. -/
def path_bits : List Bool → Nat → Nat
  | [], _ => 0
  | b :: p, top => (if b then 2 ^ (top - 1) else 0) + path_bits p (top - 1)

/-- The macro `IPS_PER_LINE`, the initial capacity `detectip_max` of the scratch
arrays `detectip_ips` and `detectip_blocks`. -/
def IPS_PER_LINE : Nat := 4

/-- The code at the label `found` of `detectip_str`, run once for each
candidate, from the values of `count` and of the static `detectip_max`
(`unsigned long`) on entry: the growth test `count > detectip_max`, which
doubles `detectip_max`, and then the store `detectip_ips[count] = ip`.  The
result pairs the index `count` of each store with the capacity `detectip_max`
the arrays have at that store. -/
def found_stores : List (Nat × Int) → Nat → Nat → List (Nat × Nat)
  | [], _, _ => []
  | _ :: cands, count, detectip_max =>
    (count, if count > detectip_max then (detectip_max * 2) % 2 ^ 64 else detectip_max) ::
      found_stores cands (count + 1)
        (if count > detectip_max then (detectip_max * 2) % 2 ^ 64 else detectip_max)

/-- The stores into the scratch arrays during one `detectip_str` call over
`data` (`count` starts at 0), each with the capacity at the store. -/
def detectip_stores (data : List Nat) (detectip_max : Nat) : List (Nat × Nat) :=
  found_stores (detectip_str data) 0 detectip_max

/-- A non-empty run of ASCII digits, of any length. -/
def digit_run (ds : List Nat) : Prop :=
  ds ≠ [] ∧ ∀ b ∈ ds, isdigit b = true

instance digit_run_decidable (ds : List Nat) : Decidable (digit_run ds) := by
  unfold digit_run
  exact inferInstance

/-- The addresses of the bytes that the loop of `aio_buffer_loadline` inspects,
that is the reads `*linelimit` of its condition, in order.  The arguments are
those of `loadline_loop`. -/
def loadline_reads : Nat → aio_buffer → Int → Int → List Int
  | 0, _, _, _ => []
  | fuel + 1, buffer, linestart, linelimit =>
    linelimit ::
      (if buffer.mem linelimit ≠ aio_eol then
        if linelimit ≥ buffer.end_ then
          match aio_buffer_fill buffer (linelimit - linestart).toNat with
          | none => []
          | some (res, adjust, b1) =>
            if res ≠ 0 then []
            else loadline_reads fuel b1 (linestart + adjust) (linelimit + adjust + 1)
        else loadline_reads fuel buffer linestart (linelimit + 1)
      else [])

/-- The addresses of the bytes that one `aio_buffer_loadline` call inspects
while it scans for the terminator. -/
def aio_buffer_loadline_reads (buffer : aio_buffer) : List Int :=
  loadline_reads (loadline_bound buffer (buffer.linelimit + 1)) buffer
    (buffer.linelimit + 1) (buffer.linelimit + 1)

/-- What a caller of `detectip_str` reads: the candidates in the scratch arrays
`*ipsbuf` and `*blocksbuf` at the indices below the returned `count`, for the
value of the static `detectip_max` on entry.  When every store at the label
`found` is inside the arrays (`detectip_stores`), the arrays hold the stored
candidates in order.  When a store goes past the capacity of the arrays the
behaviour of the program is undefined from there on, and the result is
`none`. -/
def detectip_arrays (data : List Nat) (detectip_max : Nat) : Option (List (Nat × Int)) :=
  if (detectip_stores data detectip_max).all (fun s => decide (s.1 < s.2)) then
    some (detectip_str data)
  else none

/-- The function `findip_str` as the program runs it, for the value of the
static `detectip_max` on entry and an `int` selector `pos`: `count` and
`ips[idx]` are read from the scratch arrays.  The result is `none` when
`detectip_str` stored past the arrays, and when `count - pos` overflows an
`int`. -/
def findip_str_arrays (detectip_max : Nat) (tree : IPTree) (data : List Nat) (pos : Int) :
    Option Int :=
  match detectip_arrays data detectip_max with
  | none => none
  | some cands =>
    if (cands.length : Int) = 0 then some IP_NOT_FOUND
    else if pos = 0 then some (findip_loop tree cands)
    else if (if pos > 0 then pos - 1 else (cands.length : Int) - pos) > 2147483647 then none
    else if (if pos > 0 then pos - 1 else (cands.length : Int) - pos) ≥ (cands.length : Int) then
      some IP_POS_OUT_OF_BOUNDS
    else
      some (findip tree (cands.getD
        (if pos > 0 then pos - 1 else (cands.length : Int) - pos).toNat (0, 0)).1)

/-- The function `addip_str` as the program runs it, for the value of the
static `detectip_max` on entry: `ips[0]` and `blocks[0]` are read from the
scratch arrays.  The result is `none` when `detectip_str` stored past the
arrays. -/
def addip_str_arrays (detectip_max : Nat) (tree : IPTree) (data : List Nat) :
    Option (Int × IPTree) :=
  match detectip_arrays data detectip_max with
  | none => none
  | some [] => some (IP_NOT_FOUND, tree)
  | some (c :: _) => some (addip tree c.1 c.2)

/-! ## Theorems: the tree -/

theorem node_insert_FULL (ip : Nat) (bit end_ : Int) :
    node_insert .FULL ip bit end_ = .FULL := by
  simp [node_insert, node_insert_fuel]

theorem node_insert_stop (node : IPNode) (ip : Nat) (bit end_ : Int) (h : bit ≤ end_) :
    node_insert node ip bit end_ = .FULL := by
  cases node <;> simp [node_insert, node_insert_fuel, h]

theorem node_insert_ZERO_rec (ip : Nat) (bit end_ : Int) (h : end_ < bit) :
    node_insert .ZERO ip bit end_ =
      if (ip >>> bit.toNat) &&& 1 = 0 then collapse (node_insert .ZERO ip (bit - 1) end_) .ZERO
      else collapse .ZERO (node_insert .ZERO ip (bit - 1) end_) := by
  have hf : (bit - end_).toNat + 1 = ((bit - 1 - end_).toNat + 1) + 1 := by omega
  have hn : ¬ bit ≤ end_ := by omega
  unfold node_insert
  rw [hf]
  conv_lhs => unfold node_insert_fuel
  rw [if_neg hn]

theorem node_insert_Branch_rec (c0 c1 : IPNode) (ip : Nat) (bit end_ : Int) (h : end_ < bit) :
    node_insert (.Branch c0 c1) ip bit end_ =
      if (ip >>> bit.toNat) &&& 1 = 0 then collapse (node_insert c0 ip (bit - 1) end_) c1
      else collapse c0 (node_insert c1 ip (bit - 1) end_) := by
  have hf : (bit - end_).toNat + 1 = ((bit - 1 - end_).toNat + 1) + 1 := by omega
  have hn : ¬ bit ≤ end_ := by omega
  unfold node_insert
  rw [hf]
  conv_lhs => unfold node_insert_fuel
  rw [if_neg hn]

/-- The recursion equation of the C function `node_insert`. -/
theorem node_insert_eq (node : IPNode) (ip : Nat) (bit end_ : Int) :
    node_insert node ip bit end_ =
      match node with
      | .FULL => .FULL
      | .ZERO =>
        if bit ≤ end_ then .FULL
        else if (ip >>> bit.toNat) &&& 1 = 0 then
          collapse (node_insert .ZERO ip (bit - 1) end_) .ZERO
        else collapse .ZERO (node_insert .ZERO ip (bit - 1) end_)
      | .Branch c0 c1 =>
        if bit ≤ end_ then .FULL
        else if (ip >>> bit.toNat) &&& 1 = 0 then
          collapse (node_insert c0 ip (bit - 1) end_) c1
        else collapse c0 (node_insert c1 ip (bit - 1) end_) := by
  cases node with
  | FULL => exact node_insert_FULL ip bit end_
  | ZERO =>
    by_cases h : bit ≤ end_
    · simp [node_insert_stop _ _ _ _ h, h]
    · simp only [h, if_false]; exact node_insert_ZERO_rec ip bit end_ (by omega)
  | Branch c0 c1 =>
    by_cases h : bit ≤ end_
    · simp [node_insert_stop _ _ _ _ h, h]
    · simp only [h, if_false]; exact node_insert_Branch_rec c0 c1 ip bit end_ (by omega)

theorem node_search_collapse (c0 c1 : IPNode) (x : Nat) (bit : Int) :
    node_search (collapse c0 c1) x bit = node_search (.Branch c0 c1) x bit := by
  unfold collapse
  split
  · rename_i h
    obtain ⟨h0, h1⟩ := h
    subst h0; subst h1
    simp [node_search]
  · rfl

theorem node_search_zero_or_one (node : IPNode) (x : Nat) (bit : Int) :
    node_search node x bit = 0 ∨ node_search node x bit = 1 := by
  induction node generalizing bit with
  | ZERO => left; rfl
  | FULL => right; rfl
  | Branch c0 c1 ih0 ih1 =>
    simp only [node_search]
    split
    · exact ih0 _
    · exact ih1 _

/-- Bit `j` of `x` and of `ip` agree when the two agree above bit `k ≤ j`. -/
theorem bit_eq_of_div_eq (x ip k j : Nat) (hkj : k ≤ j) (h : x / 2 ^ k = ip / 2 ^ k) :
    (x >>> j) &&& 1 = (ip >>> j) &&& 1 := by
  have e : ∀ y : Nat, y >>> j = (y / 2 ^ k) / 2 ^ (j - k) := by
    intro y
    rw [Nat.shiftRight_eq_div_pow, Nat.div_div_eq_div_mul, ← pow_add]
    congr 2; omega
  rw [e x, e ip, h]

/-- What `validateip` computes on the left of `!= ip`: the address with its low
`k` bits cleared. -/
theorem mask_and (ip k : Nat) (hip : ip < 2 ^ 32) (hk : k ≤ 32) :
    ip &&& 0xffffffff &&& ((0xffffffff <<< k) % 2 ^ 32) = ip >>> k <<< k := by
  apply Nat.eq_of_testBit_eq
  intro i
  have hff : (0xffffffff : Nat) = 2 ^ 32 - 1 := by norm_num
  rw [hff]
  simp only [Nat.testBit_and, Nat.testBit_mod_two_pow, Nat.testBit_shiftLeft,
    Nat.testBit_two_pow_sub_one, Nat.testBit_shiftRight]
  by_cases hi : i < 32
  · by_cases hki : k ≤ i
    · have e : k + (i - k) = i := by omega
      have h2 : i - k < 32 := by omega
      simp [hi, hki, e, h2]
    · simp [hi, hki]
  · have : ip.testBit i = false :=
      Nat.testBit_lt_two_pow (lt_of_lt_of_le hip (Nat.pow_le_pow_right (by norm_num) (by omega)))
    by_cases hki : k ≤ i
    · have e : k + (i - k) = i := by omega
      simp [hi, hki, e, this]
    · simp [hi, hki, this]

theorem shift_clear_eq_iff (ip k : Nat) : ip >>> k <<< k = ip ↔ ip % 2 ^ k = 0 := by
  rw [Nat.shiftRight_eq_div_pow, Nat.shiftLeft_eq]
  constructor
  · intro h
    have := Nat.div_add_mod ip (2 ^ k)
    have h2 : 2 ^ k * (ip / 2 ^ k) = ip := by rw [Nat.mul_comm]; exact h
    omega
  · intro h
    have := Nat.div_add_mod ip (2 ^ k)
    rw [h] at this
    rw [Nat.mul_comm]; omega

/-- The value of `validateip` on a 32-bit address and a prefix in `1 .. 32`,
where the shift count is in `0 .. 31`. -/
theorem validateip_eq (ip : Nat) (cidr : Int) (hip : ip < 2 ^ 32) (h1 : 1 ≤ cidr)
    (h32 : cidr ≤ 32) :
    validateip ip cidr =
      if ip % 2 ^ (32 - cidr).toNat = 0 then 0 else IP_ERROR_ADDRESS_INVALID_BAD_CIDR := by
  have hk : (32 - cidr).toNat ≤ 32 := by omega
  have hgt : ¬ ip > 0xffffffff := by
    have : (0xffffffff : Nat) = 2 ^ 32 - 1 := by norm_num
    omega
  have hc : (32 - cidr) % 32 = 32 - cidr := Int.emod_eq_of_lt (by omega) (by omega)
  unfold validateip
  rw [if_neg hgt, hc, mask_and ip _ hip hk]
  by_cases hz : ip % 2 ^ (32 - cidr).toNat = 0
  · rw [if_pos hz, if_neg (by rw [ne_eq, not_not]; exact (shift_clear_eq_iff _ _).2 hz)]
  · rw [if_neg hz, if_pos (by rw [ne_eq]; exact fun h => hz ((shift_clear_eq_iff _ _).1 h))]

/-- At prefix 0 the count of the shift is 32; taken modulo 32 it is 0, the mask
is `0xffffffff` and every 32-bit address passes. -/
theorem validateip_prefix_0 (ip : Nat) (hip : ip < 2 ^ 32) : validateip ip 0 = 0 := by
  have hgt : ¬ ip > 0xffffffff := by
    have : (0xffffffff : Nat) = 2 ^ 32 - 1 := by norm_num
    omega
  have hc : ((32 : Int) - 0) % 32 = 0 := by decide
  unfold validateip
  rw [if_neg hgt, hc, mask_and ip _ hip (by decide)]
  simp

/-- A 32-bit address whose bits below the prefix are zero passes `validateip`,
for every prefix in `0 .. 32`. -/
theorem validateip_of_aligned (ip : Nat) (cidr : Int) (hip : ip < 2 ^ 32) (h0 : 0 ≤ cidr)
    (h32 : cidr ≤ 32) (hz : ip % 2 ^ (32 - cidr).toNat = 0) : validateip ip cidr = 0 := by
  by_cases hc : cidr = 0
  · subst hc
    exact validateip_prefix_0 ip hip
  · rw [validateip_eq ip cidr hip (by omega) h32, if_pos hz]

/-- After `node_insert` the inserted block is found: every `x` that agrees with
`ip` above bit `end` reaches a `FULL` node. -/
theorem node_search_insert (n : Nat) :
    ∀ (node : IPNode) (ip x : Nat) (bit end_ : Int), -1 ≤ end_ → bit = end_ + n →
      x / 2 ^ (end_ + 1).toNat = ip / 2 ^ (end_ + 1).toNat →
      node_search (node_insert node ip bit end_) x bit = 1 := by
  induction n with
  | zero =>
    intro node ip x bit end_ _ hb _
    rw [node_insert_stop node ip bit end_ (by omega)]
    rfl
  | succ n ih =>
    intro node ip x bit end_ he hb hx
    have hlt : end_ < bit := by omega
    have hbit : (x >>> bit.toNat) &&& 1 = (ip >>> bit.toNat) &&& 1 :=
      bit_eq_of_div_eq x ip _ _ (by omega) hx
    have hrec : ∀ c : IPNode, node_search (node_insert c ip (bit - 1) end_) x (bit - 1) = 1 :=
      fun c => ih c ip x (bit - 1) end_ he (by omega) hx
    cases node with
    | FULL => rw [node_insert_FULL]; rfl
    | ZERO =>
      rw [node_insert_ZERO_rec ip bit end_ hlt]
      split <;> rename_i hc <;> rw [node_search_collapse] <;>
        simp only [node_search, hbit, hc, if_true, if_false] <;> exact hrec _
    | Branch c0 c1 =>
      rw [node_insert_Branch_rec c0 c1 ip bit end_ hlt]
      split <;> rename_i hc <;> rw [node_search_collapse] <;>
        simp only [node_search, hbit, hc, if_true, if_false] <;> exact hrec _


theorem collapse_ZERO_right (c : IPNode) : collapse c .ZERO = .Branch c .ZERO := by
  simp [collapse]

theorem collapse_ZERO_left (c : IPNode) : collapse .ZERO c = .Branch .ZERO c := by
  simp [collapse]

/-- Below the stopping level a fresh branch behaves as `ZERO` does: `node_insert`
replaces `ZERO` by a node with two `ZERO` children before it recurses. -/
theorem node_insert_ZERO_as_Branch (ip : Nat) (bit end_ : Int) (h : end_ < bit) :
    node_insert .ZERO ip bit end_ = node_insert (.Branch .ZERO .ZERO) ip bit end_ := by
  rw [node_insert_ZERO_rec ip bit end_ h, node_insert_Branch_rec _ _ ip bit end_ h]

/-- An address found after `node_insert` was found before, or agrees with the
inserted `ip` on every bit from `bit` down to `end + 1`. -/
theorem node_search_insert_inv (n : Nat) :
    ∀ (node : IPNode) (ip x : Nat) (bit end_ : Int), -1 ≤ end_ → bit = end_ + n →
      node_search (node_insert node ip bit end_) x bit = 1 →
      node_search node x bit = 1 ∨
        ∀ j : Nat, end_ < (j : Int) → (j : Int) ≤ bit → (x >>> j) &&& 1 = (ip >>> j) &&& 1 := by
  induction n with
  | zero =>
    intro node ip x bit end_ _ hb _
    right
    intro j h1 h2
    omega
  | succ n ih =>
    intro node ip x bit end_ he hb hs
    have hlt : end_ < bit := by omega
    have key : ∀ c0 c1 : IPNode,
        node_search (node_insert (.Branch c0 c1) ip bit end_) x bit = 1 →
        node_search (.Branch c0 c1) x bit = 1 ∨
          ∀ j : Nat, end_ < (j : Int) → (j : Int) ≤ bit →
            (x >>> j) &&& 1 = (ip >>> j) &&& 1 := by
      intro c0 c1 h
      rw [node_insert_Branch_rec c0 c1 ip bit end_ hlt] at h
      have ext : ∀ c : IPNode, node_search (node_insert c ip (bit - 1) end_) x (bit - 1) = 1 →
          (x >>> bit.toNat) &&& 1 = (ip >>> bit.toNat) &&& 1 →
          node_search c x (bit - 1) = 1 ∨
            ∀ j : Nat, end_ < (j : Int) → (j : Int) ≤ bit →
              (x >>> j) &&& 1 = (ip >>> j) &&& 1 := by
        intro c hc hbit
        rcases ih c ip x (bit - 1) end_ he (by omega) hc with h1 | h2
        · exact Or.inl h1
        · right
          intro j hj1 hj2
          by_cases hjb : (j : Int) = bit
          · have : j = bit.toNat := by omega
            rw [this]; exact hbit
          · exact h2 j hj1 (by omega)
      by_cases hi : (ip >>> bit.toNat) &&& 1 = 0
      · rw [if_pos hi, node_search_collapse] at h
        by_cases hx : (x >>> bit.toNat) &&& 1 = 0
        · simp only [node_search, hx, if_true] at h ⊢
          exact ext c0 h (by rw [hx, hi])
        · simp only [node_search, hx, if_false] at h ⊢
          exact Or.inl h
      · rw [if_neg hi, node_search_collapse] at h
        by_cases hx : (x >>> bit.toNat) &&& 1 = 0
        · simp only [node_search, hx, if_true] at h ⊢
          exact Or.inl h
        · simp only [node_search, hx, if_false] at h ⊢
          refine ext c1 h ?_
          rw [Nat.and_one_is_mod] at hi hx ⊢
          rw [Nat.and_one_is_mod]
          omega
    cases node with
    | FULL =>
      left; rfl
    | ZERO =>
      rw [node_insert_ZERO_as_Branch ip bit end_ hlt] at hs
      rcases key .ZERO .ZERO hs with h1 | h2
      · exfalso
        simp only [node_search] at h1
        split at h1 <;> exact absurd h1 (by decide)
      · exact Or.inr h2
    | Branch c0 c1 => exact key c0 c1 hs

/-- Two 32-bit values that agree on bits `k .. 31` have the same quotient by
`2 ^ k`. -/
theorem div_eq_of_bits_eq (x ip k : Nat) (hx : x < 2 ^ 32) (hip : ip < 2 ^ 32)
    (h : ∀ j : Nat, k ≤ j → j ≤ 31 → (x >>> j) &&& 1 = (ip >>> j) &&& 1) :
    x / 2 ^ k = ip / 2 ^ k := by
  rw [← Nat.shiftRight_eq_div_pow, ← Nat.shiftRight_eq_div_pow]
  apply Nat.eq_of_testBit_eq
  intro i
  rw [Nat.testBit_shiftRight, Nat.testBit_shiftRight]
  by_cases hi : k + i ≤ 31
  · have := h (k + i) (by omega) hi
    rw [Nat.and_one_is_mod, Nat.and_one_is_mod, Nat.shiftRight_eq_div_pow,
      Nat.shiftRight_eq_div_pow] at this
    rw [Nat.testBit_to_div_mod, Nat.testBit_to_div_mod, this]
  · have hp : (2 : Nat) ^ 32 ≤ 2 ^ (k + i) := Nat.pow_le_pow_right (by norm_num) (by omega)
    rw [Nat.testBit_lt_two_pow (lt_of_lt_of_le hx hp),
      Nat.testBit_lt_two_pow (lt_of_lt_of_le hip hp)]

/-- Membership in an aligned block, from the quotients. -/
theorem in_block_of_div_eq (x ip k : Nat) (hz : ip % 2 ^ k = 0) (h : x / 2 ^ k = ip / 2 ^ k) :
    ip ≤ x ∧ x < ip + 2 ^ k := by
  have h1 := Nat.div_add_mod ip (2 ^ k)
  have h2 := Nat.div_add_mod x (2 ^ k)
  have h3 : x % 2 ^ k < 2 ^ k := Nat.mod_lt _ (by positivity)
  rw [hz] at h1
  rw [h] at h2
  omega

theorem div_eq_of_in_block (x ip k : Nat) (hz : ip % 2 ^ k = 0) (h1 : ip ≤ x)
    (h2 : x < ip + 2 ^ k) : x / 2 ^ k = ip / 2 ^ k := by
  have e := Nat.div_add_mod ip (2 ^ k)
  rw [hz, Nat.add_zero] at e
  apply Nat.div_eq_of_lt_le
  · rw [Nat.mul_comm]; omega
  · rw [Nat.add_mul, Nat.one_mul, Nat.mul_comm]; omega

/-- One `addip` call adds no address outside its block: an address found
afterwards was found before, or the call returned 0 and the address lies in
`[ip, ip + 2 ^ (32 - block))`. -/
theorem findip_addip_inv (tree : IPTree) (ip x : Nat) (block : Int) (hip : ip < 2 ^ 32)
    (hx : x < 2 ^ 32) (h0 : 0 ≤ block) (h32 : block ≤ 32) (hz0 : block = 0 → ip = 0)
    (h : findip (addip tree ip block).2 x = 1) :
    findip tree x = 1 ∨
      ((addip tree ip block).1 = 0 ∧ ip ≤ x ∧ x < ip + 2 ^ (32 - block).toNat) := by
  by_cases hz : ip % 2 ^ (32 - block).toNat = 0
  · have hv := validateip_of_aligned ip block hip h0 h32 hz
    have ha : addip tree ip block = (0, ⟨node_insert tree.root ip 31 (31 - block)⟩) := by
      simp [addip, hv]
    rw [ha] at h
    simp only [findip] at h
    rcases node_search_insert_inv block.toNat tree.root ip x 31 (31 - block) (by omega)
        (by omega) h with h1 | h2
    · exact Or.inl h1
    · right
      refine ⟨by rw [ha], ?_⟩
      apply in_block_of_div_eq x ip _ hz
      apply div_eq_of_bits_eq x ip _ hx hip
      intro j hj1 hj2
      exact h2 j (by omega) (by omega)
  · have h1 : 1 ≤ block := by
      by_contra hb
      have hb0 : block = 0 := by omega
      rw [hz0 hb0] at hz
      exact hz (Nat.zero_mod _)
    have hv := validateip_eq ip block hip h1 h32
    rw [if_neg hz] at hv
    have ha : addip tree ip block = (IP_ERROR_ADDRESS_INVALID_BAD_CIDR, tree) := by
      simp [addip, hv, IP_ERROR_ADDRESS_INVALID_BAD_CIDR]
    rw [ha] at h
    exact Or.inl h

theorem findip_addip_seq_inv (calls : List (Nat × Int)) :
    ∀ (tree : IPTree) (x : Nat), x < 2 ^ 32 →
      (∀ c ∈ calls, c.1 < 2 ^ 32 ∧ 0 ≤ c.2 ∧ c.2 ≤ 32 ∧ (c.2 = 0 → c.1 = 0)) →
      findip (addip_seq tree calls).1 x = 1 →
      findip tree x = 1 ∨
        ∃ c ∈ (addip_seq tree calls).2, c.1 ≤ x ∧ x < c.1 + 2 ^ (32 - c.2).toNat := by
  induction calls with
  | nil =>
    intro tree x _ _ h
    exact Or.inl h
  | cons c calls ih =>
    intro tree x hx hc h
    obtain ⟨ip, block⟩ := c
    have hc0 := hc (ip, block) (List.mem_cons_self _ _)
    simp only [addip_seq] at h ⊢
    rcases ih (addip tree ip block).2 x hx
        (fun c hm => hc c (List.mem_cons_of_mem _ hm)) h with h1 | ⟨c, hm, hb⟩
    · rcases findip_addip_inv tree ip x block hc0.1 hx hc0.2.1 hc0.2.2.1 hc0.2.2.2 h1
        with h2 | ⟨hr, hb⟩
      · exact Or.inl h2
      · right
        refine ⟨(ip, block), ?_, hb⟩
        rw [if_pos hr]
        exact List.mem_cons_self _ _
    · right
      refine ⟨c, ?_, hb⟩
      split
      · exact List.mem_cons_of_mem _ hm
      · exact hm

/-- Inserting the two halves of a block, in either order, into `ZERO` gives the
tree that inserting the whole block gives: the two `FULL` children collapse. -/
theorem node_insert_siblings (n : Nat) :
    ∀ (ip ip2 : Nat) (bit end_ : Int), -1 ≤ end_ → bit = end_ + 1 + n →
      (ip >>> (end_ + 1).toNat) &&& 1 = 0 → (ip2 >>> (end_ + 1).toNat) &&& 1 = 1 →
      (∀ j : Nat, end_ + 1 < (j : Int) → (j : Int) ≤ bit →
        (ip2 >>> j) &&& 1 = (ip >>> j) &&& 1) →
      node_insert (node_insert .ZERO ip bit end_) ip2 bit end_ =
          node_insert .ZERO ip bit (end_ + 1) ∧
        node_insert (node_insert .ZERO ip2 bit end_) ip bit end_ =
          node_insert .ZERO ip bit (end_ + 1) := by
  induction n with
  | zero =>
    intro ip ip2 bit end_ he hb h1 h2 _
    have hb2 : bit = end_ + 1 := by omega
    subst hb2
    have hne : ¬ (ip2 >>> (end_ + 1).toNat) &&& 1 = 0 := by rw [h2]; decide
    have hs : ∀ a : Nat, node_insert .ZERO a (end_ + 1 - 1) end_ = .FULL :=
      fun a => node_insert_stop _ _ _ _ (by omega)
    rw [node_insert_stop .ZERO ip (end_ + 1) (end_ + 1) (le_refl _),
      node_insert_ZERO_rec ip (end_ + 1) end_ (by omega),
      node_insert_ZERO_rec ip2 (end_ + 1) end_ (by omega),
      if_pos h1, if_neg hne, hs, hs, collapse_ZERO_right, collapse_ZERO_left,
      node_insert_Branch_rec _ _ ip2 (end_ + 1) end_ (by omega),
      node_insert_Branch_rec _ _ ip (end_ + 1) end_ (by omega),
      if_pos h1, if_neg hne, hs, hs]
    exact ⟨by decide, by decide⟩
  | succ n ih =>
    intro ip ip2 bit end_ he hb h1 h2 hag
    have hlt : end_ + 1 < bit := by omega
    have hbit : (ip2 >>> bit.toNat) &&& 1 = (ip >>> bit.toNat) &&& 1 :=
      hag bit.toNat (by omega) (by omega)
    obtain ⟨r1, r2⟩ := ih ip ip2 (bit - 1) end_ he (by omega) h1 h2
      (fun j hj1 hj2 => hag j hj1 (by omega))
    rw [node_insert_ZERO_rec ip bit end_ (by omega),
      node_insert_ZERO_rec ip2 bit end_ (by omega),
      node_insert_ZERO_rec ip bit (end_ + 1) hlt, hbit]
    by_cases hi : (ip >>> bit.toNat) &&& 1 = 0
    · simp only [if_pos hi, collapse_ZERO_right]
      rw [node_insert_Branch_rec _ _ ip2 bit end_ (by omega),
        node_insert_Branch_rec _ _ ip bit end_ (by omega)]
      simp only [hbit, if_pos hi, r1, r2, collapse_ZERO_right, and_self]
    · simp only [if_neg hi, collapse_ZERO_left]
      rw [node_insert_Branch_rec _ _ ip2 bit end_ (by omega),
        node_insert_Branch_rec _ _ ip bit end_ (by omega)]
      simp only [hbit, if_neg hi, r1, r2, collapse_ZERO_left, and_self]

/-- Clearing one bit less: the two cases of the next accumulated address in
`dumpnode`. -/
theorem clear_low_step (ip b : Nat) (hb : b ≤ 31) :
    ((ip >>> b) &&& 1 = 0 → ip >>> (b + 1) <<< (b + 1) = ip >>> b <<< b) ∧
      (¬ (ip >>> b) &&& 1 = 0 →
        (ip >>> (b + 1) <<< (b + 1)) ||| ((1 <<< b) % 2 ^ 32) = ip >>> b <<< b) := by
  have hlt : (1 : Nat) <<< b < 2 ^ 32 := by
    rw [Nat.shiftLeft_eq, Nat.one_mul]
    exact Nat.pow_lt_pow_right (by norm_num) (by omega)
  have key : ∀ v : Bool, ip.testBit b = v → ∀ i : Nat,
      ((decide (b + 1 ≤ i) && ip.testBit i) || (v && decide (b = i))) =
        (decide (b ≤ i) && ip.testBit i) := by
    intro v hv i
    by_cases h1 : b = i
    · subst h1; simp [hv]
    · by_cases h2 : b + 1 ≤ i
      · have : b ≤ i := by omega
        simp [h1, h2, this]
      · have : ¬ b ≤ i := by omega
        simp [h1, h2, this]
  constructor
  · intro h0
    have hv : ip.testBit b = false := by
      rw [Nat.testBit_to_div_mod, ← Nat.shiftRight_eq_div_pow, ← Nat.and_one_is_mod, h0]
      rfl
    apply Nat.eq_of_testBit_eq
    intro i
    have := key false hv i
    simp only [Nat.testBit_shiftLeft, Nat.testBit_shiftRight, ge_iff_le]
    by_cases h2 : b + 1 ≤ i
    · have e1 : b + 1 + (i - (b + 1)) = i := by omega
      have e2 : b + (i - b) = i := by omega
      rw [e1, e2]; simpa using this
    · by_cases h3 : b ≤ i
      · have e : i = b := by omega
        subst e
        simp [hv]
      · simp [h2, h3]
  · intro h1
    have hv : ip.testBit b = true := by
      rw [Nat.testBit_to_div_mod, ← Nat.shiftRight_eq_div_pow, ← Nat.and_one_is_mod]
      have : (ip >>> b) &&& 1 = 1 := by
        rw [Nat.and_one_is_mod] at h1 ⊢; omega
      rw [this]; rfl
    rw [Nat.mod_eq_of_lt hlt, Nat.one_shiftLeft]
    apply Nat.eq_of_testBit_eq
    intro i
    simp only [Nat.testBit_or, Nat.testBit_shiftLeft, Nat.testBit_shiftRight, ge_iff_le,
      Nat.testBit_two_pow]
    by_cases h2 : b + 1 ≤ i
    · have e1 : b + 1 + (i - (b + 1)) = i := by omega
      have e2 : b + (i - b) = i := by omega
      have h3 : b ≤ i := by omega
      have h4 : ¬ b = i := by omega
      rw [e1, e2]; simp [h2, h3, h4]
    · by_cases h3 : b ≤ i
      · have e : i = b := by omega
        subst e
        simp [hv]
      · have h4 : ¬ b = i := by omega
        simp [h2, h3, h4]

/-- What `dumpnode` emits for a block inserted into `ZERO`: one call, with the
path bits of `ip` and the prefix of the level where `FULL` sits. -/
theorem dumpnode_insert_ZERO (n : Nat) :
    ∀ (ip : Nat) (bit end_ : Int), -1 ≤ end_ → bit = end_ + n → bit ≤ 31 →
      dumpnode (node_insert .ZERO ip bit end_) (ip >>> (bit + 1).toNat <<< (bit + 1).toNat) bit
        = [(ip >>> (end_ + 1).toNat <<< (end_ + 1).toNat, 31 - end_)] := by
  induction n with
  | zero =>
    intro ip bit end_ _ hb _
    have : bit = end_ := by omega
    subst this
    rw [node_insert_stop _ _ _ _ (le_refl _)]
    rfl
  | succ n ih =>
    intro ip bit end_ he hb h31
    have hlt : end_ < bit := by omega
    have hrec := ih ip (bit - 1) end_ he (by omega) (by omega)
    have e1 : (bit - 1 + 1).toNat = bit.toNat := by congr 1; omega
    have e2 : (bit + 1).toNat = bit.toNat + 1 := by omega
    rw [e1] at hrec
    obtain ⟨s0, s1⟩ := clear_low_step ip bit.toNat (by omega)
    rw [node_insert_ZERO_rec ip bit end_ hlt, e2]
    by_cases hi : (ip >>> bit.toNat) &&& 1 = 0
    · rw [if_pos hi, collapse_ZERO_right]
      simp only [dumpnode, List.append_nil]
      rw [s0 hi]; exact hrec
    · rw [if_neg hi, collapse_ZERO_left]
      simp only [dumpnode, List.nil_append]
      rw [s1 hi]; exact hrec

/-- C1: for every tree (in particular every tree reachable from `makeiptree` by
`addip` calls), every 32-bit `ip` and every `block` in `0 .. 32` such that the
low `32 - block` bits of `ip` are zero, `addip` returns 0 and afterwards
`findip` returns 1 for every `x` with `ip ≤ x < ip + 2 ^ (32 - block)`. -/
theorem addip_then_findip (tree : IPTree) (ip : Nat) (block : Int) (hip : ip < 2 ^ 32)
    (h0 : 0 ≤ block) (h32 : block ≤ 32) (hz : ip % 2 ^ (32 - block).toNat = 0) :
    (addip tree ip block).1 = 0 ∧
      ∀ x : Nat, ip ≤ x → x < ip + 2 ^ (32 - block).toNat →
        findip (addip tree ip block).2 x = 1 := by
  have hv := validateip_of_aligned ip block hip h0 h32 hz
  have ha : addip tree ip block = (0, ⟨node_insert tree.root ip 31 (31 - block)⟩) := by
    simp [addip, hv]
  rw [ha]
  refine ⟨rfl, ?_⟩
  intro x hx1 hx2
  simp only [findip]
  apply node_search_insert block.toNat tree.root ip x 31 (31 - block) (by omega) (by omega)
  have e : (31 - block + 1).toNat = (32 - block).toNat := by congr 1; omega
  rw [e]
  exact div_eq_of_in_block x ip _ hz hx1 hx2

theorem addip_then_findip_witness :
    (167772160 : Nat) < 2 ^ 32 ∧ (0 : Int) ≤ 24 ∧ (24 : Int) ≤ 32 ∧
      167772160 % 2 ^ ((32 : Int) - 24).toNat = 0 ∧
      (addip makeiptree 167772160 24).1 = 0 ∧
      ∀ x : Nat, 167772160 ≤ x → x < 167772160 + 2 ^ ((32 : Int) - 24).toNat →
        findip (addip makeiptree 167772160 24).2 x = 1 :=
  ⟨by decide, by decide, by decide, by decide,
    addip_then_findip makeiptree 167772160 24 (by decide) (by decide) (by decide) (by decide)⟩

/-- After any sequence of `addip` calls on `makeiptree ()`, with 32-bit
addresses and `block` in `0 .. 32`, prefix 0 only with the address 0, `findip`
returns 0 for every 32-bit address that lies in none of the blocks
`[ip, ip + 2 ^ (32 - block))` of the calls that returned 0. -/
theorem findip_outside_aligned_blocks (calls : List (Nat × Int)) (x : Nat) (hx : x < 2 ^ 32)
    (hc : ∀ c ∈ calls, c.1 < 2 ^ 32 ∧ 0 ≤ c.2 ∧ c.2 ≤ 32 ∧ (c.2 = 0 → c.1 = 0))
    (hout : ∀ c ∈ (addip_seq makeiptree calls).2,
      ¬ (c.1 ≤ x ∧ x < c.1 + 2 ^ (32 - c.2).toNat)) :
    findip (addip_seq makeiptree calls).1 x = 0 := by
  rcases node_search_zero_or_one (addip_seq makeiptree calls).1.root x 31 with h | h
  · exact h
  · exfalso
    rcases findip_addip_seq_inv calls makeiptree x hx hc h with h1 | ⟨c, hm, hb⟩
    · simp [findip, makeiptree, node_search] at h1
    · exact hout c hm hb

/-- C2, the code at the failing input: the call `addip(tree, 10.0.0.0, 0)` on
`makeiptree ()` returns 0 (at prefix 0 `validateip` lets every address pass, see
`validateip_prefix_0`) and makes the root `FULL`; the address 5 lies outside
the block `[10.0.0.0, 10.0.0.0 + 2 ^ 32)` of that call, the only one that
returned 0, and `findip` returns 1 for it.  The second half of the claim holds:
`findip` returns 0 or 1 on every tree. -/
theorem findip_outside_block_prefix_0 :
    (addip_seq makeiptree [(167772160, 0)]).2 = [(167772160, 0)] ∧
      (addip_seq makeiptree [(167772160, 0)]).1 = ⟨.FULL⟩ ∧
      ¬ ((167772160 : Nat) ≤ 5 ∧ 5 < 167772160 + 2 ^ ((32 : Int) - 0).toNat) ∧
      findip (addip_seq makeiptree [(167772160, 0)]).1 5 = 1 ∧
      ∀ (tree : IPTree) (y : Nat), findip tree y = 0 ∨ findip tree y = 1 :=
  ⟨by decide, by decide, by decide, by decide,
    fun tree y => node_search_zero_or_one tree.root y 31⟩

/-- For every 32-bit `ip` and every prefix in `1 .. 32`, `addip` returns
`IP_ERROR_ADDRESS_INVALID_BAD_CIDR` exactly when `ip` has a nonzero bit among
its low `32 - prefix` bits, and returns 0 otherwise. -/
theorem addip_bad_cidr_iff_1_32 (tree : IPTree) (ip : Nat) (block : Int) (hip : ip < 2 ^ 32)
    (h1 : 1 ≤ block) (h32 : block ≤ 32) :
    ((addip tree ip block).1 = IP_ERROR_ADDRESS_INVALID_BAD_CIDR ↔
        ip % 2 ^ (32 - block).toNat ≠ 0) ∧
      (ip % 2 ^ (32 - block).toNat = 0 → (addip tree ip block).1 = 0) := by
  have hv := validateip_eq ip block hip h1 h32
  have hr : (addip tree ip block).1 = validateip ip block := by
    unfold addip
    split
    · rfl
    · rename_i h
      rw [ne_eq, not_not] at h
      exact h.symm
  rw [hr, hv]
  refine ⟨?_, ?_⟩
  · by_cases hz : ip % 2 ^ (32 - block).toNat = 0
    · simp [hz, IP_ERROR_ADDRESS_INVALID_BAD_CIDR]
    · simp [hz]
  · intro hz
    rw [if_pos hz]

/-- C10, the code at the failing input: at prefix 0 `validateip` shifts the
32-bit `0xffffffff` by 32.  C leaves that shift undefined; with the count
taken modulo 32 the mask is `0xffffffff`, so `addip` of `10.0.0.0/0` returns 0,
not `IP_ERROR_ADDRESS_INVALID_BAD_CIDR`, although the low 32 bits of `10.0.0.0`
are not zero, and the root becomes `FULL`.  The two witnesses of the claim,
`10.0.0.1/24` rejected and `10.0.0.0/24` accepted, are as claimed. -/
theorem addip_prefix_0_accepts_host_bits :
    167772160 % 2 ^ ((32 : Int) - 0).toNat ≠ 0 ∧
      validateip 167772160 0 = 0 ∧
      addip makeiptree 167772160 0 = (0, ⟨.FULL⟩) ∧
      (addip makeiptree 167772161 24).1 = IP_ERROR_ADDRESS_INVALID_BAD_CIDR ∧
      (addip makeiptree 167772160 24).1 = 0 := by
  decide

theorem addip_of_valid (tree : IPTree) (ip : Nat) (block : Int) (hip : ip < 2 ^ 32)
    (h0 : 0 ≤ block) (h32 : block ≤ 32) (hz : ip % 2 ^ (32 - block).toNat = 0) :
    addip tree ip block = (0, ⟨node_insert tree.root ip 31 (31 - block)⟩) := by
  have hv := validateip_of_aligned ip block hip h0 h32 hz
  simp [addip, hv]

/-- C3: for every prefix `p` in `1 .. 32` and every 32-bit `ip` whose low
`33 - p` bits are zero, inserting the sibling blocks `(ip, p)` and
`(ip + 2 ^ (32 - p), p)` into an empty tree, in either order, succeeds, and
`dumptree` then emits exactly one block, `ip/(p - 1)`. -/
theorem siblings_dump (ip : Nat) (p : Int) (hip : ip < 2 ^ 32) (hp1 : 1 ≤ p) (hp32 : p ≤ 32)
    (hz : ip % 2 ^ (33 - p).toNat = 0) :
    (addip makeiptree ip p).1 = 0 ∧
      (addip (addip makeiptree ip p).2 (ip + 2 ^ (32 - p).toNat) p).1 = 0 ∧
      dumpnode (addip (addip makeiptree ip p).2 (ip + 2 ^ (32 - p).toNat) p).2.root 0 31
        = [(ip, p - 1)] ∧
      dumptree (addip (addip makeiptree ip p).2 (ip + 2 ^ (32 - p).toNat) p).2
        = [dumpip ip (p - 1)] ∧
      (addip makeiptree (ip + 2 ^ (32 - p).toNat) p).1 = 0 ∧
      (addip (addip makeiptree (ip + 2 ^ (32 - p).toNat) p).2 ip p).1 = 0 ∧
      dumpnode (addip (addip makeiptree (ip + 2 ^ (32 - p).toNat) p).2 ip p).2.root 0 31
        = [(ip, p - 1)] ∧
      dumptree (addip (addip makeiptree (ip + 2 ^ (32 - p).toNat) p).2 ip p).2
        = [dumpip ip (p - 1)] := by
  have hK : (33 - p).toNat = (32 - p).toNat + 1 := by omega
  rw [hK] at hz
  generalize hKdef : (32 - p).toNat = K at hz ⊢
  have hK31 : K ≤ 31 := by omega
  obtain ⟨q, hq⟩ := Nat.dvd_of_mod_eq_zero hz
  have hpow : (2 : Nat) ^ (K + 1) = 2 ^ K * 2 := pow_succ 2 K
  have hKpos : 0 < 2 ^ K := by positivity
  have h32pow : (2 : Nat) ^ 32 = 2 ^ (K + 1) * 2 ^ (31 - K) := by
    rw [← pow_add]; congr 1; omega
  have hipK : ip % 2 ^ K = 0 := by
    rw [hq, hpow, Nat.mul_assoc]; exact Nat.mul_mod_right _ _
  have hsK : (ip + 2 ^ K) % 2 ^ K = 0 := by
    rw [Nat.add_mod, hipK]; simp
  have hqlt : q < 2 ^ (31 - K) := by
    rw [hq, h32pow] at hip
    exact Nat.lt_of_mul_lt_mul_left hip
  have hslt : ip + 2 ^ K < 2 ^ 32 := by
    have h1 : 2 ^ (K + 1) * (q + 1) ≤ 2 ^ (K + 1) * 2 ^ (31 - K) :=
      Nat.mul_le_mul_left _ hqlt
    rw [← h32pow, Nat.mul_add, Nat.mul_one, ← hq] at h1
    omega
  have hp0 : (0 : Int) ≤ p := by omega
  have A1 : ∀ t : IPTree, addip t ip p = (0, ⟨node_insert t.root ip 31 (31 - p)⟩) :=
    fun t => addip_of_valid t ip p hip hp0 hp32 (by rw [hKdef]; exact hipK)
  have A2 : ∀ t : IPTree,
      addip t (ip + 2 ^ K) p = (0, ⟨node_insert t.root (ip + 2 ^ K) 31 (31 - p)⟩) :=
    fun t => addip_of_valid t (ip + 2 ^ K) p hslt hp0 hp32 (by rw [hKdef]; exact hsK)
  have eK : (31 - p + 1).toNat = K := by rw [← hKdef]; congr 1; omega
  have hd1 : ip / 2 ^ K = 2 * q := by
    rw [hq, hpow, Nat.mul_assoc, Nat.mul_div_cancel_left _ hKpos]
  have hd2 : (ip + 2 ^ K) / 2 ^ K = 2 * q + 1 := by
    rw [hq, hpow, Nat.mul_assoc]
    have : 2 ^ K * (2 * q) + 2 ^ K = 2 ^ K * (2 * q + 1) := by ring
    rw [this, Nat.mul_div_cancel_left _ hKpos]
  have hb1 : (ip >>> (31 - p + 1).toNat) &&& 1 = 0 := by
    rw [eK, Nat.and_one_is_mod, Nat.shiftRight_eq_div_pow, hd1]; omega
  have hb2 : ((ip + 2 ^ K) >>> (31 - p + 1).toNat) &&& 1 = 1 := by
    rw [eK, Nat.and_one_is_mod, Nat.shiftRight_eq_div_pow, hd2]; omega
  have hdd : (ip + 2 ^ K) / 2 ^ (K + 1) = ip / 2 ^ (K + 1) := by
    apply div_eq_of_in_block _ _ _ hz (by omega)
    have := Nat.pow_lt_pow_right (a := 2) (by norm_num) (Nat.lt_succ_self K)
    omega
  have hag : ∀ j : Nat, (31 - p) + 1 < (j : Int) → (j : Int) ≤ 31 →
      ((ip + 2 ^ K) >>> j) &&& 1 = (ip >>> j) &&& 1 :=
    fun j hj1 _ => bit_eq_of_div_eq _ _ (K + 1) j (by omega) hdd
  obtain ⟨S1, S2⟩ := node_insert_siblings (p - 1).toNat ip (ip + 2 ^ K) 31 (31 - p)
    (by omega) (by omega) hb1 hb2 hag
  have hacc : ip >>> ((31 : Int) + 1).toNat <<< ((31 : Int) + 1).toNat = 0 := by
    have : ((31 : Int) + 1).toNat = 32 := by decide
    rw [this, Nat.shiftRight_eq_div_pow, Nat.div_eq_of_lt hip]; rfl
  have hdump := dumpnode_insert_ZERO (p - 1).toNat ip 31 (31 - p + 1) (by omega) (by omega)
    (le_refl _)
  have eK2 : (31 - p + 1 + 1).toNat = K + 1 := by omega
  rw [hacc, eK2, (shift_clear_eq_iff ip (K + 1)).2 hz] at hdump
  have e31 : (31 : Int) - (31 - p + 1) = p - 1 := by omega
  rw [e31] at hdump
  simp only [A1, A2, makeiptree, S1, S2, dumptree, hdump, List.map_cons, List.map_nil,
    and_self]

theorem siblings_dump_witness :
    (167772160 : Nat) < 2 ^ 32 ∧ (1 : Int) ≤ 24 ∧ (24 : Int) ≤ 32 ∧
      167772160 % 2 ^ ((33 : Int) - 24).toNat = 0 ∧
      dumptree (addip (addip makeiptree 167772160 24).2
        (167772160 + 2 ^ ((32 : Int) - 24).toNat) 24).2 = [dumpip 167772160 (24 - 1)] ∧
      dumpip 167772160 (24 - 1) = "10.0.0.0/23\n".toList.map Char.toNat :=
  ⟨by decide, by decide, by decide, by decide,
    (siblings_dump 167772160 24 (by decide) (by decide) (by decide) (by decide)).2.2.2.1,
    by decide⟩

/-- C9, the code at the failing input: `addip (tree, 0, 33)` returns 0 and
changes the tree: the root of an empty tree is no longer `ZERO`, and
`dumptree` prints the block `0.0.0.0/33`. -/
theorem addip_prefix_33_accepted :
    validateip 0 33 = 0 ∧ (addip makeiptree 0 33).1 = 0 ∧
      (addip makeiptree 0 33).2 ≠ makeiptree ∧
      iptree_empty (addip makeiptree 0 33).2 = false ∧
      dumptree (addip makeiptree 0 33).2 = [bytes_of "0.0.0.0/33\n"] := by
  decide

/-! ## Theorems: the scanner -/

/-- In an octet state a run of digits is accumulated into `ipbyte`, modulo 256. -/
theorem detectip_run_digits (st : DState)
    (hst : st = .ipbyte1 ∨ st = .ipbyte2 ∨ st = .ipbyte3 ∨ st = .ipbyte4) :
    ∀ (ds rest : List Nat) (ip v w : Nat) (block : Int), (∀ b ∈ ds, isdigit b = true) →
      v = w % 256 →
      detectip_run (ds ++ rest) st ip v block =
        detectip_run rest st ip (ds.foldl (fun a b => a * 10 + (b - 48)) w % 256) block := by
  intro ds
  induction ds with
  | nil =>
    intro rest ip v w block _ hv
    simp [hv]
  | cons b ds ih =>
    intro rest ip v w block hd hv
    have hb : isdigit b = true := hd b (List.mem_cons_self _ _)
    have hds : ∀ c ∈ ds, isdigit c = true := fun c hc => hd c (List.mem_cons_of_mem _ hc)
    have e : ((v * 10) % 256 + (b - 48)) % 256 = (w * 10 + (b - 48)) % 256 := by omega
    rw [List.cons_append, List.foldl_cons, ← ih rest ip _ (w * 10 + (b - 48)) block hds e]
    rcases hst with h | h | h | h <;> subst h <;> simp [detectip_run, hb]

theorem is_octet_cons (ds : List Nat) (h : is_octet ds) :
    ∃ d0 tl, ds = d0 :: tl ∧ isdigit d0 = true ∧ (∀ b ∈ tl, isdigit b = true) ∧
      tl.foldl (fun a b => a * 10 + (b - 48)) (d0 - 48) % 256 = decval ds := by
  obtain ⟨hne, hd, hv⟩ := h
  cases ds with
  | nil => exact absurd rfl hne
  | cons d0 tl =>
    refine ⟨d0, tl, rfl, hd d0 (List.mem_cons_self _ _),
      fun b hb => hd b (List.mem_cons_of_mem _ hb), ?_⟩
    have e : decval (d0 :: tl) = tl.foldl (fun a b => a * 10 + (b - 48)) (d0 - 48) := by
      simp [decval]
    rw [← e]
    exact Nat.mod_eq_of_lt (by omega)

theorem isdigit_bound (b : Nat) (h : isdigit b = true) : b - 48 = (b - 48) % 256 := by
  simp only [isdigit, decide_eq_true_eq] at h
  omega

/-- An octet read from the label `scan`. -/
theorem detectip_run_octet1 (da rest : List Nat) (ha : is_octet da) (ip ipbyte : Nat)
    (block : Int) :
    detectip_run (da ++ rest) .scan ip ipbyte block =
      detectip_run rest .ipbyte1 0 (decval da) block := by
  obtain ⟨d0, tl, rfl, h0, htl, hval⟩ := is_octet_cons da ha
  rw [← hval, ← detectip_run_digits .ipbyte1 (Or.inl rfl) tl rest 0 (d0 - 48) (d0 - 48) block
    htl (isdigit_bound d0 h0)]
  simp [detectip_run, h0]

/-- An octet read from the label `dot1`. -/
theorem detectip_run_octet2 (da rest : List Nat) (ha : is_octet da) (ip ipbyte : Nat)
    (block : Int) :
    detectip_run (da ++ rest) .dot1 ip ipbyte block =
      detectip_run rest .ipbyte2 ipbyte (decval da) block := by
  obtain ⟨d0, tl, rfl, h0, htl, hval⟩ := is_octet_cons da ha
  rw [← hval, ← detectip_run_digits .ipbyte2 (Or.inr (Or.inl rfl)) tl rest ipbyte (d0 - 48)
    (d0 - 48) block htl (isdigit_bound d0 h0)]
  simp [detectip_run, h0]

/-- An octet read from the label `dot2`. -/
theorem detectip_run_octet3 (da rest : List Nat) (ha : is_octet da) (ip ipbyte : Nat)
    (block : Int) :
    detectip_run (da ++ rest) .dot2 ip ipbyte block =
      detectip_run rest .ipbyte3 (((ip * 0x100) % 2 ^ 32 + ipbyte) % 2 ^ 32) (decval da)
        block := by
  obtain ⟨d0, tl, rfl, h0, htl, hval⟩ := is_octet_cons da ha
  rw [← hval, ← detectip_run_digits .ipbyte3 (Or.inr (Or.inr (Or.inl rfl))) tl rest _ (d0 - 48)
    (d0 - 48) block htl (isdigit_bound d0 h0)]
  simp [detectip_run, h0]

/-- An octet read from the label `dot3`. -/
theorem detectip_run_octet4 (da rest : List Nat) (ha : is_octet da) (ip ipbyte : Nat)
    (block : Int) :
    detectip_run (da ++ rest) .dot3 ip ipbyte block =
      detectip_run rest .ipbyte4 (((ip * 0x100) % 2 ^ 32 + ipbyte) % 2 ^ 32) (decval da)
        block := by
  obtain ⟨d0, tl, rfl, h0, htl, hval⟩ := is_octet_cons da ha
  rw [← hval, ← detectip_run_digits .ipbyte4 (Or.inr (Or.inr (Or.inr rfl))) tl rest _ (d0 - 48)
    (d0 - 48) block htl (isdigit_bound d0 h0)]
  simp [detectip_run, h0]

/-- A dotted quad read from the label `scan`: the machine is at `ipbyte4` with
the first three octets in `ip` and the fourth in `ipbyte`. -/
theorem detectip_run_quad (da db dc dd rest : List Nat) (ha : is_octet da) (hb : is_octet db)
    (hc : is_octet dc) (hd : is_octet dd) (ip ipbyte : Nat) (block : Int) :
    detectip_run (quad_text da db dc dd ++ rest) .scan ip ipbyte block =
      detectip_run rest .ipbyte4
        (decval da * 2 ^ 16 + decval db * 2 ^ 8 + decval dc) (decval dd) block := by
  have e : quad_text da db dc dd ++ rest
      = da ++ 46 :: (db ++ 46 :: (dc ++ 46 :: (dd ++ rest))) := by
    simp [quad_text, List.append_assoc]
  have h46 : isdigit 46 = false := by decide
  have va := ha.2.2
  have vb := hb.2.2
  have vc := hc.2.2
  rw [e, detectip_run_octet1 da _ ha]
  simp only [detectip_run, h46, Bool.false_eq_true, if_false, if_true]
  rw [detectip_run_octet2 db _ hb]
  simp only [detectip_run, h46, Bool.false_eq_true, if_false, if_true]
  rw [detectip_run_octet3 dc _ hc]
  simp only [detectip_run, h46, Bool.false_eq_true, if_false, if_true]
  rw [detectip_run_octet4 dd _ hd]
  congr 1
  omega

theorem quad_ip_eq (da db dc dd : List Nat) (ha : is_octet da) (hb : is_octet db)
    (hc : is_octet dc) (hd : is_octet dd) :
    (((decval da * 2 ^ 16 + decval db * 2 ^ 8 + decval dc) * 0x100) % 2 ^ 32 + decval dd)
      % 2 ^ 32 = quad_ip da db dc dd := by
  have va := ha.2.2
  have vb := hb.2.2
  have vc := hc.2.2
  have vd := hd.2.2
  unfold quad_ip
  omega

/-- The pairs brought to the label `found` for a dotted quad `a.b.c.d` with
decimal octets in `0 .. 255`, read from the label `scan` (whatever the locals
`ip` and `ipbyte` hold) and followed by a byte `t` that is not a digit: the
pair has `ip = a * 2^24 + b * 2^16 + c * 2^8 + d`, and the scan of the bytes
after it goes on from `init`; with no `/n` the prefix is 32 (also when `t` is a
`/` that ends the bytes or is followed by a non-digit), with `/n` of one or
two digits it is `n`. -/
theorem detectip_str_quad (da db dc dd : List Nat) (ha : is_octet da) (hb : is_octet db)
    (hc : is_octet dc) (hd : is_octet dd) (t : Nat) (ht : isdigit t = false)
    (rest : List Nat) (ip0 ipbyte0 : Nat) :
    (t ≠ 47 → detectip_run (quad_text da db dc dd ++ t :: rest) .scan ip0 ipbyte0 32
        = (quad_ip da db dc dd, 32) :: detectip_str rest) ∧
      detectip_run (quad_text da db dc dd ++ [47]) .scan ip0 ipbyte0 32
        = [(quad_ip da db dc dd, 32)] ∧
      detectip_run (quad_text da db dc dd ++ 47 :: t :: rest) .scan ip0 ipbyte0 32
        = (quad_ip da db dc dd, 32) :: detectip_str rest ∧
      (∀ n1 : Nat, isdigit n1 = true →
        detectip_run (quad_text da db dc dd ++ 47 :: n1 :: t :: rest) .scan ip0 ipbyte0 32
          = (quad_ip da db dc dd, ((decval [n1] : Nat) : Int)) :: detectip_str rest) ∧
      (∀ n1 n2 : Nat, isdigit n1 = true → isdigit n2 = true →
        detectip_run (quad_text da db dc dd ++ 47 :: n1 :: n2 :: t :: rest) .scan ip0 ipbyte0 32
          = (quad_ip da db dc dd, ((decval [n1, n2] : Nat) : Int)) :: detectip_str rest) ∧
      detectip_str (bytes_of "foo 10.0.0.1 bar 192.168.1.0/24 baz")
        = [(167772161, 32), (3232235776, 24)] := by
  have hq := quad_ip_eq da db dc dd ha hb hc hd
  have h47 : isdigit 47 = false := by decide
  refine ⟨?_, ?_, ?_, ?_, ?_, by decide⟩
  · intro hne
    rw [detectip_run_quad da db dc dd _ ha hb hc hd]
    simp only [detectip_run, ht, hne, Bool.false_eq_true, if_false, hq, detectip_str]
  · rw [detectip_run_quad da db dc dd _ ha hb hc hd]
    simp only [List.cons_append, List.nil_append, detectip_run, h47, Bool.false_eq_true,
      if_false, if_true, hq, ne_eq, not_true_eq_false]
  · rw [detectip_run_quad da db dc dd _ ha hb hc hd]
    simp only [detectip_run, ht, h47, Bool.false_eq_true, if_false, if_true, hq, detectip_str]
  · intro n1 h1
    rw [detectip_run_quad da db dc dd _ ha hb hc hd]
    simp only [detectip_run, ht, h1, h47, Bool.false_eq_true, if_false, if_true, hq,
      detectip_str]
    simp only [isdigit, decide_eq_true_eq] at h1
    have e : ((decval [n1] : Nat) : Int) = (n1 : Int) - 48 := by
      simp only [decval, List.foldl_cons, List.foldl_nil]
      omega
    rw [e]
  · intro n1 n2 h1 h2
    rw [detectip_run_quad da db dc dd _ ha hb hc hd]
    simp only [detectip_run, ht, h1, h2, h47, Bool.false_eq_true, if_false, if_true, hq,
      detectip_str]
    simp only [isdigit, decide_eq_true_eq] at h1 h2
    have e : ((decval [n1, n2] : Nat) : Int) = ((n1 : Int) - 48) * 10 + ((n2 : Int) - 48) := by
      simp only [decval, List.foldl_cons, List.foldl_nil]
      omega
    rw [e]

/-! ## Theorems: `findip_str` -/

theorem findip_zero_or_one (tree : IPTree) (x : Nat) : findip tree x = 0 ∨ findip tree x = 1 :=
  node_search_zero_or_one tree.root x 31

theorem findip_loop_eq_one_iff (tree : IPTree) (cands : List (Nat × Int)) :
    (findip_loop tree cands = 1 ↔ ∃ c ∈ cands, findip tree c.1 = 1) ∧
      (findip_loop tree cands = 0 ∨ findip_loop tree cands = 1) := by
  induction cands with
  | nil => simp [findip_loop]
  | cons c cands ih =>
    simp only [findip_loop, List.mem_cons, exists_eq_or_imp]
    rcases findip_zero_or_one tree c.1 with h | h
    · simp only [h, ne_eq, not_true_eq_false, if_false]
      refine ⟨?_, ih.2⟩
      rw [ih.1]
      simp
    · simp [h]

/-- Over the candidates in the order found, on a line with `n ≥ 1` candidates
and for a positive selector `pos = k`: if `k ≤ n`, the result is `findip` of
the `k`-th candidate from the left (index `k - 1`); if `k > n` it is
`IP_POS_OUT_OF_BOUNDS`. -/
theorem findip_str_pos_positive (tree : IPTree) (data : List Nat) (pos : Int) (hpos : 0 < pos)
    (hn : 1 ≤ (detectip_str data).length) :
    (pos ≤ (detectip_str data).length →
        ∃ c, (detectip_str data)[pos.toNat - 1]? = some c ∧
          findip_str tree data pos = findip tree c.1) ∧
      (((detectip_str data).length : Int) < pos →
        findip_str tree data pos = IP_POS_OUT_OF_BOUNDS) := by
  have hc : ¬ ((detectip_str data).length : Int) = 0 := by omega
  have hp0 : ¬ pos = 0 := by omega
  constructor
  · intro hle
    have hidx : pos.toNat - 1 < (detectip_str data).length := by omega
    refine ⟨(detectip_str data)[pos.toNat - 1], List.getElem?_eq_getElem hidx, ?_⟩
    have hlt : ¬ pos - 1 ≥ ((detectip_str data).length : Int) := by omega
    have e : (pos - 1).toNat = pos.toNat - 1 := by omega
    simp only [findip_str, hc, hp0, if_false, gt_iff_lt, hpos, if_true, hlt, e]
    rw [List.getD_eq_getElem _ _ hidx]
  · intro hgt
    have hge : pos - 1 ≥ ((detectip_str data).length : Int) := by omega
    simp only [findip_str, hc, hp0, if_false, gt_iff_lt, hpos, if_true, hge]

/-- For a negative selector the index `count - pos` is never below `count`. -/
theorem findip_str_pos_negative (tree : IPTree) (data : List Nat) (pos : Int) (hpos : pos < 0)
    (hn : detectip_str data ≠ []) :
    findip_str tree data pos = IP_POS_OUT_OF_BOUNDS := by
  have hc : ¬ ((detectip_str data).length : Int) = 0 := by
    intro h
    exact hn (List.length_eq_zero.1 (by exact_mod_cast h))
  have hp0 : ¬ pos = 0 := by omega
  have hp1 : ¬ 0 < pos := by omega
  have hge : ((detectip_str data).length : Int) - pos ≥ ((detectip_str data).length : Int) := by
    omega
  simp only [findip_str, hc, hp0, if_false, gt_iff_lt, hp1, hge, if_true]

/-- C6, the code at the failing input: the line `10.0.0.1` has one candidate,
which the tree contains, and `findip_str` with `pos = -1` returns
`IP_POS_OUT_OF_BOUNDS` instead of 1. -/
theorem findip_str_last_out_of_bounds :
    detectip_str (bytes_of "10.0.0.1\n") = [(167772161, 32)] ∧
      findip (addip makeiptree 167772161 32).2 167772161 = 1 ∧
      findip_str (addip makeiptree 167772161 32).2 (bytes_of "10.0.0.1\n") (-1)
        = IP_POS_OUT_OF_BOUNDS := by
  decide

/-! ## Theorems: the line buffer -/

theorem read_retry_weight (src : List ReadEvent) (readsize : Nat) (hr : 0 < readsize) :
    (0 < (read_retry src readsize).1 →
        src_weight (read_retry src readsize).2.2 + ((read_retry src readsize).1).toNat
          ≤ src_weight src) ∧
      ((read_retry src readsize).1 < 0 →
        src_weight (read_retry src readsize).2.2 < src_weight src) := by
  induction src with
  | nil => simp [read_retry]
  | cons ev evs ih =>
    cases ev with
    | eintr =>
      simp only [read_retry, src_weight]
      constructor
      · intro h; have := ih.1 h; omega
      · intro h; have := ih.2 h; omega
    | error => simp [read_retry, src_weight]
    | bytes bs =>
      simp only [read_retry, src_weight]
      split
      · constructor
        · intro _; simp only [Int.toNat_ofNat]; omega
        · intro h; simp only at h; omega
      · rename_i hlen
        constructor
        · intro _
          simp only [src_weight, List.length_drop, Int.toNat_ofNat]
          omega
        · intro h; simp only at h; omega

/-- What a returning `aio_buffer_fill` call does to `adjust`, `end` and the
descriptor. -/
theorem aio_buffer_fill_some (buffer : aio_buffer) (keep : Nat) (res adjust : Int)
    (b1 : aio_buffer) (h : aio_buffer_fill buffer keep = some (res, adjust, b1)) :
    ∃ readsize : Nat, 0 < readsize ∧ adjust = buffer.start - (buffer.end_ - keep) ∧
      b1.src = (read_retry buffer.src readsize).2.2 ∧
      (((read_retry buffer.src readsize).1 = 0 ∧ res = AIO_ERROR_END_BUFFER ∧
          b1.end_ = buffer.end_) ∨
        ((read_retry buffer.src readsize).1 ≠ 0 ∧ res = 0 ∧
          b1.end_ = buffer.start + keep + (read_retry buffer.src readsize).1)) := by
  simp only [aio_buffer_fill] at h
  generalize (if keep ≤ buffer.limit then buffer.limit - keep
    else 2 ^ 64 - (keep - buffer.limit)) = readsize at h
  refine ⟨readsize, ?_⟩
  by_cases hrs : readsize = 0
  · rw [if_pos hrs] at h
    exact absurd h (by simp)
  · rw [if_neg hrs] at h
    refine ⟨Nat.pos_of_ne_zero hrs, ?_⟩
    by_cases hr0 : (read_retry buffer.src readsize).1 = 0
    · rw [if_pos hr0] at h
      simp only [Option.some.injEq, Prod.mk.injEq] at h
      obtain ⟨h1, h2, h3⟩ := h
      subst h3
      exact ⟨h2.symm, rfl, Or.inl ⟨hr0, h1.symm, rfl⟩⟩
    · rw [if_neg hr0] at h
      simp only [Option.some.injEq, Prod.mk.injEq] at h
      obtain ⟨h1, h2, h3⟩ := h
      subst h3
      exact ⟨h2.symm, rfl, Or.inr ⟨hr0, h1.symm, rfl⟩⟩

/-- The loop of `aio_buffer_loadline` ends: with at least `loadline_bound`
iterations allowed it never uses them up. -/
theorem loadline_loop_terminates (k : Nat) :
    ∀ (buffer : aio_buffer) (linestart linelimit : Int) (fuel : Nat),
      loadline_bound buffer linelimit ≤ k → k ≤ fuel →
      (loadline_loop fuel buffer linestart linelimit).isSome = true := by
  induction k with
  | zero =>
    intro buffer linestart linelimit fuel hk _
    simp [loadline_bound] at hk
  | succ k ih =>
    intro buffer linestart linelimit fuel hk hf
    obtain ⟨f, rfl⟩ : ∃ f, fuel = f + 1 := ⟨fuel - 1, by omega⟩
    unfold loadline_loop
    split
    · split
      · rename_i hge
        cases hfill : aio_buffer_fill buffer (linelimit - linestart).toNat with
        | none => rfl
        | some r =>
          obtain ⟨res, adjust, b1⟩ := r
          simp only
          split
          · rfl
          · rename_i hres
            rw [ne_eq, not_not] at hres
            apply ih b1 _ _ f _ (by omega)
            obtain ⟨readsize, hpos, hadj, hsrc, hcase⟩ :=
              aio_buffer_fill_some buffer _ res adjust b1 hfill
            have hw := read_retry_weight buffer.src readsize hpos
            rcases hcase with ⟨_, hr, _⟩ | ⟨hr0, _, hend⟩
            · rw [hr] at hres
              exact absurd hres (by decide)
            · simp only [loadline_bound] at hk ⊢
              rw [hsrc, hend, hadj]
              rcases lt_or_gt_of_ne hr0 with hneg | hpos
              · have := hw.2 hneg
                omega
              · have := hw.1 hpos
                omega
      · rename_i hlt
        apply ih buffer _ _ f _ (by omega)
        simp only [loadline_bound] at hk ⊢
        omega
    · rfl

/-- The function `aio_buffer_loadline` returns: the loop ends within the bound
the model gives it, so the result is that of the C loop. -/
theorem aio_buffer_loadline_terminates (buffer : aio_buffer) :
    ∃ r, loadline_loop (loadline_bound buffer (buffer.linelimit + 1)) buffer
        (buffer.linelimit + 1) (buffer.linelimit + 1) = some r ∧
      aio_buffer_loadline buffer = r := by
  have h := loadline_loop_terminates _ buffer (buffer.linelimit + 1) (buffer.linelimit + 1) _
    (le_refl _) (le_refl _)
  obtain ⟨r, hr⟩ := Option.isSome_iff_exists.1 h
  exact ⟨r, hr, by simp [aio_buffer_loadline, hr]⟩

/-- C5, the code at the failing input: the input `a\nb\n` is two lines, `a` and
`b`, and read in one piece it comes out as these two lines; delivered as the
two reads `a` and `\nb\n` into a zero-filled arena, the first
`aio_buffer_loadline` returns the one line `a\nb` and the second returns
`AIO_ERROR_END_BUFFER`. -/
theorem loadline_misses_terminator_after_refill :
    read_lines 4096 65552 (fun _ => 0) [.bytes (bytes_of "a\nb\n")] 5
        = ([bytes_of "a", bytes_of "b"], some AIO_ERROR_END_BUFFER) ∧
      read_lines 4096 65552 (fun _ => 0) [.bytes (bytes_of "a"), .bytes (bytes_of "\nb\n")] 5
        = ([bytes_of "a\nb"], some AIO_ERROR_END_BUFFER) := by
  decide

/-! ## Theorems: rejected calls, emptiness, collapsing, depth -/

theorem addip_fst (tree : IPTree) (ip : Nat) (block : Int) :
    (addip tree ip block).1 = validateip ip block := by
  unfold addip
  split
  · rfl
  · rename_i h
    rw [ne_eq, not_not] at h
    exact h.symm

theorem addip_snd_of_ne (tree : IPTree) (ip : Nat) (block : Int)
    (h : (addip tree ip block).1 ≠ 0) : (addip tree ip block).2 = tree := by
  rw [addip_fst] at h
  simp [addip, h]

theorem addip_snd_of_eq (tree : IPTree) (ip : Nat) (block : Int)
    (h : (addip tree ip block).1 = 0) :
    (addip tree ip block).2 = ⟨node_insert tree.root ip 31 (31 - block)⟩ := by
  rw [addip_fst] at h
  simp [addip, h]

/-- C11: if `addip` returns a nonzero code, the tree afterwards is the tree
before (same root, same nodes), so `findip` and `dumptree` give the same
results. -/
theorem addip_error_unchanged (tree : IPTree) (ip : Nat) (block : Int)
    (h : (addip tree ip block).1 ≠ 0) :
    (addip tree ip block).2 = tree ∧
      (∀ x : Nat, findip (addip tree ip block).2 x = findip tree x) ∧
      dumptree (addip tree ip block).2 = dumptree tree := by
  have e := addip_snd_of_ne tree ip block h
  rw [e]
  exact ⟨rfl, fun _ => rfl, rfl⟩

theorem addip_error_unchanged_witness :
    (addip (addip makeiptree 3232235776 16).2 167772161 24).1 ≠ 0 ∧
      (addip (addip makeiptree 3232235776 16).2 167772161 24).2
        = (addip makeiptree 3232235776 16).2 ∧
      (∀ x : Nat, findip (addip (addip makeiptree 3232235776 16).2 167772161 24).2 x
        = findip (addip makeiptree 3232235776 16).2 x) ∧
      dumptree (addip (addip makeiptree 3232235776 16).2 167772161 24).2
        = dumptree (addip makeiptree 3232235776 16).2 :=
  ⟨by decide, addip_error_unchanged (addip makeiptree 3232235776 16).2 167772161 24 (by decide)⟩

theorem collapse_ne_ZERO (c0 c1 : IPNode) : collapse c0 c1 ≠ .ZERO := by
  unfold collapse
  split <;> simp

/-- The node `node_insert` stores is never `ZERO`. -/
theorem node_insert_ne_ZERO (node : IPNode) (ip : Nat) (bit end_ : Int) :
    node_insert node ip bit end_ ≠ .ZERO := by
  rw [node_insert_eq]
  cases node with
  | FULL => simp
  | ZERO =>
    simp only
    split
    · simp
    · split <;> exact collapse_ne_ZERO _ _
  | Branch c0 c1 =>
    simp only
    split
    · simp
    · split <;> exact collapse_ne_ZERO _ _

theorem addip_seq_root_ne_ZERO (calls : List (Nat × Int)) :
    ∀ tree : IPTree, tree.root ≠ .ZERO → (addip_seq tree calls).1.root ≠ .ZERO := by
  induction calls with
  | nil => intro tree h; exact h
  | cons c calls ih =>
    intro tree h
    obtain ⟨ip, block⟩ := c
    simp only [addip_seq]
    apply ih
    by_cases hr : (addip tree ip block).1 = 0
    · rw [addip_snd_of_eq tree ip block hr]
      exact node_insert_ne_ZERO _ _ _ _
    · rw [addip_snd_of_ne tree ip block hr]
      exact h

theorem addip_seq_root_ZERO_iff (calls : List (Nat × Int)) :
    ∀ tree : IPTree, tree.root = .ZERO →
      ((addip_seq tree calls).1.root = .ZERO ↔ (addip_seq tree calls).2 = []) := by
  induction calls with
  | nil => intro tree h; simp [addip_seq, h]
  | cons c calls ih =>
    intro tree h
    obtain ⟨ip, block⟩ := c
    simp only [addip_seq]
    by_cases hr : (addip tree ip block).1 = 0
    · rw [if_pos hr]
      have hne : (addip tree ip block).2.root ≠ .ZERO := by
        rw [addip_snd_of_eq tree ip block hr]
        exact node_insert_ne_ZERO _ _ _ _
      constructor
      · intro h0
        exact absurd h0 (addip_seq_root_ne_ZERO calls _ hne)
      · intro h0
        exact absurd h0 (by simp)
    · rw [if_neg hr, addip_snd_of_ne tree ip block hr]
      exact ih tree h

/-- C18: `iptree_empty (makeiptree ())` is true, and after any sequence of
`addip` calls on `makeiptree ()` the tree is empty if and only if none of the
calls returned 0. -/
theorem iptree_empty_iff (calls : List (Nat × Int)) :
    iptree_empty makeiptree = true ∧
      (iptree_empty (addip_seq makeiptree calls).1 = true ↔
        (addip_seq makeiptree calls).2 = []) := by
  refine ⟨by decide, ?_⟩
  simp only [iptree_empty, decide_eq_true_eq]
  exact addip_seq_root_ZERO_iff calls makeiptree rfl

theorem no_full_pair_collapse (c0 c1 : IPNode) (h0 : no_full_pair c0 = true)
    (h1 : no_full_pair c1 = true) : no_full_pair (collapse c0 c1) = true := by
  unfold collapse
  split
  · rfl
  · rename_i h
    simp only [no_full_pair, h0, h1, Bool.and_true, Bool.not_eq_true', Bool.and_eq_false_imp,
      decide_eq_true_eq, decide_eq_false_iff_not]
    intro h2 h3
    exact h ⟨h2, h3⟩

/-- The function `node_insert` keeps the tree collapsed, whatever its
arguments. -/
theorem no_full_pair_node_insert (k : Nat) :
    ∀ (node : IPNode) (ip : Nat) (bit end_ : Int), (bit - end_).toNat ≤ k →
      no_full_pair node = true → no_full_pair (node_insert node ip bit end_) = true := by
  induction k with
  | zero =>
    intro node ip bit end_ hk _
    rw [node_insert_stop node ip bit end_ (by omega)]
    rfl
  | succ k ih =>
    intro node ip bit end_ hk hn
    by_cases hs : bit ≤ end_
    · rw [node_insert_stop node ip bit end_ hs]; rfl
    · have hlt : end_ < bit := by omega
      have hrec : ∀ c : IPNode, no_full_pair c = true →
          no_full_pair (node_insert c ip (bit - 1) end_) = true :=
        fun c hc => ih c ip (bit - 1) end_ (by omega) hc
      cases node with
      | FULL => rw [node_insert_FULL]; rfl
      | ZERO =>
        rw [node_insert_ZERO_rec ip bit end_ hlt]
        split
        · exact no_full_pair_collapse _ _ (hrec _ rfl) rfl
        · exact no_full_pair_collapse _ _ rfl (hrec _ rfl)
      | Branch c0 c1 =>
        simp only [no_full_pair, Bool.and_eq_true] at hn
        rw [node_insert_Branch_rec c0 c1 ip bit end_ hlt]
        split
        · exact no_full_pair_collapse _ _ (hrec _ hn.1.2) hn.2
        · exact no_full_pair_collapse _ _ hn.1.2 (hrec _ hn.2)

theorem no_full_pair_addip (tree : IPTree) (ip : Nat) (block : Int)
    (h : no_full_pair tree.root = true) : no_full_pair (addip tree ip block).2.root = true := by
  by_cases hr : (addip tree ip block).1 = 0
  · rw [addip_snd_of_eq tree ip block hr]
    exact no_full_pair_node_insert _ _ _ _ _ (le_refl _) h
  · rw [addip_snd_of_ne tree ip block hr]
    exact h

theorem no_full_pair_addip_seq (calls : List (Nat × Int)) :
    ∀ tree : IPTree, no_full_pair tree.root = true →
      no_full_pair (addip_seq tree calls).1.root = true := by
  induction calls with
  | nil => intro tree h; exact h
  | cons c calls ih =>
    intro tree h
    obtain ⟨ip, block⟩ := c
    simp only [addip_seq]
    exact ih _ (no_full_pair_addip tree ip block h)

/-- C14: in every tree obtained from `makeiptree ()` by `addip` calls, with any
arguments, no allocated node has both children equal to `FULL`. -/
theorem reachable_no_full_pair (calls : List (Nat × Int)) :
    no_full_pair (addip_seq makeiptree calls).1.root = true :=
  no_full_pair_addip_seq calls makeiptree rfl

/-- C20, the code at the failing input: `addip (tree, 0, 33)` returns 0 on an
empty tree and leaves a path of 33 allocated nodes; `findip (tree, 0)` then
follows 33 child links, the last one with the shift amount `-1`. -/
theorem addip_prefix_33_depth :
    (addip makeiptree 0 33).1 = 0 ∧ height (addip makeiptree 0 33).2.root = 33 ∧
      (node_search_shifts (addip makeiptree 0 33).2.root 0 31).length = 33 ∧
      (-1 : Int) ∈ node_search_shifts (addip makeiptree 0 33).2.root 0 31 := by
  set_option maxRecDepth 4096 in decide

/-! ## Theorems: prior arena contents, read errors, the driver -/

/-- C15, the code at the failing input: a fresh zero-filled buffer reads the
one line `ab` from a descriptor that delivers `ab\n`; the same buffer bound
to that descriptor after it has read `abc\nz\n` from another one returns a
second, empty line, found at the terminator byte the first descriptor left
behind; so does a fresh buffer whose memory holds a terminator byte at that
address. -/
theorem loadline_reads_stale_byte :
    read_lines 4096 65552 (fun _ => 0) [.bytes (bytes_of "ab\n")] 5
        = ([bytes_of "ab"], some AIO_ERROR_END_BUFFER) ∧
      rebind_lines 4096 65552 (fun _ => 0) [.bytes (bytes_of "abc\nz\n")]
          [.bytes (bytes_of "ab\n")] 5
        = ([bytes_of "ab", []], some AIO_ERROR_END_BUFFER) ∧
      read_lines 4096 65552 (fun a => if a = 69635 then 10 else 0) [.bytes (bytes_of "ab\n")] 5
        = ([bytes_of "ab", []], some AIO_ERROR_END_BUFFER) := by
  decide

/-- A failed `read` (other than `EINTR`) makes `aio_buffer_fill` return 0, with
`end` one byte before `readstart`. -/
theorem aio_buffer_fill_error (buffer : aio_buffer) (keep : Nat) (evs : List ReadEvent)
    (hsrc : buffer.src = .error :: evs) (hk : keep < buffer.limit) :
    ∃ (adjust : Int) (b1 : aio_buffer), aio_buffer_fill buffer keep = some (0, adjust, b1) ∧
      b1.end_ = buffer.start + keep + -1 ∧ b1.src = evs := by
  have h1 : keep ≤ buffer.limit := by omega
  have h2 : ¬ buffer.limit - keep = 0 := by omega
  simp only [aio_buffer_fill, if_pos h1, if_neg h2, hsrc, read_retry]
  exact ⟨_, _, by rw [if_neg (by decide)], rfl, rfl⟩

/-- C16, the code at the failing input: when the first `read` fails with an
error other than `EINTR`, `aio_buffer_fill` (called by `aio_buffer_init`)
returns 0 and sets `end` to `start - 1`; the next `aio_buffer_loadline`
returns `AIO_ERROR_END_BUFFER`, and when the descriptor delivers `ab\n` after
the error, the line returned is `b`. -/
theorem fill_read_error_returns_zero :
    (aio_buffer_init 4096 (aio_buffer_alloc 4096 65552 (fun _ => 0)) 0 [.error]).map
        (fun r => (r.1, r.2.end_ - r.2.start)) = some (0, -1) ∧
      read_lines 4096 65552 (fun _ => 0) [.error] 5 = ([], some AIO_ERROR_END_BUFFER) ∧
      read_lines 4096 65552 (fun _ => 0) [.error, .bytes (bytes_of "ab\n")] 5
        = ([bytes_of "b"], some AIO_ERROR_END_BUFFER) := by
  decide

/-- Within the range of a node at bit `m`, bit `m` of an address tells the
lower half from the upper half. -/
theorem bit_zero_iff_lower_half (acc x m : Nat) (hacc : acc % 2 ^ (m + 1) = 0) (h1 : acc ≤ x)
    (h2 : x < acc + 2 ^ (m + 1)) : ((x >>> m) &&& 1 = 0 ↔ x < acc + 2 ^ m) := by
  obtain ⟨q, hq⟩ := Nat.dvd_of_mod_eq_zero hacc
  have hpow : (2 : Nat) ^ (m + 1) = 2 ^ m * 2 := pow_succ 2 m
  have hpos : 0 < 2 ^ m := by positivity
  have hx : x = 2 ^ m * (2 * q) + (x - acc) := by
    rw [← Nat.mul_assoc, ← hpow, ← hq]; omega
  have hr : x - acc < 2 ^ m * 2 := by omega
  have hd : x / 2 ^ m = 2 * q + (x - acc) / 2 ^ m := by
    conv_lhs => rw [hx]
    exact Nat.mul_add_div hpos _ _
  have hlt : (x - acc) / 2 ^ m < 2 := (Nat.div_lt_iff_lt_mul hpos).2 (by omega)
  rw [Nat.and_one_is_mod, Nat.shiftRight_eq_div_pow, hd]
  have hz : (x - acc) / 2 ^ m = 0 ↔ x - acc < 2 ^ m := by
    rw [Nat.div_eq_zero_iff hpos]
  generalize (x - acc) / 2 ^ m = t at hlt hz
  constructor
  · intro h
    have ht : t = 0 := by omega
    have := hz.1 ht
    omega
  · intro h
    have ht : t = 0 := hz.2 (by omega)
    omega

/-- The address `dumpnode` passes to the child `children[1]`. -/
theorem or_bit_eq_add (acc m : Nat) (hm : m ≤ 31) (hacc : acc % 2 ^ (m + 1) = 0) :
    acc ||| ((1 <<< m) % 2 ^ 32) = acc + 2 ^ m := by
  obtain ⟨q, hq⟩ := Nat.dvd_of_mod_eq_zero hacc
  have hlt : (2 : Nat) ^ m < 2 ^ 32 := Nat.pow_lt_pow_right (by norm_num) (by omega)
  have hlt2 : (2 : Nat) ^ m < 2 ^ (m + 1) := Nat.pow_lt_pow_right (by norm_num) (by omega)
  rw [Nat.one_shiftLeft, Nat.mod_eq_of_lt hlt, hq]
  exact (Nat.mul_add_lt_is_or hlt2 q).symm

theorem mod_half_eq_zero (acc m : Nat) (hacc : acc % 2 ^ (m + 1) = 0) :
    acc % 2 ^ m = 0 ∧ (acc + 2 ^ m) % 2 ^ m = 0 := by
  obtain ⟨q, hq⟩ := Nat.dvd_of_mod_eq_zero hacc
  have hpow : (2 : Nat) ^ (m + 1) = 2 ^ m * 2 := pow_succ 2 m
  have h1 : acc % 2 ^ m = 0 := by
    rw [hq, hpow, Nat.mul_assoc]; exact Nat.mul_mod_right _ _
  refine ⟨h1, ?_⟩
  rw [Nat.add_mod, h1]; simp

/-- What `dumpnode` emits for a node of height at most `n` that stands for the
`2 ^ n` addresses from `acc` on: CIDR blocks inside that range, in increasing
order without overlap, which hold exactly the addresses `node_search`
finds. -/
theorem dumpnode_spec (node : IPNode) :
    ∀ (n acc : Nat), height node ≤ n → n ≤ 32 → acc % 2 ^ n = 0 → acc + 2 ^ n ≤ 2 ^ 32 →
      (∀ d ∈ dumpnode node acc ((n : Int) - 1),
        acc ≤ d.1 ∧ d.1 + 2 ^ (32 - d.2).toNat ≤ acc + 2 ^ n ∧ cidr_block d) ∧
      (dumpnode node acc ((n : Int) - 1)).Pairwise
        (fun a b => a.1 + 2 ^ (32 - a.2).toNat ≤ b.1) ∧
      (∀ x : Nat, acc ≤ x → x < acc + 2 ^ n →
        (node_search node x ((n : Int) - 1) = 1 ↔
          ∃ d ∈ dumpnode node acc ((n : Int) - 1), block_mem x d)) := by
  induction node with
  | ZERO =>
    intro n acc _ _ _ _
    simp [dumpnode, node_search]
  | FULL =>
    intro n acc _ hn hacc hle
    have e : (32 - (31 - ((n : Int) - 1))).toNat = n := by omega
    have hpos : 0 < 2 ^ n := by positivity
    simp only [dumpnode, node_search, List.mem_singleton, forall_eq, e, List.pairwise_cons,
      List.not_mem_nil, false_implies, implies_true, List.Pairwise.nil, and_self, true_and,
      exists_eq_left, block_mem, cidr_block, le_refl]
    refine ⟨⟨by omega, by omega, by omega, hacc⟩, ?_⟩
    intro x h1 h2
    exact ⟨fun _ => ⟨h1, h2⟩, fun _ => trivial⟩
  | Branch c0 c1 ih0 ih1 =>
    intro n acc hh hn hacc hle
    simp only [height] at hh
    obtain ⟨m, rfl⟩ : ∃ m, n = m + 1 := ⟨n - 1, by omega⟩
    have e1 : ((m + 1 : Nat) : Int) - 1 = (m : Int) := by push_cast; ring
    have e2 : (m : Int).toNat = m := Int.toNat_natCast m
    have hpow : (2 : Nat) ^ (m + 1) = 2 ^ m * 2 := pow_succ 2 m
    have hpos : 0 < 2 ^ m := by positivity
    obtain ⟨hm0, hm1⟩ := mod_half_eq_zero acc m hacc
    obtain ⟨b0, p0, s0⟩ := ih0 m acc (by omega) (by omega) hm0 (by omega)
    obtain ⟨b1, p1, s1⟩ := ih1 m (acc + 2 ^ m) (by omega) (by omega) hm1 (by omega)
    rw [e1]
    simp only [dumpnode, node_search, e2, or_bit_eq_add acc m (by omega) hacc]
    refine ⟨?_, ?_, ?_⟩
    · intro d hd
      rcases List.mem_append.1 hd with h | h
      · obtain ⟨h1, h2, h3⟩ := b0 d h
        exact ⟨h1, by omega, h3⟩
      · obtain ⟨h1, h2, h3⟩ := b1 d h
        exact ⟨by omega, by omega, h3⟩
    · rw [List.pairwise_append]
      refine ⟨p0, p1, ?_⟩
      intro a ha b hb
      have := (b0 a ha).2.1
      have := (b1 b hb).1
      omega
    · intro x hx1 hx2
      have hbit := bit_zero_iff_lower_half acc x m hacc hx1 hx2
      by_cases hlow : x < acc + 2 ^ m
      · rw [if_pos (hbit.2 hlow), s0 x hx1 hlow]
        constructor
        · rintro ⟨d, hd, hm⟩
          exact ⟨d, List.mem_append_left _ hd, hm⟩
        · rintro ⟨d, hd, hm⟩
          rcases List.mem_append.1 hd with h | h
          · exact ⟨d, h, hm⟩
          · have := (b1 d h).1
            have := hm.1
            omega
      · rw [if_neg (fun h => hlow (hbit.1 h)), s1 x (by omega) (by omega)]
        constructor
        · rintro ⟨d, hd, hm⟩
          exact ⟨d, List.mem_append_right _ hd, hm⟩
        · rintro ⟨d, hd, hm⟩
          rcases List.mem_append.1 hd with h | h
          · have := (b0 d h).2.1
            have := hm.2
            omega
          · exact ⟨d, h, hm⟩

theorem height_collapse_le (c0 c1 : IPNode) :
    height (collapse c0 c1) ≤ max (height c0) (height c1) + 1 := by
  unfold collapse
  split
  · simp [height]
  · simp [height]

/-- With `end ≥ -1`, that is `block ≤ 32`, `node_insert` at bit `bit` leaves a
node of height at most `bit + 1`. -/
theorem height_node_insert (k : Nat) :
    ∀ (node : IPNode) (ip : Nat) (bit end_ : Int), (bit - end_).toNat ≤ k → -1 ≤ end_ →
      height node ≤ (bit + 1).toNat → height (node_insert node ip bit end_) ≤ (bit + 1).toNat := by
  induction k with
  | zero =>
    intro node ip bit end_ hk _ _
    rw [node_insert_stop node ip bit end_ (by omega)]
    simp [height]
  | succ k ih =>
    intro node ip bit end_ hk he hh
    by_cases hs : bit ≤ end_
    · rw [node_insert_stop node ip bit end_ hs]; simp [height]
    · have hlt : end_ < bit := by omega
      have e : (bit + 1).toNat = (bit - 1 + 1).toNat + 1 := by omega
      have hrec : ∀ c : IPNode, height c ≤ (bit - 1 + 1).toNat →
          height (node_insert c ip (bit - 1) end_) ≤ (bit - 1 + 1).toNat :=
        fun c hc => ih c ip (bit - 1) end_ (by omega) he hc
      cases node with
      | FULL => rw [node_insert_FULL]; simp [height]
      | ZERO =>
        have h0 := hrec .ZERO (by simp [height])
        rw [node_insert_ZERO_rec ip bit end_ hlt, e]
        split
        · have := height_collapse_le (node_insert .ZERO ip (bit - 1) end_) .ZERO
          have hz : height .ZERO = 0 := rfl
          omega
        · have := height_collapse_le .ZERO (node_insert .ZERO ip (bit - 1) end_)
          have hz : height .ZERO = 0 := rfl
          omega
      | Branch c0 c1 =>
        simp only [height] at hh
        have h0 := hrec c0 (by omega)
        have h1 := hrec c1 (by omega)
        rw [node_insert_Branch_rec c0 c1 ip bit end_ hlt, e]
        split
        · have := height_collapse_le (node_insert c0 ip (bit - 1) end_) c1
          omega
        · have := height_collapse_le c0 (node_insert c1 ip (bit - 1) end_)
          omega

theorem height_addip (tree : IPTree) (ip : Nat) (block : Int) (hb : block ≤ 32)
    (h : height tree.root ≤ 32) : height (addip tree ip block).2.root ≤ 32 := by
  by_cases hr : (addip tree ip block).1 = 0
  · rw [addip_snd_of_eq tree ip block hr]
    exact height_node_insert _ _ _ 31 (31 - block) (le_refl _) (by omega) h
  · rw [addip_snd_of_ne tree ip block hr]
    exact h

/-- A tree built by `addip` calls with `block ≤ 32` is at most 32 nodes deep. -/
theorem height_addip_seq (calls : List (Nat × Int)) :
    ∀ tree : IPTree, (∀ c ∈ calls, c.2 ≤ 32) → height tree.root ≤ 32 →
      height (addip_seq tree calls).1.root ≤ 32 := by
  induction calls with
  | nil => intro tree _ h; exact h
  | cons c calls ih =>
    intro tree hc h
    obtain ⟨ip, block⟩ := c
    simp only [addip_seq]
    exact ih _ (fun c hm => hc c (List.mem_cons_of_mem _ hm))
      (height_addip tree ip block (hc (ip, block) (List.mem_cons_self _ _)) h)

/-- The specification of `dumpnode` at the root (`ip = 0`, `bit = 31`). -/
theorem dumpnode_root_spec (root : IPNode) (h : height root ≤ 32) :
    (∀ d ∈ dumpnode root 0 31, cidr_block d) ∧
      (dumpnode root 0 31).Pairwise (fun a b => a.1 + 2 ^ (32 - a.2).toNat ≤ b.1) ∧
      (∀ x : Nat, x < 2 ^ 32 →
        (node_search root x 31 = 1 ↔ ∃ d ∈ dumpnode root 0 31, block_mem x d)) := by
  obtain ⟨b, p, s⟩ := dumpnode_spec root 32 0 h (le_refl _) (by norm_num) (by norm_num)
  have e : ((32 : Nat) : Int) - 1 = 31 := by norm_num
  rw [e] at b p s
  exact ⟨fun d hd => (b d hd).2.2, p, fun x hx => s x (Nat.zero_le _) (by omega)⟩

/-- Blocks in increasing order without overlap share no address. -/
theorem block_mem_disjoint_of_le (a b : Nat × Int) (h : a.1 + 2 ^ (32 - a.2).toNat ≤ b.1)
    (x : Nat) : ¬ (block_mem x a ∧ block_mem x b) := by
  rintro ⟨h1, h2⟩
  have := h1.2
  have := h2.1
  omega

/-- C12: for every tree obtained from `makeiptree ()` by `addip` calls with
32-bit addresses and `block` in `0 .. 32`, the blocks `dumptree` emits are
pairwise disjoint, and a 32-bit address lies in one of them if and only if
`findip` returns 1 for it; a `ZERO` subtree emits no block. -/
theorem dumptree_blocks_spec (calls : List (Nat × Int))
    (hc : ∀ c ∈ calls, c.1 < 2 ^ 32 ∧ 0 ≤ c.2 ∧ c.2 ≤ 32) :
    (dumpnode (addip_seq makeiptree calls).1.root 0 31).Pairwise
        (fun a b => ∀ x : Nat, ¬ (block_mem x a ∧ block_mem x b)) ∧
      (∀ x : Nat, x < 2 ^ 32 →
        ((∃ d ∈ dumpnode (addip_seq makeiptree calls).1.root 0 31, block_mem x d) ↔
          findip (addip_seq makeiptree calls).1 x = 1)) ∧
      dumptree (addip_seq makeiptree calls).1
        = (dumpnode (addip_seq makeiptree calls).1.root 0 31).map (fun b => dumpip b.1 b.2) ∧
      (∀ (ip : Nat) (bit : Int), dumpnode .ZERO ip bit = []) := by
  have hh : height (addip_seq makeiptree calls).1.root ≤ 32 :=
    height_addip_seq calls makeiptree (fun c hm => (hc c hm).2.2) (by simp [makeiptree, height])
  obtain ⟨_, p, s⟩ := dumpnode_root_spec _ hh
  refine ⟨p.imp (fun h x => block_mem_disjoint_of_le _ _ h x), ?_, rfl, fun _ _ => rfl⟩
  intro x hx
  exact (s x hx).symm

theorem dumptree_blocks_spec_witness :
    (dumpnode (addip_seq makeiptree
        [(167772160, 24), (3232235520, 16), (167772416, 24), (167772161, 24)]).1.root 0 31).Pairwise
        (fun a b => ∀ x : Nat, ¬ (block_mem x a ∧ block_mem x b)) ∧
      (∀ x : Nat, x < 2 ^ 32 →
        ((∃ d ∈ dumpnode (addip_seq makeiptree
            [(167772160, 24), (3232235520, 16), (167772416, 24), (167772161, 24)]).1.root 0 31,
          block_mem x d) ↔
          findip (addip_seq makeiptree
            [(167772160, 24), (3232235520, 16), (167772416, 24), (167772161, 24)]).1 x = 1)) ∧
      dumpnode (addip_seq makeiptree
        [(167772160, 24), (3232235520, 16), (167772416, 24), (167772161, 24)]).1.root 0 31
        = [(167772160, 23), (3232235520, 16)] :=
  ⟨(dumptree_blocks_spec [(167772160, 24), (3232235520, 16), (167772416, 24), (167772161, 24)]
      (by decide)).1,
    (dumptree_blocks_spec [(167772160, 24), (3232235520, 16), (167772416, 24), (167772161, 24)]
      (by decide)).2.1,
    by decide⟩

/-! ## Theorems: `dumptree` is minimal -/

/-- A collapsed node other than `FULL` misses some address of its range. -/
theorem exists_not_found (node : IPNode) :
    ∀ (n acc : Nat), height node ≤ n → no_full_pair node = true → node ≠ .FULL →
      acc % 2 ^ n = 0 →
      ∃ x : Nat, acc ≤ x ∧ x < acc + 2 ^ n ∧ node_search node x ((n : Int) - 1) = 0 := by
  induction node with
  | ZERO =>
    intro n acc _ _ _ _
    exact ⟨acc, le_refl _, by have : 0 < 2 ^ n := by positivity
                              omega, rfl⟩
  | FULL =>
    intro n acc _ _ hne _
    exact absurd rfl hne
  | Branch c0 c1 ih0 ih1 =>
    intro n acc hh hn _ hacc
    simp only [height] at hh
    obtain ⟨m, rfl⟩ : ∃ m, n = m + 1 := ⟨n - 1, by omega⟩
    have e1 : ((m + 1 : Nat) : Int) - 1 = (m : Int) := by push_cast; ring
    have e2 : (m : Int).toNat = m := Int.toNat_natCast m
    have hpow : (2 : Nat) ^ (m + 1) = 2 ^ m * 2 := pow_succ 2 m
    obtain ⟨hm0, hm1⟩ := mod_half_eq_zero acc m hacc
    simp only [no_full_pair, Bool.and_eq_true, Bool.not_eq_true', Bool.and_eq_false_imp,
      decide_eq_true_eq, decide_eq_false_iff_not] at hn
    obtain ⟨⟨hpair, hn0⟩, hn1⟩ := hn
    rw [e1]
    simp only [node_search, e2]
    by_cases h0 : c0 = .FULL
    · obtain ⟨x, hx1, hx2, hx3⟩ := ih1 m (acc + 2 ^ m) (by omega) hn1 (hpair h0) hm1
      refine ⟨x, by omega, by omega, ?_⟩
      have hbit := bit_zero_iff_lower_half acc x m hacc (by omega) (by omega)
      rw [if_neg (fun h => absurd (hbit.1 h) (by omega))]
      exact hx3
    · obtain ⟨x, hx1, hx2, hx3⟩ := ih0 m acc (by omega) hn0 h0 hm0
      refine ⟨x, hx1, by omega, ?_⟩
      have hbit := bit_zero_iff_lower_half acc x m hacc hx1 (by omega)
      rw [if_pos (hbit.2 hx2)]
      exact hx3

/-- Two multiples of `2 ^ k`: the block of size `2 ^ k` at the smaller one ends
at or before the larger one. -/
theorem aligned_step (ip b k : Nat) (hip : ip % 2 ^ k = 0) (hb : b % 2 ^ k = 0) (h : ip < b) :
    ip + 2 ^ k ≤ b := by
  obtain ⟨q1, h1⟩ := Nat.dvd_of_mod_eq_zero hip
  obtain ⟨q2, h2⟩ := Nat.dvd_of_mod_eq_zero hb
  have hpos : 0 < 2 ^ k := by positivity
  rw [h1, h2] at h ⊢
  have hq : q1 < q2 := Nat.lt_of_mul_lt_mul_left h
  have : 2 ^ k * (q1 + 1) ≤ 2 ^ k * q2 := Nat.mul_le_mul_left _ hq
  rw [Nat.mul_add, Nat.mul_one] at this
  exact this

theorem mod_pow_of_mod_pow (a m k : Nat) (hk : k ≤ m) (h : a % 2 ^ m = 0) : a % 2 ^ k = 0 := by
  obtain ⟨q, hq⟩ := Nat.dvd_of_mod_eq_zero h
  have e : (2 : Nat) ^ m = 2 ^ k * 2 ^ (m - k) := by
    rw [← pow_add]; congr 1; omega
  rw [hq, e, Nat.mul_assoc]
  exact Nat.mul_mod_right _ _

/-- An aligned block all of whose addresses are found lies inside one of the
blocks that `dumpnode` emits for a collapsed node. -/
theorem block_inside_dumped (node : IPNode) :
    ∀ (n acc ip k : Nat), height node ≤ n → no_full_pair node = true → n ≤ 32 →
      acc % 2 ^ n = 0 → ip % 2 ^ k = 0 → acc ≤ ip → ip + 2 ^ k ≤ acc + 2 ^ n →
      (∀ x : Nat, ip ≤ x → x < ip + 2 ^ k → node_search node x ((n : Int) - 1) = 1) →
      ∃ d ∈ dumpnode node acc ((n : Int) - 1),
        d.1 ≤ ip ∧ ip + 2 ^ k ≤ d.1 + 2 ^ (32 - d.2).toNat := by
  induction node with
  | ZERO =>
    intro n acc ip k _ _ _ _ _ _ _ hall
    have hpos : 0 < 2 ^ k := by positivity
    have := hall ip (le_refl _) (by omega)
    simp [node_search] at this
  | FULL =>
    intro n acc ip k _ _ hn _ _ h1 h2 _
    have e : (32 - (31 - ((n : Int) - 1))).toNat = n := by omega
    exact ⟨(acc, 31 - ((n : Int) - 1)), by simp [dumpnode], h1, by simp only [e]; exact h2⟩
  | Branch c0 c1 ih0 ih1 =>
    intro n acc ip k hh hnf hn hacc hip h1 h2 hall
    have hnf' := hnf
    simp only [height] at hh
    obtain ⟨m, rfl⟩ : ∃ m, n = m + 1 := ⟨n - 1, by omega⟩
    have e1 : ((m + 1 : Nat) : Int) - 1 = (m : Int) := by push_cast; ring
    have e2 : (m : Int).toNat = m := Int.toNat_natCast m
    have hpow : (2 : Nat) ^ (m + 1) = 2 ^ m * 2 := pow_succ 2 m
    have hposm : 0 < 2 ^ m := by positivity
    have hposk : 0 < 2 ^ k := by positivity
    obtain ⟨hm0, hm1⟩ := mod_half_eq_zero acc m hacc
    simp only [no_full_pair, Bool.and_eq_true] at hnf
    obtain ⟨⟨_, hn0⟩, hn1⟩ := hnf
    by_cases hk : k ≤ m
    · have hmid : (acc + 2 ^ m) % 2 ^ k = 0 := mod_pow_of_mod_pow _ m k hk hm1
      rw [e1] at hall ⊢
      simp only [dumpnode, e2, or_bit_eq_add acc m (by omega) hacc]
      by_cases hlow : ip < acc + 2 ^ m
      · have hend := aligned_step ip (acc + 2 ^ m) k hip hmid hlow
        obtain ⟨d, hd, hd1, hd2⟩ := ih0 m acc ip k (by omega) hn0 (by omega) hm0 hip h1 hend
          (fun x hx1 hx2 => by
            have := hall x hx1 hx2
            have hbit := bit_zero_iff_lower_half acc x m hacc (by omega) (by omega)
            simp only [node_search, e2] at this
            rw [if_pos (hbit.2 (by omega))] at this
            exact this)
        exact ⟨d, List.mem_append_left _ hd, hd1, hd2⟩
      · obtain ⟨d, hd, hd1, hd2⟩ := ih1 m (acc + 2 ^ m) ip k (by omega) hn1 (by omega) hm1 hip
          (by omega) (by omega)
          (fun x hx1 hx2 => by
            have := hall x hx1 hx2
            have hbit := bit_zero_iff_lower_half acc x m hacc (by omega) (by omega)
            simp only [node_search, e2] at this
            rw [if_neg (fun h => absurd (hbit.1 h) (by omega))] at this
            exact this)
        exact ⟨d, List.mem_append_right _ hd, hd1, hd2⟩
    · exfalso
      have hle : (2 : Nat) ^ (m + 1) ≤ 2 ^ k := Nat.pow_le_pow_right (by norm_num) (by omega)
      obtain ⟨x, hx1, hx2, hx3⟩ := exists_not_found (.Branch c0 c1) (m + 1) acc
        (by simp only [height]; omega) hnf' (by simp) hacc
      have := hall x (by omega) (by omega)
      rw [hx3] at this
      exact absurd this (by decide)

/-- Counting: if every element of `D` is related to an element of `B`, and no
element of `B` is related to two elements of `D`, then `D` is no longer than
`B`. -/
theorem length_le_of_assignment {α β : Type} [DecidableEq β] (R : α → β → Prop) :
    ∀ (D : List α) (B : List β), D.Nodup → (∀ d ∈ D, ∃ b ∈ B, R d b) →
      (∀ d1 ∈ D, ∀ d2 ∈ D, ∀ b ∈ B, R d1 b → R d2 b → d1 = d2) → D.length ≤ B.length := by
  intro D
  induction D with
  | nil => intro B _ _ _; exact Nat.zero_le _
  | cons d D ih =>
    intro B hnd hex hinj
    obtain ⟨b, hb, hr⟩ := hex d (List.mem_cons_self _ _)
    have hd : d ∉ D := (List.nodup_cons.1 hnd).1
    have h := ih (B.erase b) (List.nodup_cons.1 hnd).2
      (fun d' hd' => by
        obtain ⟨b', hb', hr'⟩ := hex d' (List.mem_cons_of_mem _ hd')
        have hne : b' ≠ b := by
          intro e
          subst e
          have := hinj d (List.mem_cons_self _ _) d' (List.mem_cons_of_mem _ hd') b' hb hr hr'
          exact hd (this ▸ hd')
        exact ⟨b', (List.mem_erase_of_ne hne).2 hb', hr'⟩)
      (fun d1 h1 d2 h2 b' hb' r1 r2 =>
        hinj d1 (List.mem_cons_of_mem _ h1) d2 (List.mem_cons_of_mem _ h2) b'
          (List.mem_of_mem_erase hb') r1 r2)
    have hl := List.length_erase_of_mem hb
    have hpos : 0 < B.length := List.length_pos_of_mem hb
    simp only [List.length_cons]
    omega

/-- Two emitted blocks that share an address are the same block. -/
theorem dumped_block_unique (D : List (Nat × Int))
    (p : D.Pairwise (fun a b => a.1 + 2 ^ (32 - a.2).toNat ≤ b.1)) (d1 d2 : Nat × Int)
    (h1 : d1 ∈ D) (h2 : d2 ∈ D) (x : Nat) (m1 : block_mem x d1) (m2 : block_mem x d2) :
    d1 = d2 := by
  by_contra hne
  have hsym : Symmetric (fun a b : Nat × Int =>
      a.1 + 2 ^ (32 - a.2).toNat ≤ b.1 ∨ b.1 + 2 ^ (32 - b.2).toNat ≤ a.1) :=
    fun _ _ h => h.symm
  have hp : D.Pairwise (fun a b : Nat × Int =>
      a.1 + 2 ^ (32 - a.2).toNat ≤ b.1 ∨ b.1 + 2 ^ (32 - b.2).toNat ≤ a.1) :=
    p.imp (fun h => Or.inl h)
  have := hp.forall hsym h1 h2 hne
  have a1 := m1.1
  have a2 := m1.2
  have a3 := m2.1
  have a4 := m2.2
  rcases this with h | h <;> omega

/-- The blocks `dumpnode` emits at the root of a collapsed tree of height at
most 32 are no more than the blocks of any list of CIDR blocks that holds
exactly the addresses found in the tree. -/
theorem dumpnode_root_minimal (root : IPNode) (hh : height root ≤ 32)
    (hnf : no_full_pair root = true) (blocks : List (Nat × Int))
    (hb : ∀ b ∈ blocks, cidr_block b)
    (hcover : ∀ x : Nat, x < 2 ^ 32 →
      ((∃ b ∈ blocks, block_mem x b) ↔ node_search root x 31 = 1)) :
    (dumpnode root 0 31).length ≤ blocks.length := by
  obtain ⟨hcidr, p, s⟩ := dumpnode_root_spec root hh
  have hnd : (dumpnode root 0 31).Nodup := by
    refine p.imp ?_
    intro a b h e
    subst e
    have : 0 < 2 ^ (32 - a.2).toNat := by positivity
    omega
  have hself : ∀ d ∈ dumpnode root 0 31, d.1 < 2 ^ 32 ∧ block_mem d.1 d := by
    intro d hd
    have : 0 < 2 ^ (32 - d.2).toNat := by positivity
    exact ⟨(hcidr d hd).1, le_refl _, by omega⟩
  apply length_le_of_assignment (fun (d : Nat × Int) (b : Nat × Int) => block_mem d.1 b)
    _ _ hnd
  · intro d hd
    obtain ⟨hlt, hm⟩ := hself d hd
    exact (hcover d.1 hlt).2 ((s d.1 hlt).2 ⟨d, hd, hm⟩)
  · intro d1 hd1 d2 hd2 b hbm r1 r2
    obtain ⟨hb1, hb2, hb3, hb4⟩ := hb b hbm
    have hk : (32 - b.2).toNat ≤ 32 := by omega
    have hend : b.1 + 2 ^ (32 - b.2).toNat ≤ 2 ^ 32 :=
      aligned_step b.1 (2 ^ 32) _ hb4 (mod_pow_of_mod_pow _ 32 _ hk (Nat.mod_self _)) hb1
    have e : ((32 : Nat) : Int) - 1 = 31 := by norm_num
    obtain ⟨d, hd, hd1', hd2'⟩ := block_inside_dumped root 32 0 b.1 (32 - b.2).toNat hh hnf
      (le_refl _) (by norm_num) hb4 (Nat.zero_le _) (by omega)
      (fun x hx1 hx2 => by
        rw [e]
        exact (hcover x (by omega)).1 ⟨b, hbm, hx1, hx2⟩)
    rw [e] at hd
    have c1 : d1 = d :=
      dumped_block_unique _ p d1 d hd1 hd d1.1 (hself d1 hd1).2
        ⟨by have := r1.1; omega, by have := r1.2; omega⟩
    have c2 : d2 = d :=
      dumped_block_unique _ p d2 d hd2 hd d2.1 (hself d2 hd2).2
        ⟨by have := r2.1; omega, by have := r2.2; omega⟩
    rw [c1, c2]

/-- C13: for every tree obtained from `makeiptree ()` by `addip` calls with
32-bit addresses and `block` in `0 .. 32`, no list of CIDR blocks that holds
exactly the addresses `findip` finds has fewer blocks than `dumptree`
emits. -/
theorem dumptree_minimal (calls : List (Nat × Int))
    (hc : ∀ c ∈ calls, c.1 < 2 ^ 32 ∧ 0 ≤ c.2 ∧ c.2 ≤ 32) (blocks : List (Nat × Int))
    (hb : ∀ b ∈ blocks, cidr_block b)
    (hcover : ∀ x : Nat, x < 2 ^ 32 →
      ((∃ b ∈ blocks, block_mem x b) ↔ findip (addip_seq makeiptree calls).1 x = 1)) :
    (dumptree (addip_seq makeiptree calls).1).length ≤ blocks.length := by
  have hh : height (addip_seq makeiptree calls).1.root ≤ 32 :=
    height_addip_seq calls makeiptree (fun c hm => (hc c hm).2.2) (by simp [makeiptree, height])
  have hnf := no_full_pair_addip_seq calls makeiptree rfl
  simp only [dumptree, List.length_map]
  exact dumpnode_root_minimal _ hh hnf blocks hb hcover

theorem dumptree_minimal_witness :
    (∀ b ∈ [((167772160 : Nat), (24 : Int)), (167772416, 24)], cidr_block b) ∧
      (dumptree (addip_seq makeiptree [(167772160, 24), (167772416, 24)]).1).length
        ≤ [((167772160 : Nat), (24 : Int)), (167772416, 24)].length ∧
      (dumptree (addip_seq makeiptree [(167772160, 24), (167772416, 24)]).1).length = 1 := by
  have hb : ∀ b ∈ [((167772160 : Nat), (24 : Int)), (167772416, 24)], cidr_block b := by
    intro b hm
    simp only [List.mem_cons, List.mem_singleton, List.not_mem_nil, or_false] at hm
    rcases hm with rfl | rfl <;> exact ⟨by decide, by decide, by decide, by decide⟩
  have hD : dumpnode (addip_seq makeiptree [(167772160, 24), (167772416, 24)]).1.root 0 31
      = [(167772160, 23)] := by decide
  have hh : height (addip_seq makeiptree [(167772160, 24), (167772416, 24)]).1.root ≤ 32 := by
    decide
  refine ⟨hb, dumptree_minimal [(167772160, 24), (167772416, 24)] (by decide) _ hb ?_,
    by decide⟩
  intro x hx
  have s := (dumpnode_root_spec _ hh).2.2 x hx
  rw [hD] at s
  simp only [findip]
  rw [s]
  have e1 : ((32 : Int) - 24).toNat = 8 := by decide
  have e2 : ((32 : Int) - 23).toNat = 9 := by decide
  simp only [List.mem_cons, List.mem_singleton, List.not_mem_nil, or_false, exists_eq_or_imp,
    exists_eq_left, block_mem, e1, e2]
  constructor
  · rintro (⟨h1, h2⟩ | ⟨h1, h2⟩)
    · exact ⟨h1, by omega⟩
    · exact ⟨by omega, by omega⟩
  · rintro ⟨h1, h2⟩
    by_cases h : x < 167772416
    · exact Or.inl ⟨h1, by omega⟩
    · exact Or.inr ⟨by omega, by omega⟩

/-! ## Theorems: more on the scanner -/

/-- From the label `scan` a byte range without digits yields no candidate. -/
theorem detectip_run_scan_no_digit (data : List Nat) :
    ∀ (ip ipbyte : Nat) (block : Int), (∀ b ∈ data, isdigit b = false) →
      detectip_run data .scan ip ipbyte block = [] := by
  induction data with
  | nil => intro ip ipbyte block _; rfl
  | cons b data ih =>
    intro ip ipbyte block h
    have hb : isdigit b = false := h b (List.mem_cons_self _ _)
    simp only [detectip_run, hb, Bool.false_eq_true, if_false]
    exact ih ip ipbyte block (fun c hc => h c (List.mem_cons_of_mem _ hc))

/-- C21: for every byte range that holds no digit byte `'0' .. '9'`,
`detectip_str` returns no candidate. -/
theorem detectip_str_no_digit (data : List Nat) (h : ∀ b ∈ data, isdigit b = false) :
    detectip_str data = [] :=
  detectip_run_scan_no_digit data 0 0 32 h

theorem detectip_str_no_digit_witness :
    (∀ b ∈ bytes_of "GET /index.html from host\n", isdigit b = false) ∧
      detectip_str (bytes_of "GET /index.html from host\n") = [] :=
  ⟨by decide, detectip_str_no_digit (bytes_of "GET /index.html from host\n") (by decide)⟩

/-- The label `scan` does not read `ip` and `ipbyte`. -/
theorem detectip_run_scan_regs (data : List Nat) :
    ∀ (ip ipbyte ip2 ipbyte2 : Nat) (block : Int),
      detectip_run data .scan ip ipbyte block = detectip_run data .scan ip2 ipbyte2 block := by
  induction data with
  | nil => intro _ _ _ _ _; rfl
  | cons b data ih =>
    intro ip ipbyte ip2 ipbyte2 block
    simp only [detectip_run]
    split
    · rfl
    · exact ih _ _ _ _ _

/-- A dotted quad at the end of the bytes, read from `scan`: the label `tail`
adds the fourth octet only when it is not zero. -/
theorem detectip_run_quad_at_end (da db dc dd : List Nat) (ha : is_octet da) (hb : is_octet db)
    (hc : is_octet dc) (hd : is_octet dd) (ip ipbyte : Nat) :
    detectip_run (quad_text da db dc dd) .scan ip ipbyte 32 =
      [(if decval dd ≠ 0 then quad_ip da db dc dd
        else decval da * 2 ^ 16 + decval db * 2 ^ 8 + decval dc, 32)] := by
  have h := detectip_run_quad da db dc dd [] ha hb hc hd ip ipbyte 32
  rw [List.append_nil] at h
  rw [h]
  simp only [detectip_run]
  have hq := quad_ip_eq da db dc dd ha hb hc hd
  rw [hq]

/-- C23, the code at the failing input: over the 7 bytes `1.2.3.0`, with no byte
after the last digit, `detectip_str` yields `(1.2.3, 32)`, the address
`1 * 2^16 + 2 * 2^8 + 3`, not `1.2.3.0`; over `1.2.3.4` it yields `1.2.3.4`. -/
theorem detectip_str_tail_zero_octet :
    detectip_str (bytes_of "1.2.3.0") = [(66051, 32)] ∧
      1 * 2 ^ 24 + 2 * 2 ^ 16 + 3 * 2 ^ 8 + 0 = 16909056 ∧
      detectip_str (bytes_of "1.2.3.4") = [(16909060, 32)] ∧
      detectip_str (bytes_of "1.2.3.0\n") = [(16909056, 32)] := by
  decide

/-- A byte `t` that is not a digit, `.` or `/` takes every label back to `scan`
(through `found` from the last three), so the bytes after it are scanned as a
range of their own. -/
theorem detectip_run_split (P : List Nat) :
    ∀ (st : DState) (ip ipbyte : Nat) (block : Int) (t : Nat) (Q : List Nat),
      isdigit t = false → t ≠ 46 → t ≠ 47 → (st ≠ .cidr2 → block = 32) →
      detectip_run (P ++ t :: Q) st ip ipbyte block =
        detectip_run (P ++ [t]) st ip ipbyte block ++ detectip_str Q := by
  induction P with
  | nil =>
    intro st ip ipbyte block t Q ht h46 h47 h2
    cases st <;>
      simp only [List.nil_append, detectip_run, ht, h46, h47, Bool.false_eq_true, if_false,
        List.nil_append, List.cons_append, detectip_str] <;>
      first
        | rfl
        | (rw [h2 (by decide)]; exact detectip_run_scan_regs Q _ _ _ _ _)
  | cons b P ih =>
    intro st ip ipbyte block t Q ht h46 h47 h2
    have hrec : ∀ (st : DState) (i j : Nat) (blk : Int), (st ≠ .cidr2 → blk = 32) →
        detectip_run (P ++ t :: Q) st i j blk =
          detectip_run (P ++ [t]) st i j blk ++ detectip_str Q :=
      fun st i j blk h => ih st i j blk t Q ht h46 h47 h
    cases st <;> simp only [List.cons_append, detectip_run]
    · split <;> exact hrec _ _ _ _ (fun _ => h2 (by decide))
    · split
      · exact hrec _ _ _ _ (fun _ => h2 (by decide))
      · split <;> exact hrec _ _ _ _ (fun _ => h2 (by decide))
    · split <;> exact hrec _ _ _ _ (fun _ => h2 (by decide))
    · split
      · exact hrec _ _ _ _ (fun _ => h2 (by decide))
      · split <;> exact hrec _ _ _ _ (fun _ => h2 (by decide))
    · split <;> exact hrec _ _ _ _ (fun _ => h2 (by decide))
    · split
      · exact hrec _ _ _ _ (fun _ => h2 (by decide))
      · split <;> exact hrec _ _ _ _ (fun _ => h2 (by decide))
    · split <;> exact hrec _ _ _ _ (fun _ => h2 (by decide))
    · split
      · exact hrec _ _ _ _ (fun _ => h2 (by decide))
      · split
        · exact hrec _ _ _ _ (fun _ => h2 (by decide))
        · exact congrArg (List.cons _) (hrec .scan 0 0 32 (fun _ => rfl))
    · split
      · exact hrec _ _ _ _ (fun h => absurd rfl h)
      · exact congrArg (List.cons _) (hrec .scan 0 0 32 (fun _ => rfl))
    · split
      · exact congrArg (List.cons _) (hrec .scan 0 0 32 (fun _ => rfl))
      · exact congrArg (List.cons _) (hrec .scan 0 0 32 (fun _ => rfl))

/-- For all byte sequences `P` and `Q` where `P` ends with a byte that is not a
digit, `.` or `/`, the pairs brought to the label `found` over `P` followed by
`Q` are those over `P` followed by those over `Q`. -/
theorem detectip_str_append (P Q : List Nat) (t : Nat) (ht : isdigit t = false) (h46 : t ≠ 46)
    (h47 : t ≠ 47) :
    detectip_str ((P ++ [t]) ++ Q) = detectip_str (P ++ [t]) ++ detectip_str Q := by
  have e : (P ++ [t]) ++ Q = P ++ t :: Q := by simp
  rw [e]
  exact detectip_run_split P .scan 0 0 32 t Q ht h46 h47 (fun _ => rfl)

theorem has_full_collapse (c0 c1 : IPNode) (h : has_full c0 = true ∨ has_full c1 = true) :
    has_full (collapse c0 c1) = true := by
  unfold collapse
  split
  · rfl
  · simpa [has_full] using h

/-- The node `node_insert` stores has a `FULL` leaf. -/
theorem has_full_node_insert (k : Nat) :
    ∀ (node : IPNode) (ip : Nat) (bit end_ : Int), (bit - end_).toNat ≤ k →
      has_full (node_insert node ip bit end_) = true := by
  induction k with
  | zero =>
    intro node ip bit end_ hk
    rw [node_insert_stop node ip bit end_ (by omega)]
    rfl
  | succ k ih =>
    intro node ip bit end_ hk
    by_cases hs : bit ≤ end_
    · rw [node_insert_stop node ip bit end_ hs]; rfl
    · have hlt : end_ < bit := by omega
      have hrec : ∀ c : IPNode, has_full (node_insert c ip (bit - 1) end_) = true :=
        fun c => ih c ip (bit - 1) end_ (by omega)
      cases node with
      | FULL => rw [node_insert_FULL]; rfl
      | ZERO =>
        rw [node_insert_ZERO_rec ip bit end_ hlt]
        split
        · exact has_full_collapse _ _ (Or.inl (hrec _))
        · exact has_full_collapse _ _ (Or.inr (hrec _))
      | Branch c0 c1 =>
        rw [node_insert_Branch_rec c0 c1 ip bit end_ hlt]
        split
        · exact has_full_collapse _ _ (Or.inl (hrec _))
        · exact has_full_collapse _ _ (Or.inr (hrec _))

theorem has_zero_of_mixed (node : IPNode) (h : mixed node = true) (hne : node ≠ .FULL) :
    has_zero node = true := by
  cases node with
  | ZERO => rfl
  | FULL => exact absurd rfl hne
  | Branch c0 c1 =>
    simp only [mixed, Bool.and_eq_true] at h
    simpa [has_zero] using h.1.1.2

theorem mixed_collapse (c0 c1 : IPNode) (h0 : mixed c0 = true) (h1 : mixed c1 = true)
    (hf : has_full c0 = true ∨ has_full c1 = true) : mixed (collapse c0 c1) = true := by
  unfold collapse
  split
  · rfl
  · rename_i hn
    have hz : has_zero c0 = true ∨ has_zero c1 = true := by
      by_cases hc : c0 = .FULL
      · exact Or.inr (has_zero_of_mixed c1 h1 (fun h => hn ⟨hc, h⟩))
      · exact Or.inl (has_zero_of_mixed c0 h0 hc)
    simp only [mixed, h0, h1, Bool.and_true, Bool.and_eq_true, Bool.or_eq_true]
    exact ⟨hf, hz⟩

/-- The function `node_insert` keeps every allocated node mixed, whatever its
arguments. -/
theorem mixed_node_insert (k : Nat) :
    ∀ (node : IPNode) (ip : Nat) (bit end_ : Int), (bit - end_).toNat ≤ k →
      mixed node = true → mixed (node_insert node ip bit end_) = true := by
  induction k with
  | zero =>
    intro node ip bit end_ hk _
    rw [node_insert_stop node ip bit end_ (by omega)]
    rfl
  | succ k ih =>
    intro node ip bit end_ hk hm
    by_cases hs : bit ≤ end_
    · rw [node_insert_stop node ip bit end_ hs]; rfl
    · have hlt : end_ < bit := by omega
      have hrec : ∀ c : IPNode, mixed c = true →
          mixed (node_insert c ip (bit - 1) end_) = true :=
        fun c hc => ih c ip (bit - 1) end_ (by omega) hc
      have hfull : ∀ c : IPNode, has_full (node_insert c ip (bit - 1) end_) = true :=
        fun c => has_full_node_insert _ c ip (bit - 1) end_ (le_refl _)
      cases node with
      | FULL => rw [node_insert_FULL]; rfl
      | ZERO =>
        rw [node_insert_ZERO_rec ip bit end_ hlt]
        split
        · exact mixed_collapse _ _ (hrec _ rfl) rfl (Or.inl (hfull _))
        · exact mixed_collapse _ _ rfl (hrec _ rfl) (Or.inr (hfull _))
      | Branch c0 c1 =>
        simp only [mixed, Bool.and_eq_true] at hm
        rw [node_insert_Branch_rec c0 c1 ip bit end_ hlt]
        split
        · exact mixed_collapse _ _ (hrec _ hm.1.2) hm.2 (Or.inl (hfull _))
        · exact mixed_collapse _ _ hm.1.2 (hrec _ hm.2) (Or.inr (hfull _))

theorem mixed_addip_seq (calls : List (Nat × Int)) :
    ∀ tree : IPTree, mixed tree.root = true → mixed (addip_seq tree calls).1.root = true := by
  induction calls with
  | nil => intro tree h; exact h
  | cons c calls ih =>
    intro tree h
    obtain ⟨ip, block⟩ := c
    simp only [addip_seq]
    apply ih
    by_cases hr : (addip tree ip block).1 = 0
    · rw [addip_snd_of_eq tree ip block hr]
      exact mixed_node_insert _ _ _ _ _ (le_refl _) h
    · rw [addip_snd_of_ne tree ip block hr]
      exact h

theorem no_zero_pair_of_mixed (node : IPNode) (h : mixed node = true) :
    no_zero_pair node = true := by
  induction node with
  | ZERO => rfl
  | FULL => rfl
  | Branch c0 c1 ih0 ih1 =>
    simp only [mixed, Bool.and_eq_true, Bool.or_eq_true] at h
    obtain ⟨⟨⟨hf, _⟩, m0⟩, m1⟩ := h
    simp only [no_zero_pair, ih0 m0, ih1 m1, Bool.and_true, Bool.not_eq_true',
      Bool.and_eq_false_imp, decide_eq_true_eq, decide_eq_false_iff_not]
    intro e0 e1
    subst e0; subst e1
    simp [has_full] at hf

/-- C27: in every tree obtained from `makeiptree ()` by `addip` calls, with any
arguments, every allocated node has beneath it at least one `FULL` leaf and at
least one `ZERO` leaf, and no allocated node has two `ZERO` children. -/
theorem reachable_mixed (calls : List (Nat × Int)) :
    mixed (addip_seq makeiptree calls).1.root = true ∧
      no_zero_pair (addip_seq makeiptree calls).1.root = true := by
  have h := mixed_addip_seq calls makeiptree rfl
  exact ⟨h, no_zero_pair_of_mixed _ h⟩

theorem collapse_of_no_full_pair (c0 c1 : IPNode)
    (h : no_full_pair (.Branch c0 c1) = true) : collapse c0 c1 = .Branch c0 c1 := by
  simp only [no_full_pair, Bool.and_eq_true, Bool.not_eq_true', Bool.and_eq_false_imp,
    decide_eq_true_eq, decide_eq_false_iff_not] at h
  unfold collapse
  rw [if_neg (fun hh => h.1.1 hh.1 hh.2)]

/-- Inserting an aligned block all of whose addresses are found already leaves a
collapsed node as it is. -/
theorem node_insert_contained (node : IPNode) :
    ∀ (n acc ip k : Nat), height node ≤ n → no_full_pair node = true → n ≤ 32 →
      acc % 2 ^ n = 0 → ip % 2 ^ k = 0 → acc ≤ ip → ip + 2 ^ k ≤ acc + 2 ^ n →
      (∀ x : Nat, ip ≤ x → x < ip + 2 ^ k → node_search node x ((n : Int) - 1) = 1) →
      node_insert node ip ((n : Int) - 1) ((k : Int) - 1) = node := by
  induction node with
  | ZERO =>
    intro n acc ip k _ _ _ _ _ _ _ hall
    have hpos : 0 < 2 ^ k := by positivity
    have := hall ip (le_refl _) (by omega)
    simp [node_search] at this
  | FULL =>
    intro n acc ip k _ _ _ _ _ _ _ _
    exact node_insert_FULL _ _ _
  | Branch c0 c1 ih0 ih1 =>
    intro n acc ip k hh hnf hn hacc hip h1 h2 hall
    have hnf' := hnf
    simp only [height] at hh
    obtain ⟨m, rfl⟩ : ∃ m, n = m + 1 := ⟨n - 1, by omega⟩
    have e1 : ((m + 1 : Nat) : Int) - 1 = (m : Int) := by push_cast; ring
    have e2 : (m : Int).toNat = m := Int.toNat_natCast m
    have hpow : (2 : Nat) ^ (m + 1) = 2 ^ m * 2 := pow_succ 2 m
    have hposm : 0 < 2 ^ m := by positivity
    have hposk : 0 < 2 ^ k := by positivity
    obtain ⟨hm0, hm1⟩ := mod_half_eq_zero acc m hacc
    simp only [no_full_pair, Bool.and_eq_true] at hnf
    obtain ⟨⟨_, hn0⟩, hn1⟩ := hnf
    by_cases hk : k ≤ m
    · have hmid : (acc + 2 ^ m) % 2 ^ k = 0 := mod_pow_of_mod_pow _ m k hk hm1
      rw [e1] at hall ⊢
      rw [node_insert_Branch_rec c0 c1 ip m ((k : Int) - 1) (by omega), e2]
      have hbitip := bit_zero_iff_lower_half acc ip m hacc h1 (by omega)
      by_cases hlow : ip < acc + 2 ^ m
      · have hend := aligned_step ip (acc + 2 ^ m) k hip hmid hlow
        rw [if_pos (hbitip.2 hlow)]
        rw [ih0 m acc ip k (by omega) hn0 (by omega) hm0 hip h1 hend
          (fun x hx1 hx2 => by
            have := hall x hx1 hx2
            have hbit := bit_zero_iff_lower_half acc x m hacc (by omega) (by omega)
            simp only [node_search, e2] at this
            rw [if_pos (hbit.2 (by omega))] at this
            exact this)]
        exact collapse_of_no_full_pair c0 c1 hnf'
      · rw [if_neg (fun h => hlow (hbitip.1 h))]
        rw [ih1 m (acc + 2 ^ m) ip k (by omega) hn1 (by omega) hm1 hip (by omega) (by omega)
          (fun x hx1 hx2 => by
            have := hall x hx1 hx2
            have hbit := bit_zero_iff_lower_half acc x m hacc (by omega) (by omega)
            simp only [node_search, e2] at this
            rw [if_neg (fun h => absurd (hbit.1 h) (by omega))] at this
            exact this)]
        exact collapse_of_no_full_pair c0 c1 hnf'
    · exfalso
      have hle : (2 : Nat) ^ (m + 1) ≤ 2 ^ k := Nat.pow_le_pow_right (by norm_num) (by omega)
      obtain ⟨x, hx1, hx2, hx3⟩ := exists_not_found (.Branch c0 c1) (m + 1) acc
        (by simp only [height]; omega) hnf' (by simp) hacc
      have := hall x (by omega) (by omega)
      rw [hx3] at this
      exact absurd this (by decide)

/-- On a collapsed tree of height at most 32, `addip` of a CIDR block all of
whose addresses are found returns 0 and leaves the tree as it is. -/
theorem addip_contained (tree : IPTree) (hh : height tree.root ≤ 32)
    (hnf : no_full_pair tree.root = true) (ip : Nat) (block : Int)
    (hb : cidr_block (ip, block))
    (hin : ∀ x : Nat, block_mem x (ip, block) → findip tree x = 1) :
    addip tree ip block = (0, tree) := by
  obtain ⟨b1, b2, b3, b4⟩ := hb
  simp only at b1 b2 b3 b4
  rw [addip_of_valid tree ip block b1 b2 b3 b4]
  have hk : (32 - block).toNat ≤ 32 := by omega
  have hend : ip + 2 ^ (32 - block).toNat ≤ 2 ^ 32 :=
    aligned_step ip (2 ^ 32) _ b4 (mod_pow_of_mod_pow _ 32 _ hk (Nat.mod_self _)) b1
  have e31 : ((32 : Nat) : Int) - 1 = 31 := by norm_num
  have eend : (((32 - block).toNat : Nat) : Int) - 1 = 31 - block := by omega
  have h := node_insert_contained tree.root 32 0 ip (32 - block).toNat hh hnf (le_refl _)
    (by norm_num) b4 (Nat.zero_le _) (by omega)
    (fun x hx1 hx2 => by
      rw [e31]
      exact hin x ⟨hx1, hx2⟩)
  rw [e31, eend] at h
  rw [h]

/-- C26: for every tree obtained from `makeiptree ()` by `addip` calls with
32-bit addresses and `block` in `0 .. 32`, and every CIDR block `(ip, block)`:
if all addresses of the block are found in the tree, `addip` returns 0 and
leaves the tree as it is; and inserting the block a second time gives the tree
that inserting it once gives. -/
theorem addip_contained_unchanged (calls : List (Nat × Int))
    (hc : ∀ c ∈ calls, c.1 < 2 ^ 32 ∧ 0 ≤ c.2 ∧ c.2 ≤ 32) (ip : Nat) (block : Int)
    (hb : cidr_block (ip, block)) :
    ((∀ x : Nat, block_mem x (ip, block) → findip (addip_seq makeiptree calls).1 x = 1) →
        addip (addip_seq makeiptree calls).1 ip block = (0, (addip_seq makeiptree calls).1)) ∧
      addip (addip (addip_seq makeiptree calls).1 ip block).2 ip block
        = (0, (addip (addip_seq makeiptree calls).1 ip block).2) := by
  have hh : height (addip_seq makeiptree calls).1.root ≤ 32 :=
    height_addip_seq calls makeiptree (fun c hm => (hc c hm).2.2) (by simp [makeiptree, height])
  have hnf := no_full_pair_addip_seq calls makeiptree rfl
  refine ⟨fun hin => addip_contained _ hh hnf ip block hb hin, ?_⟩
  obtain ⟨b1, b2, b3, b4⟩ := hb
  simp only at b1 b2 b3 b4
  apply addip_contained _ (height_addip _ ip block b3 hh) (no_full_pair_addip _ ip block hnf)
    ip block ⟨b1, b2, b3, b4⟩
  intro x hx
  rw [addip_of_valid _ ip block b1 b2 b3 b4]
  simp only [findip]
  apply node_search_insert block.toNat _ ip x 31 (31 - block) (by omega) (by omega)
  have e : (31 - block + 1).toNat = (32 - block).toNat := by congr 1; omega
  rw [e]
  exact div_eq_of_in_block x ip _ b4 hx.1 hx.2

theorem addip_contained_unchanged_witness :
    cidr_block (167772416, 24) ∧
      (∀ x : Nat, block_mem x (167772416, 24) →
        findip (addip_seq makeiptree [(167772160, 23), (3232235520, 16)]).1 x = 1) ∧
      addip (addip_seq makeiptree [(167772160, 23), (3232235520, 16)]).1 167772416 24
        = (0, (addip_seq makeiptree [(167772160, 23), (3232235520, 16)]).1) := by
  have hb : cidr_block (167772416, 24) := ⟨by decide, by decide, by decide, by decide⟩
  have hD : dumpnode (addip_seq makeiptree [(167772160, 23), (3232235520, 16)]).1.root 0 31
      = [(167772160, 23), (3232235520, 16)] := by decide
  have hh : height (addip_seq makeiptree [(167772160, 23), (3232235520, 16)]).1.root ≤ 32 := by
    decide
  have hin : ∀ x : Nat, block_mem x (167772416, 24) →
      findip (addip_seq makeiptree [(167772160, 23), (3232235520, 16)]).1 x = 1 := by
    intro x hx
    have e1 : ((32 : Int) - 24).toNat = 8 := by decide
    have e2 : ((32 : Int) - 23).toNat = 9 := by decide
    simp only [block_mem, e1] at hx
    have s := (dumpnode_root_spec _ hh).2.2 x (by omega)
    rw [hD] at s
    simp only [findip]
    rw [s]
    exact ⟨(167772160, 23), by simp, by simp only [block_mem, e2]; omega⟩
  exact ⟨hb, hin,
    (addip_contained_unchanged [(167772160, 23), (3232235520, 16)] (by decide) 167772416 24
      hb).1 hin⟩

/-! ## Theorems: the line buffer, refill and cursors -/

/-- C22, the code at the failing inputs.  With the input `a\nb\n` delivered as
the reads `a` and `\nb\n`, the first `aio_buffer_loadline` returns 0 with
`[linestart, linelimit)` holding `a\nb`, a terminator byte inside the line.
With the input `ab\n` and a terminator byte left in memory just after it, the
second call returns 0 with `linelimit = end`, on a byte that was never
read. -/
theorem loadline_zero_not_one_line :
    loadline_view (loadline_nth 4096 65552 (fun _ => 0)
        [.bytes (bytes_of "a"), .bytes (bytes_of "\nb\n")] 0)
      = some (0, 0, 3, 4, bytes_of "a\nb", 10) ∧
    loadline_view (loadline_nth 4096 65552 (fun a => if a = 69635 then 10 else 0)
        [.bytes (bytes_of "ab\n")] 1)
      = some (0, 3, 3, 3, [], 10) := by
  constructor <;> rfl

theorem read_retry_length (src : List ReadEvent) (readsize : Nat) :
    0 < (read_retry src readsize).1 →
      (((read_retry src readsize).2.1.length : Nat) : Int) = (read_retry src readsize).1 := by
  induction src with
  | nil => simp [read_retry]
  | cons ev evs ih =>
    cases ev with
    | eintr => simpa only [read_retry] using ih
    | error => simp [read_retry]
    | bytes bs =>
      simp only [read_retry]
      split
      · intro _; rfl
      · rename_i h
        intro _
        simp only [List.length_take]
        rw [Nat.min_eq_left (by omega)]

theorem mem_write_outside (mem : Int → Nat) (dst : Int) (bs : List Nat) (a : Int)
    (h : a < dst ∨ dst + bs.length ≤ a) : mem_write mem dst bs a = mem a := by
  unfold mem_write
  rw [if_neg (by omega)]

theorem mem_write_inside (mem : Int → Nat) (dst : Int) (bs : List Nat) (i : Nat)
    (h : i < bs.length) : mem_write mem dst bs (dst + i) = bs.getD i 0 := by
  unfold mem_write
  rw [if_pos (by omega)]
  congr 1
  omega

theorem mem_move_inside (mem : Int → Nat) (dst from_ : Int) (n i : Nat) (h : i < n) :
    mem_move mem dst from_ n (dst + i) = mem (from_ + i) := by
  unfold mem_move
  rw [if_pos (by omega)]
  congr 1
  omega

theorem mem_move_outside (mem : Int → Nat) (dst from_ : Int) (n : Nat) (a : Int)
    (h : a < dst ∨ dst + n ≤ a) : mem_move mem dst from_ n a = mem a := by
  unfold mem_move
  rw [if_neg (by omega)]

/-- The buffer `aio_buffer_fill` leaves when `keep < limit`, field by field. -/
theorem aio_buffer_fill_eq (buffer : aio_buffer) (keep : Nat) (hk : keep < buffer.limit) :
    aio_buffer_fill buffer keep =
      some (if (read_retry buffer.src (buffer.limit - keep)).1 = 0 then AIO_ERROR_END_BUFFER
          else 0,
        buffer.start - (buffer.end_ - keep),
        { buffer with
          mem := mem_write
            (if keep ≠ 0 then mem_move buffer.mem buffer.start (buffer.end_ - keep) keep
              else buffer.mem)
            (buffer.start + keep) (read_retry buffer.src (buffer.limit - keep)).2.1
          src := (read_retry buffer.src (buffer.limit - keep)).2.2
          end_ := if (read_retry buffer.src (buffer.limit - keep)).1 = 0 then buffer.end_
            else buffer.start + keep + (read_retry buffer.src (buffer.limit - keep)).1 }) := by
  have h1 : keep ≤ buffer.limit := by omega
  have h2 : ¬ buffer.limit - keep = 0 := by omega
  simp only [aio_buffer_fill, if_pos h1, if_neg h2]
  split <;> rfl

/-- C28: for every buffer and every `keep < limit`, `aio_buffer_fill` returns;
afterwards `[start, start + keep)` holds the bytes that were at
`[end - keep, end)`, `*adjust` is `start - (end - keep)`, so a cursor `c` into
the kept bytes finds its byte at `c + adjust`; `data`, `size`, `start`, `limit`
and `fd` are unchanged; and when the read returns `n > 0` bytes they are at
`[start + keep, start + keep + n)`, `end` is `start + keep + n` and the return
code is 0. -/
theorem aio_buffer_fill_frame (buffer : aio_buffer) (keep : Nat) (hk : keep < buffer.limit) :
    ∃ (res adjust : Int) (b1 : aio_buffer),
      aio_buffer_fill buffer keep = some (res, adjust, b1) ∧
      adjust = buffer.start - (buffer.end_ - keep) ∧
      (∀ i : Nat, i < keep → b1.mem (buffer.start + i) = buffer.mem (buffer.end_ - keep + i)) ∧
      (∀ c : Int, buffer.end_ - keep ≤ c → c < buffer.end_ →
        b1.mem (c + adjust) = buffer.mem c) ∧
      b1.data = buffer.data ∧ b1.size = buffer.size ∧ b1.start = buffer.start ∧
      b1.limit = buffer.limit ∧ b1.fd = buffer.fd ∧
      (0 < (read_retry buffer.src (buffer.limit - keep)).1 →
        res = 0 ∧
        b1.end_ = buffer.start + keep + (read_retry buffer.src (buffer.limit - keep)).1 ∧
        ((read_retry buffer.src (buffer.limit - keep)).2.1.length : Int)
          = (read_retry buffer.src (buffer.limit - keep)).1 ∧
        ∀ i : Nat, i < (read_retry buffer.src (buffer.limit - keep)).2.1.length →
          b1.mem (buffer.start + keep + i)
            = (read_retry buffer.src (buffer.limit - keep)).2.1.getD i 0) := by
  rw [aio_buffer_fill_eq buffer keep hk]
  refine ⟨_, _, _, rfl, rfl, ?_, ?_, rfl, rfl, rfl, rfl, rfl, ?_⟩
  · intro i hi
    simp only
    rw [mem_write_outside _ _ _ _ (Or.inl (by omega)), if_pos (by omega),
      mem_move_inside _ _ _ _ _ hi]
  · intro c hc1 hc2
    simp only
    obtain ⟨i, hi⟩ : ∃ i : Nat, c = buffer.end_ - keep + i :=
      ⟨(c - (buffer.end_ - keep)).toNat, by omega⟩
    have hik : i < keep := by omega
    have e : c + (buffer.start - (buffer.end_ - ↑keep)) = buffer.start + i := by omega
    rw [e, mem_write_outside _ _ _ _ (Or.inl (by omega)), if_pos (by omega),
      mem_move_inside _ _ _ _ _ hik, hi]
  · intro hpos
    have hne : ¬ (read_retry buffer.src (buffer.limit - keep)).1 = 0 := by omega
    simp only [if_neg hne]
    refine ⟨trivial, trivial, read_retry_length _ _ hpos, ?_⟩
    intro i hi
    rw [mem_write_inside _ _ _ _ hi]

theorem aio_buffer_fill_frame_witness :
    (2 : Nat) < (6 : Nat) ∧
      ∃ (res adjust : Int) (b1 : aio_buffer),
        aio_buffer_fill
          { data := 0, size := 8, start := 1, end_ := 5, limit := 6, fd := 0, linestart := 3,
            linelimit := 5, mem := fun a => a.toNat, src := [.bytes [7, 8, 9]] } 2
          = some (res, adjust, b1) ∧
        adjust = -2 ∧ res = 0 ∧ b1.end_ = 6 ∧
        (List.range 6).map (fun i => b1.mem (1 + (i : Int))) = [3, 4, 7, 8, 9, 6] := by
  refine ⟨by decide, ?_⟩
  obtain ⟨res, adjust, b1, h, hadj, _, _, _, _, _, _, _, _⟩ := aio_buffer_fill_frame
    { data := 0, size := 8, start := 1, end_ := 5, limit := 6, fd := 0, linestart := 3,
      linelimit := 5, mem := fun a => a.toNat, src := [.bytes [7, 8, 9]] } 2 (by decide)
  refine ⟨res, adjust, b1, h, ?_⟩
  have h2 : aio_buffer_fill
      { data := 0, size := 8, start := 1, end_ := 5, limit := 6, fd := 0, linestart := 3,
        linelimit := 5, mem := fun a => a.toNat, src := [.bytes [7, 8, 9]] } 2
      = some (res, adjust, b1) := h
  rw [aio_buffer_fill_eq _ 2 (by decide)] at h2
  simp only [Option.some.injEq, Prod.mk.injEq] at h2
  obtain ⟨e1, e2, e3⟩ := h2
  subst e1; subst e2; subst e3
  refine ⟨by decide, by decide, by decide, by decide⟩

/-- The loop of `aio_buffer_loadline` steps over `j` bytes that are inside the
window and are not the terminator. -/
theorem loadline_loop_skip (j : Nat) :
    ∀ (fuel : Nat) (buffer : aio_buffer) (linestart linelimit : Int),
      (∀ i : Nat, i < j → buffer.mem (linelimit + i) ≠ aio_eol) →
      linelimit + j ≤ buffer.end_ →
      loadline_loop (fuel + j) buffer linestart linelimit =
        loadline_loop fuel buffer linestart (linelimit + j) := by
  induction j with
  | zero =>
    intro fuel buffer linestart linelimit _ _
    simp
  | succ j ih =>
    intro fuel buffer linestart linelimit hne hle
    have h0 : buffer.mem linelimit ≠ aio_eol := by
      have := hne 0 (by omega)
      simpa using this
    have hlt : ¬ linelimit ≥ buffer.end_ := by push_cast at hle; omega
    have e : fuel + (j + 1) = (fuel + j) + 1 := by omega
    rw [e]
    conv_lhs => unfold loadline_loop
    rw [if_pos h0, if_neg hlt, ih fuel buffer linestart (linelimit + 1)
      (fun i hi => by
        have := hne (i + 1) (by omega)
        have e2 : linelimit + 1 + (i : Int) = linelimit + ((i + 1 : Nat) : Int) := by
          push_cast; ring
        rw [e2]; exact this)
      (by push_cast at hle ⊢; omega)]
    congr 1
    push_cast; ring

/-- The assertion fails: at the window end, with `linelimit - linestart = limit`
bytes to keep, `aio_buffer_fill` is called with `readsize = 0`. -/
theorem loadline_loop_assert (fuel : Nat) (buffer : aio_buffer) (linestart linelimit : Int)
    (h0 : buffer.mem linelimit ≠ aio_eol) (hge : linelimit ≥ buffer.end_)
    (hk : (linelimit - linestart).toNat = buffer.limit) :
    loadline_loop (fuel + 1) buffer linestart linelimit = some none := by
  conv_lhs => unfold loadline_loop
  rw [if_pos h0, if_pos hge]
  have : aio_buffer_fill buffer (linelimit - linestart).toNat = none := by
    simp [aio_buffer_fill, hk]
  rw [this]

theorem read_retry_bytes (B : List Nat) (evs : List ReadEvent) (rs : Nat) (h : rs ≤ B.length) :
    (read_retry (.bytes B :: evs) rs).1 = rs ∧ (read_retry (.bytes B :: evs) rs).2.1 = B.take rs := by
  simp only [read_retry]
  split
  · rename_i hle
    have e : B.length = rs := by omega
    exact ⟨by simp [e], by simp [← e]⟩
  · exact ⟨rfl, rfl⟩

/-- A line of `N` bytes in the window, then a read that starts with bytes the
scan takes for the rest of that line: when the window is full the loop of
`aio_buffer_loadline` calls `aio_buffer_fill` with `keep = limit` and the
assertion fails. -/
theorem loadline_merged_lines_assert (b : aio_buffer) (N : Nat) (B : List Nat)
    (evs : List ReadEvent) (hll : b.linelimit + 1 = b.start) (hend : b.end_ = b.start + N)
    (hN : N < b.limit) (hsrc : b.src = .bytes B :: evs) (hB : b.limit - N ≤ B.length)
    (hA : ∀ i : Nat, i < N → b.mem (b.start + i) ≠ aio_eol)
    (hs1 : b.mem (b.start + N) ≠ aio_eol) (hs2 : b.mem (b.start + b.limit) ≠ aio_eol)
    (hBn : ∀ i : Nat, 1 ≤ i → i < b.limit - N → B.getD i 0 ≠ aio_eol) :
    loadline_loop (loadline_bound b (b.linelimit + 1)) b (b.linelimit + 1) (b.linelimit + 1)
      = some none := by
  obtain ⟨hr1, hr2⟩ := read_retry_bytes B evs (b.limit - N) hB
  rw [← hsrc] at hr1 hr2
  have hbound : loadline_bound b (b.linelimit + 1)
      = (B.length + src_weight evs - (b.limit - N) + 2) + (b.limit - N - 1) + 1 + N := by
    simp only [loadline_bound, hll, hend, hsrc, src_weight]
    omega
  rw [hll] at hbound ⊢
  rw [hbound, loadline_loop_skip N _ b b.start b.start hA (by omega)]
  -- the refill at the end of the first read
  conv_lhs => unfold loadline_loop
  have hk : (b.start + (N : Int) - b.start).toNat = N := by omega
  rw [if_pos hs1, if_pos (by omega), hk, aio_buffer_fill_eq b N hN]
  have hne : ¬ (read_retry b.src (b.limit - N)).1 = 0 := by rw [hr1]; omega
  simp only [if_neg hne, ne_eq, not_true_eq_false, if_false]
  rw [hr1, hr2]
  have hlen : (B.take (b.limit - N)).length = b.limit - N := by
    rw [List.length_take]; omega
  -- the bytes of the second read, all but the first
  rw [loadline_loop_skip (b.limit - N - 1)]
  · apply loadline_loop_assert
    · simp only
      rw [mem_write_outside _ _ _ _ (Or.inr (by rw [hlen]; omega))]
      by_cases hN0 : N = 0
      · rw [if_neg (by simpa using hN0)]
        have e : b.start + ↑N + (b.start - (b.end_ - ↑N)) + 1 + ↑(b.limit - N - 1)
            = b.start + b.limit := by omega
        rw [e]; exact hs2
      · rw [if_pos hN0, mem_move_outside _ _ _ _ _ (Or.inr (by omega))]
        have e : b.start + ↑N + (b.start - (b.end_ - ↑N)) + 1 + ↑(b.limit - N - 1)
            = b.start + b.limit := by omega
        rw [e]; exact hs2
    · simp only
      omega
    · simp only
      omega
  · intro i hi
    simp only
    have e : b.start + ↑N + (b.start - (b.end_ - ↑N)) + 1 + (i : Int)
        = (b.start + N) + ((1 + i : Nat) : Int) := by push_cast; omega
    rw [e, mem_write_inside _ _ _ _ (by rw [hlen]; omega), List.getD_eq_getElem?_getD,
      List.getElem?_take_of_lt (by omega), ← List.getD_eq_getElem?_getD]
    exact hBn (1 + i) (by omega) (by omega)
  · simp only
    omega

/-! ## Theorems: lines merged across a refill -/

theorem aio_buffer_init_bytes (aio_pagesize : Nat) (buffer : aio_buffer) (fd : Int)
    (A : List Nat) (evs : List ReadEvent) (hA0 : 0 < A.length)
    (hA : A.length ≤
      buffer.size - (ALIGN_TO (buffer.data + 1) aio_pagesize - buffer.data).toNat) :
    aio_buffer_init aio_pagesize buffer fd (.bytes A :: evs) =
      some (0,
        { buffer with
          fd := fd, src := evs, start := ALIGN_TO (buffer.data + 1) aio_pagesize
          limit := buffer.size - (ALIGN_TO (buffer.data + 1) aio_pagesize - buffer.data).toNat
          end_ := ALIGN_TO (buffer.data + 1) aio_pagesize + A.length
          mem := mem_write
            (fun a => if a = ALIGN_TO (buffer.data + 1) aio_pagesize - 1 then aio_eol
              else buffer.mem a)
            (ALIGN_TO (buffer.data + 1) aio_pagesize) A
          linestart := ALIGN_TO (buffer.data + 1) aio_pagesize
          linelimit := ALIGN_TO (buffer.data + 1) aio_pagesize - 1 }) := by
  unfold aio_buffer_init
  simp only
  rw [aio_buffer_fill_eq _ 0 (by simp only; omega)]
  have hne : ¬ (A.length : Int) = 0 := by omega
  simp only [read_retry, Nat.sub_zero, if_pos hA, hne, if_false, ne_eq, not_true_eq_false,
    Nat.cast_zero, add_zero]

theorem getD_replicate_lt (n i a d : Nat) (h : i < n) : (List.replicate n a).getD i d = a := by
  rw [List.getD_eq_getElem?_getD, List.getElem?_replicate_of_lt h]
  rfl

/-- C29 (code defect, the one of C5): the input is the two lines `a…a` (20000
bytes) and `b…b` (19999 bytes), each shorter than the window capacity 32785,
delivered as the read `a…a` followed by the read `\nb…b\n`.  The first call of
`aio_buffer_loadline` steps over the terminator that opens the second read,
reaches the end of the full window with `keep = limit`, and the assertion
`readsize > 0` in `aio_buffer_fill` fails. -/
theorem loadline_short_lines_assertion_fails :
    ∃ b : aio_buffer,
      aio_buffer_init 4096 (aio_buffer_alloc 4096 65552 (fun _ => 0)) 0
          [.bytes (List.replicate 20000 97),
            .bytes (10 :: (List.replicate 19999 98 ++ [10]))] = some (0, b)
        ∧ b.limit = 32785 ∧ aio_buffer_loadline b = none := by
  have hstart : ALIGN_TO ((aio_buffer_alloc 4096 65552 (fun _ => 0)).data + 1) 4096 = 69632 := by
    decide
  have hlimit : (aio_buffer_alloc 4096 65552 (fun _ => 0)).size
      - (ALIGN_TO ((aio_buffer_alloc 4096 65552 (fun _ => 0)).data + 1) 4096
        - (aio_buffer_alloc 4096 65552 (fun _ => 0)).data).toNat = 32785 := by
    decide
  have hlen : (List.replicate 20000 97).length = 20000 := List.length_replicate _ _
  refine ⟨_, aio_buffer_init_bytes 4096 _ 0 (List.replicate 20000 97) _ ?_ ?_, ?_, ?_⟩
  · rw [List.length_replicate]; omega
  · rw [List.length_replicate, hlimit]; omega
  · exact hlimit
  · unfold aio_buffer_loadline
    rw [loadline_merged_lines_assert _ 20000 (10 :: (List.replicate 19999 98 ++ [10])) []]
    · rfl
    · simp only; omega
    · simp only [List.length_replicate]
    · simp only [hlimit]; omega
    · rfl
    · simp only [hlimit, List.length_cons, List.length_append, List.length_replicate,
        List.length_singleton]
      omega
    · intro i hi
      simp only [hstart]
      rw [mem_write_inside _ _ _ _ (by rw [List.length_replicate]; exact hi),
        getD_replicate_lt _ _ _ _ hi]
      decide
    · simp only [hstart]
      rw [mem_write_outside _ _ _ _ (Or.inr (by omega))]
      decide
    · simp only [hstart, hlimit]
      rw [mem_write_outside _ _ _ _ (Or.inr (by omega))]
      decide
    · intro i h1 h2
      simp only [hlimit] at h2
      obtain ⟨j, rfl⟩ : ∃ j, i = j + 1 := ⟨i - 1, by omega⟩
      rw [List.getD_cons_succ, List.getD_append _ _ _ _ (by rw [List.length_replicate]; omega),
        getD_replicate_lt _ _ _ _ (by omega)]
      decide

/-! ## Theorems: the order of the cursors -/

theorem ALIGN_TO_bounds (val : Int) (alignment : Nat) (hp : 0 < alignment) :
    val ≤ ALIGN_TO val alignment ∧ ALIGN_TO val alignment < val + alignment := by
  have h1 : 0 ≤ val % (alignment : Int) := Int.emod_nonneg _ (by omega)
  have h2 : val % (alignment : Int) < alignment := Int.emod_lt_of_pos _ (by omega)
  unfold ALIGN_TO
  split <;> omega

theorem read_retry_le (src : List ReadEvent) (readsize : Nat) :
    (read_retry src readsize).1 ≤ readsize := by
  induction src with
  | nil => simp [read_retry]
  | cons ev evs ih =>
    cases ev with
    | eintr => simpa only [read_retry] using ih
    | error => simp only [read_retry]; omega
    | bytes bs =>
      simp only [read_retry]
      split
      · simp only; omega
      · simp only; omega

/-- What `aio_buffer_fill` does to the fields other than the memory, when there
is room (`keep < limit`). -/
theorem aio_buffer_fill_fields (buffer : aio_buffer) (keep : Nat) (hk : keep < buffer.limit) :
    ∃ (res adjust : Int) (b1 : aio_buffer),
      aio_buffer_fill buffer keep = some (res, adjust, b1) ∧
      adjust = buffer.start - (buffer.end_ - keep) ∧
      b1.data = buffer.data ∧ b1.size = buffer.size ∧ b1.start = buffer.start ∧
      b1.limit = buffer.limit ∧ b1.linestart = buffer.linestart ∧
      b1.linelimit = buffer.linelimit ∧
      (b1.end_ = buffer.end_ ∨ (res = 0 ∧ b1.end_ ≤ buffer.start + buffer.limit)) := by
  rw [aio_buffer_fill_eq buffer keep hk]
  refine ⟨_, _, _, rfl, rfl, rfl, rfl, rfl, rfl, rfl, rfl, ?_⟩
  have hle := read_retry_le buffer.src (buffer.limit - keep)
  by_cases h0 : (read_retry buffer.src (buffer.limit - keep)).1 = 0
  · left
    simp only [if_pos h0]
  · right
    simp only [if_neg h0]
    exact ⟨trivial, by omega⟩

theorem aio_buffer_fill_full (buffer : aio_buffer) :
    aio_buffer_fill buffer buffer.limit = none := by
  simp [aio_buffer_fill]

/-- The loop of `aio_buffer_loadline` keeps `start ≤ linestart ≤ linelimit` and
`end ≤ data + size`, and does not change `data`, `size`, `start` or `limit`. -/
theorem loadline_loop_order :
    ∀ (fuel : Nat) (buffer : aio_buffer) (linestart linelimit res : Int) (b1 : aio_buffer),
      buffer.data < buffer.start → buffer.start + buffer.limit = buffer.data + buffer.size →
      buffer.end_ ≤ buffer.data + buffer.size →
      buffer.start ≤ linestart → linestart ≤ linelimit →
      linelimit - linestart ≤ buffer.limit →
      loadline_loop fuel buffer linestart linelimit = some (some (res, b1)) →
      buffer_ok b1 ∧ b1.start ≤ b1.linestart ∧ b1.linestart ≤ b1.linelimit ∧
        b1.data = buffer.data ∧ b1.size = buffer.size ∧ b1.start = buffer.start ∧
        b1.limit = buffer.limit := by
  intro fuel
  induction fuel with
  | zero =>
    intro buffer linestart linelimit res b1 _ _ _ _ _ _ h
    simp [loadline_loop] at h
  | succ fuel ih =>
    intro buffer linestart linelimit res b1 hd hl he hs hle hk h
    unfold loadline_loop at h
    by_cases hc : buffer.mem linelimit ≠ aio_eol
    · rw [if_pos hc] at h
      by_cases hge : linelimit ≥ buffer.end_
      · rw [if_pos hge] at h
        by_cases hfull : (linelimit - linestart).toNat = buffer.limit
        · rw [hfull, aio_buffer_fill_full] at h
          simp at h
        · obtain ⟨r, adjust, b2, hfill, hadj, h1, h2, h3, h4, _, _, h7⟩ :=
            aio_buffer_fill_fields buffer (linelimit - linestart).toNat (by omega)
          rw [hfill] at h
          simp only at h
          by_cases hr : r ≠ 0
          · rw [if_pos hr] at h
            simp only [Option.some.injEq, Prod.mk.injEq] at h
            obtain ⟨_, rfl⟩ := h
            have he2 : b2.end_ = buffer.end_ := by
              rcases h7 with h7 | ⟨h7, _⟩
              · exact h7
              · exact absurd h7 hr
            refine ⟨⟨?_, ?_, ?_, ?_, ?_⟩, ?_, ?_, h1, h2, h3, h4⟩ <;> simp only <;> omega
          · rw [if_neg hr] at h
            have he2 : b2.end_ ≤ b2.data + b2.size := by
              rcases h7 with h7 | ⟨_, h7⟩ <;> omega
            obtain ⟨g1, g2, g3, g4, g5, g6, g7⟩ := ih b2 _ _ res b1 (by omega) (by omega) he2
              (by omega) (by omega) (by omega) h
            exact ⟨g1, g2, g3, by omega, by omega, by omega, by omega⟩
      · rw [if_neg hge] at h
        exact ih buffer _ _ res b1 hd hl he hs (by omega) (by omega) h
    · rw [if_neg hc] at h
      simp only [Option.some.injEq, Prod.mk.injEq] at h
      obtain ⟨_, rfl⟩ := h
      refine ⟨⟨?_, ?_, ?_, ?_, ?_⟩, ?_, ?_, rfl, rfl, rfl, rfl⟩ <;> simp only <;> omega

/-- The loop of `aio_buffer_setlinelimit` keeps `start ≤ linestart`, ends with
`linestart < linelimit`, keeps `end ≤ data + size`, and does not change `data`,
`size`, `start` or `limit`. -/
theorem setlinelimit_loop_order :
    ∀ (fuel : Nat) (buffer : aio_buffer) (limit : Int) (b1 : aio_buffer),
      buffer.data < buffer.start → buffer.start + buffer.limit = buffer.data + buffer.size →
      buffer.end_ ≤ buffer.data + buffer.size →
      buffer.start ≤ buffer.linestart → buffer.linestart < limit →
      setlinelimit_loop fuel buffer limit = some (some b1) →
      buffer_ok b1 ∧ b1.linestart ≤ b1.linelimit ∧
        b1.data = buffer.data ∧ b1.size = buffer.size ∧ b1.start = buffer.start ∧
        b1.limit = buffer.limit := by
  intro fuel
  induction fuel with
  | zero =>
    intro buffer limit b1 _ _ _ _ _ h
    simp [setlinelimit_loop] at h
  | succ fuel ih =>
    intro buffer limit b1 hd hl he hs hlt h
    unfold setlinelimit_loop at h
    by_cases hc : buffer.mem limit ≠ aio_eol
    · rw [if_pos hc] at h
      by_cases heq : limit = buffer.end_
      · rw [if_pos heq] at h
        by_cases hfull : (limit - buffer.linestart).toNat = buffer.limit
        · rw [hfull, aio_buffer_fill_full] at h
          simp at h
        · obtain ⟨r, adjust, b2, hfill, hadj, h1, h2, h3, h4, h5, _, h7⟩ :=
            aio_buffer_fill_fields buffer (limit - buffer.linestart).toNat (by omega)
          rw [hfill] at h
          simp only at h
          by_cases hr : r ≠ 0
          · rw [if_pos hr] at h
            simp only [Option.some.injEq] at h
            subst h
            have he2 : b2.end_ = buffer.end_ := by
              rcases h7 with h7 | ⟨h7, _⟩
              · exact h7
              · exact absurd h7 hr
            refine ⟨⟨?_, ?_, ?_, ?_, ?_⟩, ?_, h1, h2, h3, h4⟩ <;> simp only <;> omega
          · rw [if_neg hr] at h
            have he2 : b2.end_ ≤ b2.data + b2.size := by
              rcases h7 with h7 | ⟨_, h7⟩ <;> omega
            obtain ⟨g1, g2, g3, g4, g5, g6⟩ := ih
              { b2 with linestart := b2.linestart + adjust } _ b1 (by simp only; omega)
              (by simp only; omega) (by simp only; omega) (by simp only; omega)
              (by simp only; omega) h
            simp only at g3 g4 g5 g6
            exact ⟨g1, g2, by omega, by omega, by omega, by omega⟩
      · rw [if_neg heq] at h
        exact ih buffer _ b1 hd hl he hs (by omega) h
    · rw [if_neg hc] at h
      simp only [Option.some.injEq] at h
      subst h
      refine ⟨⟨?_, ?_, ?_, ?_, ?_⟩, ?_, rfl, rfl, rfl, rfl⟩ <;> simp only <;> omega

/-- C30, the claim as stated fails, in three places.  Right after
`aio_buffer_init` the cursor `linelimit` is `start - 1`, one byte before
`linestart = start`.  With terminator bytes left in memory at `end` and
`end + 1`, the third `aio_buffer_loadline` call after the input `ab\n` returns
0 with `linestart = linelimit = end + 1`, past `end`.  And when the first
`read` fails, `aio_buffer_init` returns 0 with `end = start - 1`. -/
theorem buffer_order_not_kept :
    (aio_buffer_init 4096 (aio_buffer_alloc 4096 65552 (fun _ => 0)) 0
        [.bytes (bytes_of "ab\n")]).map
      (fun r => (r.1, r.2.linestart - r.2.start, r.2.linelimit - r.2.start))
        = some (0, 0, -1) ∧
    loadline_view (loadline_nth 4096 65552
        (fun a => if a = 69635 ∨ a = 69636 then 10 else 0) [.bytes (bytes_of "ab\n")] 2)
      = some (0, 4, 4, 3, [], 10) ∧
    (aio_buffer_init 4096 (aio_buffer_alloc 4096 65552 (fun _ => 0)) 0 [.error]).map
      (fun r => (r.1, r.2.end_ - r.2.start)) = some (0, -1) := by
  refine ⟨?_, ?_, ?_⟩ <;> rfl

/-- C30, amended.  A buffer is `buffer_ok` when `data < start ≤ linestart`,
`linestart ≤ linelimit + 1`, `end ≤ data + size` and
`start + limit = data + size`.  The arena of `aio_buffer_alloc` is longer than
a page; `aio_buffer_init` on such an arena returns with a `buffer_ok` buffer in
which `linestart = start` and `linelimit = start - 1`; from a `buffer_ok`
buffer, every `aio_buffer_loadline` that returns and every
`aio_buffer_setlinelimit` that returns leave a `buffer_ok` buffer with
`data ≤ start ≤ linestart ≤ linelimit` and `end ≤ data + size`, and
`aio_buffer_fill` with `keep < limit` returns with a `buffer_ok` buffer. -/
theorem buffer_order_kept (aio_pagesize : Nat) (addr fd : Int) (mem : Int → Nat)
    (src : List ReadEvent) (b0 b : aio_buffer) (keep : Nat) (hp : 0 < aio_pagesize)
    (h0 : aio_pagesize < b0.size) (hb : buffer_ok b) (hk : keep < b.limit) :
    aio_pagesize < (aio_buffer_alloc aio_pagesize addr mem).size ∧
    (∃ (res : Int) (b1 : aio_buffer),
      aio_buffer_init aio_pagesize b0 fd src = some (res, b1) ∧ buffer_ok b1 ∧
        b1.linestart = b1.start ∧ b1.linelimit = b1.start - 1) ∧
    (∀ (res : Int) (b1 : aio_buffer), aio_buffer_loadline b = some (res, b1) →
      buffer_ok b1 ∧ b1.data ≤ b1.start ∧ b1.start ≤ b1.linestart ∧
        b1.linestart ≤ b1.linelimit ∧ b1.end_ ≤ b1.data + b1.size) ∧
    (∃ (res adjust : Int) (b1 : aio_buffer),
      aio_buffer_fill b keep = some (res, adjust, b1) ∧ buffer_ok b1) ∧
    (∀ (fuel : Nat) (b1 : aio_buffer), aio_buffer_setlinelimit fuel b = some (some b1) →
      buffer_ok b1 ∧ b1.data ≤ b1.start ∧ b1.start ≤ b1.linestart ∧
        b1.linestart ≤ b1.linelimit ∧ b1.end_ ≤ b1.data + b1.size) := by
  obtain ⟨hb1, hb2, hb3, hb4, hb5⟩ := hb
  refine ⟨?_, ?_, ?_, ?_, ?_⟩
  · simp only [aio_buffer_alloc]
    omega
  · obtain ⟨ha1, ha2⟩ := ALIGN_TO_bounds (b0.data + 1) aio_pagesize hp
    unfold aio_buffer_init
    simp only
    obtain ⟨r, adjust, b2, hfill, _, h1, h2, h3, h4, h5, h6, h7⟩ := aio_buffer_fill_fields
      { b0 with
        fd := fd, src := src, start := ALIGN_TO (b0.data + 1) aio_pagesize
        limit := b0.size - (ALIGN_TO (b0.data + 1) aio_pagesize - b0.data).toNat
        end_ := ALIGN_TO (b0.data + 1) aio_pagesize
          + (b0.size - (ALIGN_TO (b0.data + 1) aio_pagesize - b0.data).toNat : Nat)
        mem := fun a => if a = ALIGN_TO (b0.data + 1) aio_pagesize - 1 then aio_eol
          else b0.mem a
        linestart := ALIGN_TO (b0.data + 1) aio_pagesize
        linelimit := ALIGN_TO (b0.data + 1) aio_pagesize - 1 } 0 (by simp only; omega)
    rw [hfill]
    simp only at h1 h2 h3 h4 h5 h6 h7
    refine ⟨r, b2, rfl, ⟨?_, ?_, ?_, ?_, ?_⟩, ?_, ?_⟩
    · omega
    · omega
    · omega
    · omega
    · rcases h7 with h7 | ⟨_, h7⟩ <;> omega
    · omega
    · omega
  · intro res b1 h
    obtain ⟨r, hr, hr2⟩ := aio_buffer_loadline_terminates b
    rw [hr2] at h
    subst h
    obtain ⟨g1, g2, g3, g4, g5, g6, g7⟩ := loadline_loop_order _ b _ _ res b1 hb1 hb2 hb5
      (by omega) (le_refl _) (by omega) hr
    obtain ⟨k1, k2, k3, k4, k5⟩ := g1
    exact ⟨⟨k1, k2, k3, k4, k5⟩, by omega, g2, g3, k5⟩
  · obtain ⟨r, adjust, b2, hfill, _, h1, h2, h3, h4, h5, h6, h7⟩ :=
      aio_buffer_fill_fields b keep hk
    refine ⟨r, adjust, b2, hfill, ?_, ?_, ?_, ?_, ?_⟩
    · omega
    · omega
    · omega
    · omega
    · rcases h7 with h7 | ⟨_, h7⟩ <;> omega
  · intro fuel b1 h
    obtain ⟨g1, g2, _, _, _, _⟩ := setlinelimit_loop_order fuel b _ b1 hb1 hb2 hb5 hb3
      (by omega) h
    obtain ⟨k1, k2, k3, k4, k5⟩ := g1
    exact ⟨⟨k1, k2, k3, k4, k5⟩, by omega, k3, g2, k5⟩

theorem buffer_order_kept_witness :
    0 < 4096 ∧ 4096 < (aio_buffer_alloc 4096 65552 (fun _ => 0)).size ∧
      buffer_ok
        { data := 0, size := 8, start := 1, end_ := 4, limit := 7, fd := 0,
          linestart := 1, linelimit := 0, mem := fun a => if a = 3 then 10 else 97, src := [] } ∧
      2 < 7 ∧
      ∃ (r1 r2 : Int) (b1 b2 b3 : aio_buffer),
        aio_buffer_init 4096 (aio_buffer_alloc 4096 65552 (fun _ => 0)) 0
          [.bytes (bytes_of "ab\n")] = some (r1, b1) ∧ buffer_ok b1 ∧
        aio_buffer_loadline
            { data := 0, size := 8, start := 1, end_ := 4, limit := 7, fd := 0,
              linestart := 1, linelimit := 0, mem := fun a => if a = 3 then 10 else 97,
              src := [] }
          = some (r2, b2) ∧
        b2.start ≤ b2.linestart ∧ b2.linestart ≤ b2.linelimit ∧
        b2.linelimit - b2.linestart = 2 ∧
        aio_buffer_setlinelimit 5
            { data := 0, size := 8, start := 1, end_ := 4, limit := 7, fd := 0,
              linestart := 1, linelimit := 0, mem := fun a => if a = 3 then 10 else 97,
              src := [] }
          = some (some b3) ∧
        b3.start ≤ b3.linestart ∧ b3.linestart ≤ b3.linelimit ∧ b3.linelimit = 3 := by
  have hsz : 4096 < (aio_buffer_alloc 4096 65552 (fun _ => 0)).size := by decide
  have hok : buffer_ok
      { data := 0, size := 8, start := 1, end_ := 4, limit := 7, fd := 0,
        linestart := 1, linelimit := 0, mem := fun a => if a = 3 then 10 else 97, src := [] } := by
    decide
  obtain ⟨_, ⟨r1, b1, hi, hi2, _, _⟩, hl, _, hs⟩ := buffer_order_kept 4096 65552 0
    (fun _ => 0) [.bytes (bytes_of "ab\n")] (aio_buffer_alloc 4096 65552 (fun _ => 0))
    { data := 0, size := 8, start := 1, end_ := 4, limit := 7, fd := 0,
      linestart := 1, linelimit := 0, mem := fun a => if a = 3 then 10 else 97, src := [] }
    2 (by decide) hsz hok (by decide)
  refine ⟨by decide, hsz, hok, by decide, r1, 0, b1,
    { data := 0, size := 8, start := 1, end_ := 4, limit := 7, fd := 0,
      linestart := 1, linelimit := 3, mem := fun a => if a = 3 then 10 else 97, src := [] },
    { data := 0, size := 8, start := 1, end_ := 4, limit := 7, fd := 0,
      linestart := 1, linelimit := 3, mem := fun a => if a = 3 then 10 else 97, src := [] },
    hi, hi2, rfl, ?_⟩
  obtain ⟨_, _, g3, g4, _⟩ := hl 0 _ rfl
  obtain ⟨_, _, s3, s4, _⟩ := hs 5 _ rfl
  exact ⟨g3, g4, by decide, rfl, s3, s4, rfl⟩

/-! ## Theorems: insertion keeps addresses, the paths of the dumped blocks -/

/-- An insertion leaves every address that was found in the node found. -/
theorem node_search_insert_mono (node : IPNode) :
    ∀ (ip x : Nat) (bit end_ : Int), node_search node x bit = 1 →
      node_search (node_insert node ip bit end_) x bit = 1 := by
  induction node with
  | ZERO =>
    intro ip x bit end_ h
    simp [node_search] at h
  | FULL =>
    intro ip x bit end_ _
    rw [node_insert_FULL]
    rfl
  | Branch c0 c1 ih0 ih1 =>
    intro ip x bit end_ h
    by_cases hs : bit ≤ end_
    · rw [node_insert_stop _ _ _ _ hs]
      rfl
    · rw [node_insert_Branch_rec c0 c1 ip bit end_ (by omega)]
      simp only [node_search] at h
      split
      · rw [node_search_collapse]
        simp only [node_search]
        split
        · rename_i hx
          rw [if_pos hx] at h
          exact ih0 ip x (bit - 1) end_ h
        · rename_i hx
          rw [if_neg hx] at h
          exact h
      · rw [node_search_collapse]
        simp only [node_search]
        split
        · rename_i hx
          rw [if_pos hx] at h
          exact h
        · rename_i hx
          rw [if_neg hx] at h
          exact ih1 ip x (bit - 1) end_ h

/-- C33: for every tree, every address `x` with `findip tree x = 1` and every
`addip` call, accepted or rejected, `findip` on the tree after the call is
still 1 for `x`. -/
theorem addip_keeps_found (tree : IPTree) (ip x : Nat) (block : Int)
    (h : findip tree x = 1) : findip (addip tree ip block).2 x = 1 := by
  by_cases hr : (addip tree ip block).1 = 0
  · rw [addip_snd_of_eq tree ip block hr]
    exact node_search_insert_mono tree.root ip x 31 (31 - block) h
  · rw [addip_snd_of_ne tree ip block hr]
    exact h

theorem addip_keeps_found_witness :
    findip (addip_seq makeiptree [(167772160, 8)]).1 167772161 = 1 ∧
      findip (addip (addip_seq makeiptree [(167772160, 8)]).1 3232235520 16).2 167772161 = 1 ∧
      findip (addip (addip_seq makeiptree [(167772160, 8)]).1 3232235521 16).2 167772161 = 1 :=
  ⟨by decide,
    addip_keeps_found (addip_seq makeiptree [(167772160, 8)]).1 3232235520 167772161 16
      (by decide),
    addip_keeps_found (addip_seq makeiptree [(167772160, 8)]).1 3232235521 167772161 16
      (by decide)⟩

/-- What `dumpnode` emits, leaf by leaf: for a node of height at most `n` that
stands for the range `[acc, acc + 2 ^ n)`, the `FULL` leaf reached by the path
`p` is emitted with the address `acc` plus the bits of the path and with the
prefix `32 - n` plus the length of the path. -/
theorem dumpnode_paths (node : IPNode) :
    ∀ (n acc : Nat), height node ≤ n → n ≤ 32 → acc % 2 ^ n = 0 →
      dumpnode node acc ((n : Int) - 1) =
        (full_paths node).map (fun p => (acc + path_bits p n, (32 : Int) - n + p.length)) := by
  induction node with
  | ZERO => intro n acc _ _ _; rfl
  | FULL =>
    intro n acc _ _ _
    simp only [dumpnode, full_paths, List.map_cons, List.map_nil, path_bits, List.length_nil,
      Nat.add_zero]
    congr 2
    push_cast
    omega
  | Branch c0 c1 ih0 ih1 =>
    intro n acc hh hn hacc
    simp only [height] at hh
    obtain ⟨m, rfl⟩ : ∃ m, n = m + 1 := ⟨n - 1, by omega⟩
    have e1 : ((m + 1 : Nat) : Int) - 1 = (m : Int) := by push_cast; ring
    have e2 : (m : Int).toNat = m := Int.toNat_natCast m
    obtain ⟨hm0, hm1⟩ := mod_half_eq_zero acc m hacc
    rw [e1]
    simp only [dumpnode, e2, full_paths, List.map_append, List.map_map]
    rw [or_bit_eq_add acc m (by omega) hacc, ih0 m acc (by omega) (by omega) hm0,
      ih1 m (acc + 2 ^ m) (by omega) (by omega) hm1]
    congr 1
    · apply List.map_congr_left
      intro p _
      simp only [Function.comp, path_bits, Nat.add_sub_cancel, Bool.false_eq_true, if_false,
        Nat.zero_add, List.length_cons, Prod.mk.injEq, true_and]
      push_cast
      omega
    · apply List.map_congr_left
      intro p _
      simp only [Function.comp, path_bits, Nat.add_sub_cancel, if_true, List.length_cons,
        Prod.mk.injEq]
      constructor
      · omega
      · push_cast
        omega

/-- C31 as stated fails: after `addip` of `10.0.0.0/8` the one `FULL` leaf is
reached at depth 8, by the path `00001010`, and `dumptree` emits it with the
prefix 8, the depth, not `32 - 8 = 24`. -/
theorem dumptree_prefix_not_32_minus_depth :
    dumpnode (addip makeiptree 167772160 8).2.root 0 31 = [(167772160, 8)] ∧
      full_paths (addip makeiptree 167772160 8).2.root
        = [[false, false, false, false, true, false, true, false]] ∧
      dumptree (addip makeiptree 167772160 8).2 = [bytes_of "10.0.0.0/8\n"] ∧
      ((32 : Int) - 8 ≠ 8) := by
  decide

/-- C31, amended: in every tree obtained from `makeiptree ()` by `addip` calls
with 32-bit addresses and `block` in `0 .. 32`, `dumptree` emits one block for
each `FULL` leaf, in the order of the leaves; for the leaf reached at depth `d`
(the number of child links followed from the root) the prefix is `d`, and the
address has the bits of the path from the root, the most significant bit first,
and zero in all other bits. -/
theorem dumptree_paths (calls : List (Nat × Int))
    (hc : ∀ c ∈ calls, c.1 < 2 ^ 32 ∧ 0 ≤ c.2 ∧ c.2 ≤ 32) :
    dumpnode (addip_seq makeiptree calls).1.root 0 31
        = (full_paths (addip_seq makeiptree calls).1.root).map
          (fun p => (path_bits p 32, (p.length : Int))) ∧
      dumptree (addip_seq makeiptree calls).1
        = (full_paths (addip_seq makeiptree calls).1.root).map
          (fun p => dumpip (path_bits p 32) (p.length : Int)) := by
  have hh := height_addip_seq calls makeiptree (fun c h => (hc c h).2.2) (by decide)
  have h := dumpnode_paths (addip_seq makeiptree calls).1.root 32 0 hh (le_refl _) (by decide)
  have e : ((32 : Nat) : Int) - 1 = 31 := by decide
  rw [e] at h
  have h2 : dumpnode (addip_seq makeiptree calls).1.root 0 31
      = (full_paths (addip_seq makeiptree calls).1.root).map
        (fun p => (path_bits p 32, (p.length : Int))) := by
    rw [h]
    apply List.map_congr_left
    intro p _
    simp
  refine ⟨h2, ?_⟩
  rw [dumptree, h2, List.map_map]
  rfl

theorem dumptree_paths_witness :
    (∀ c ∈ [((167772160 : Nat), (8 : Int)), (3232235776, 24)],
        c.1 < 2 ^ 32 ∧ 0 ≤ c.2 ∧ c.2 ≤ 32) ∧
      dumpnode (addip_seq makeiptree [(167772160, 8), (3232235776, 24)]).1.root 0 31
        = (full_paths (addip_seq makeiptree [(167772160, 8), (3232235776, 24)]).1.root).map
          (fun p => (path_bits p 32, (p.length : Int))) ∧
      (full_paths (addip_seq makeiptree [(167772160, 8), (3232235776, 24)]).1.root).map
          (fun p => (path_bits p 32, (p.length : Int)))
        = [(167772160, 8), (3232235776, 24)] :=
  ⟨by decide,
    (dumptree_paths [(167772160, 8), (3232235776, 24)] (by decide)).1,
    by decide⟩

/-! ## Theorems: the tree is a canonical form -/

theorem no_full_pair_of_mixed (node : IPNode) (h : mixed node = true) :
    no_full_pair node = true := by
  induction node with
  | ZERO => rfl
  | FULL => rfl
  | Branch c0 c1 ih0 ih1 =>
    simp only [mixed, Bool.and_eq_true, Bool.or_eq_true] at h
    obtain ⟨⟨⟨_, hz⟩, m0⟩, m1⟩ := h
    simp only [no_full_pair, ih0 m0, ih1 m1, Bool.and_true, Bool.not_eq_true',
      Bool.and_eq_false_imp, decide_eq_true_eq, decide_eq_false_iff_not]
    intro e0 e1
    subst e0; subst e1
    simp [has_zero] at hz

/-- A node with a `FULL` leaf beneath it holds an address of its range. -/
theorem exists_found (node : IPNode) :
    ∀ (n acc : Nat), height node ≤ n → has_full node = true → acc % 2 ^ n = 0 →
      ∃ x : Nat, acc ≤ x ∧ x < acc + 2 ^ n ∧ node_search node x ((n : Int) - 1) = 1 := by
  induction node with
  | ZERO =>
    intro n acc _ h _
    simp [has_full] at h
  | FULL =>
    intro n acc _ _ _
    exact ⟨acc, le_refl _, by have : 0 < 2 ^ n := by positivity
                              omega, rfl⟩
  | Branch c0 c1 ih0 ih1 =>
    intro n acc hh hf hacc
    simp only [height] at hh
    obtain ⟨m, rfl⟩ : ∃ m, n = m + 1 := ⟨n - 1, by omega⟩
    have e1 : ((m + 1 : Nat) : Int) - 1 = (m : Int) := by push_cast; ring
    have e2 : (m : Int).toNat = m := Int.toNat_natCast m
    have hpow : (2 : Nat) ^ (m + 1) = 2 ^ m * 2 := pow_succ 2 m
    obtain ⟨hm0, hm1⟩ := mod_half_eq_zero acc m hacc
    simp only [has_full, Bool.or_eq_true] at hf
    rw [e1]
    simp only [node_search, e2]
    rcases hf with hf | hf
    · obtain ⟨x, hx1, hx2, hx3⟩ := ih0 m acc (by omega) hf hm0
      refine ⟨x, hx1, by omega, ?_⟩
      have hbit := bit_zero_iff_lower_half acc x m hacc hx1 (by omega)
      rw [if_pos (hbit.2 hx2)]
      exact hx3
    · obtain ⟨x, hx1, hx2, hx3⟩ := ih1 m (acc + 2 ^ m) (by omega) hf hm1
      refine ⟨x, by omega, by omega, ?_⟩
      have hbit := bit_zero_iff_lower_half acc x m hacc (by omega) (by omega)
      rw [if_neg (fun h => absurd (hbit.1 h) (by omega))]
      exact hx3

/-- The tree is a canonical form of the address set: two nodes for the same
range in which every allocated node has a `FULL` and a `ZERO` leaf beneath it
are equal when they hold the same addresses. -/
theorem node_eq_of_search_eq (a : IPNode) :
    ∀ (b : IPNode) (n acc : Nat), height a ≤ n → height b ≤ n → mixed a = true →
      mixed b = true → acc % 2 ^ n = 0 →
      (∀ x : Nat, acc ≤ x → x < acc + 2 ^ n →
        node_search a x ((n : Int) - 1) = node_search b x ((n : Int) - 1)) →
      a = b := by
  induction a with
  | ZERO =>
    intro b n acc _ hb _ mb hacc h
    cases b with
    | ZERO => rfl
    | FULL =>
      have := h acc (le_refl _) (by have : 0 < 2 ^ n := by positivity
                                    omega)
      simp [node_search] at this
    | Branch c0 c1 =>
      have hf : has_full (.Branch c0 c1) = true := by
        simp only [mixed, Bool.and_eq_true] at mb
        exact mb.1.1.1
      obtain ⟨x, hx1, hx2, hx3⟩ := exists_found _ n acc hb hf hacc
      have := h x hx1 hx2
      rw [hx3] at this
      simp [node_search] at this
  | FULL =>
    intro b n acc _ hb _ mb hacc h
    cases b with
    | FULL => rfl
    | ZERO =>
      have := h acc (le_refl _) (by have : 0 < 2 ^ n := by positivity
                                    omega)
      simp [node_search] at this
    | Branch c0 c1 =>
      obtain ⟨x, hx1, hx2, hx3⟩ := exists_not_found _ n acc hb (no_full_pair_of_mixed _ mb)
        (by simp) hacc
      have := h x hx1 hx2
      rw [hx3] at this
      simp [node_search] at this
  | Branch a0 a1 ih0 ih1 =>
    intro b n acc ha hb ma mb hacc h
    cases b with
    | ZERO =>
      have hf : has_full (.Branch a0 a1) = true := by
        simp only [mixed, Bool.and_eq_true] at ma
        exact ma.1.1.1
      obtain ⟨x, hx1, hx2, hx3⟩ := exists_found _ n acc ha hf hacc
      have := h x hx1 hx2
      rw [hx3] at this
      simp [node_search] at this
    | FULL =>
      obtain ⟨x, hx1, hx2, hx3⟩ := exists_not_found _ n acc ha (no_full_pair_of_mixed _ ma)
        (by simp) hacc
      have := h x hx1 hx2
      rw [hx3] at this
      simp [node_search] at this
    | Branch b0 b1 =>
      simp only [height] at ha hb
      obtain ⟨m, rfl⟩ : ∃ m, n = m + 1 := ⟨n - 1, by omega⟩
      have e1 : ((m + 1 : Nat) : Int) - 1 = (m : Int) := by push_cast; ring
      have e2 : (m : Int).toNat = m := Int.toNat_natCast m
      have hpow : (2 : Nat) ^ (m + 1) = 2 ^ m * 2 := pow_succ 2 m
      obtain ⟨hm0, hm1⟩ := mod_half_eq_zero acc m hacc
      simp only [mixed, Bool.and_eq_true] at ma mb
      rw [e1] at h
      simp only [node_search, e2] at h
      have h0 : a0 = b0 := by
        apply ih0 b0 m acc (by omega) (by omega) ma.1.2 mb.1.2 hm0
        intro x hx1 hx2
        have hbit := bit_zero_iff_lower_half acc x m hacc hx1 (by omega)
        have := h x hx1 (by omega)
        rw [if_pos (hbit.2 hx2), if_pos (hbit.2 hx2)] at this
        exact this
      have h1 : a1 = b1 := by
        apply ih1 b1 m (acc + 2 ^ m) (by omega) (by omega) ma.2 mb.2 hm1
        intro x hx1 hx2
        have hbit := bit_zero_iff_lower_half acc x m hacc (by omega) (by omega)
        have := h x (by omega) (by omega)
        rw [if_neg (fun h => absurd (hbit.1 h) (by omega)),
          if_neg (fun h => absurd (hbit.1 h) (by omega))] at this
        exact this
      rw [h0, h1]

/-- Two trees of height at most 32 in canonical form that hold the same
addresses are equal. -/
theorem tree_eq_of_findip_eq (t1 t2 : IPTree) (h1 : height t1.root ≤ 32)
    (h2 : height t2.root ≤ 32) (m1 : mixed t1.root = true) (m2 : mixed t2.root = true)
    (h : ∀ x : Nat, x < 2 ^ 32 → (findip t1 x = 1 ↔ findip t2 x = 1)) : t1 = t2 := by
  have e : t1.root = t2.root := by
    apply node_eq_of_search_eq t1.root t2.root 32 0 h1 h2 m1 m2 (by decide)
    intro x _ hx
    have e31 : ((32 : Nat) : Int) - 1 = 31 := by decide
    rw [e31]
    have hi := h x (by omega)
    simp only [findip] at hi
    rcases node_search_zero_or_one t1.root x 31 with a | a <;>
      rcases node_search_zero_or_one t2.root x 31 with b | b
    · rw [a, b]
    · have := hi.2 b
      omega
    · have := hi.1 a
      omega
    · rw [a, b]
  cases t1
  cases t2
  simp only at e
  rw [e]

theorem mixed_addip (tree : IPTree) (ip : Nat) (block : Int) (h : mixed tree.root = true) :
    mixed (addip tree ip block).2.root = true := by
  by_cases hr : (addip tree ip block).1 = 0
  · rw [addip_snd_of_eq tree ip block hr]
    exact mixed_node_insert _ _ _ _ _ (le_refl _) h
  · rw [addip_snd_of_ne tree ip block hr]
    exact h

/-- The addresses found after an accepted `addip` call: those found before and
those of the block. -/
theorem findip_addip_iff (tree : IPTree) (ip x : Nat) (block : Int)
    (hb : cidr_block (ip, block)) (hx : x < 2 ^ 32) :
    findip (addip tree ip block).2 x = 1 ↔ (findip tree x = 1 ∨ block_mem x (ip, block)) := by
  obtain ⟨hip, h0, h32, hz⟩ := hb
  simp only at hip h0 h32 hz
  constructor
  · intro h
    have hz0 : block = 0 → ip = 0 := by
      intro hb0
      subst hb0
      have e : ((32 : Int) - 0).toNat = 32 := by decide
      rw [e] at hz
      omega
    rcases findip_addip_inv tree ip x block hip hx h0 h32 hz0 h with h1 | ⟨_, h2, h3⟩
    · exact Or.inl h1
    · exact Or.inr ⟨h2, h3⟩
  · intro h
    rcases h with h | ⟨h1, h2⟩
    · by_cases hr : (addip tree ip block).1 = 0
      · rw [addip_snd_of_eq tree ip block hr]
        exact node_search_insert_mono tree.root ip x 31 (31 - block) h
      · rw [addip_snd_of_ne tree ip block hr]
        exact h
    · simp only at h1 h2
      rw [addip_of_valid tree ip block hip h0 h32 hz]
      simp only [findip]
      apply node_search_insert block.toNat tree.root ip x 31 (31 - block) (by omega) (by omega)
      have e : (31 - block + 1).toNat = (32 - block).toNat := by congr 1; omega
      rw [e]
      exact div_eq_of_in_block x ip _ hz h1 h2

/-- The addresses found after a sequence of `addip` calls with CIDR blocks:
those found before and those of the blocks; all the calls return 0. -/
theorem findip_addip_seq_iff (calls : List (Nat × Int)) :
    ∀ (tree : IPTree), (∀ c ∈ calls, cidr_block c) →
      (addip_seq tree calls).2 = calls ∧
      ∀ x : Nat, x < 2 ^ 32 →
        (findip (addip_seq tree calls).1 x = 1 ↔
          (findip tree x = 1 ∨ ∃ c ∈ calls, block_mem x c)) := by
  induction calls with
  | nil =>
    intro tree _
    exact ⟨rfl, fun x _ => by simp [addip_seq]⟩
  | cons c calls ih =>
    intro tree hc
    obtain ⟨ip, block⟩ := c
    have hb : cidr_block (ip, block) := hc _ (List.mem_cons_self _ _)
    obtain ⟨i1, i2⟩ := ih (addip tree ip block).2 (fun c hm => hc c (List.mem_cons_of_mem _ hm))
    have hr : (addip tree ip block).1 = 0 := by
      rw [addip_of_valid tree ip block hb.1 hb.2.1 hb.2.2.1 hb.2.2.2]
    simp only [addip_seq, hr, if_true]
    refine ⟨by rw [i1], ?_⟩
    intro x hx
    rw [i2 x hx, findip_addip_iff tree ip x block hb hx]
    simp only [List.mem_cons, exists_eq_or_imp, or_assoc]

/-- C32: for every tree obtained from `makeiptree ()` by `addip` calls with
32-bit addresses and `block` in `0 .. 32`, and all CIDR blocks `A` and `B`
(32-bit address, prefix in `0 .. 32`, host bits zero), inserting `A` then `B`
gives the same tree as inserting `B` then `A`. -/
theorem addip_order_independent (calls : List (Nat × Int))
    (hc : ∀ c ∈ calls, c.1 < 2 ^ 32 ∧ 0 ≤ c.2 ∧ c.2 ≤ 32) (A B : Nat × Int)
    (hA : cidr_block A) (hB : cidr_block B) :
    (addip (addip (addip_seq makeiptree calls).1 A.1 A.2).2 B.1 B.2).2
      = (addip (addip (addip_seq makeiptree calls).1 B.1 B.2).2 A.1 A.2).2 := by
  have hh := height_addip_seq calls makeiptree (fun c h => (hc c h).2.2) (by decide)
  have hm := mixed_addip_seq calls makeiptree rfl
  apply tree_eq_of_findip_eq
  · exact height_addip _ _ _ hB.2.2.1 (height_addip _ _ _ hA.2.2.1 hh)
  · exact height_addip _ _ _ hA.2.2.1 (height_addip _ _ _ hB.2.2.1 hh)
  · exact mixed_addip _ _ _ (mixed_addip _ _ _ hm)
  · exact mixed_addip _ _ _ (mixed_addip _ _ _ hm)
  · intro x hx
    rw [findip_addip_iff _ B.1 x B.2 hB hx, findip_addip_iff _ A.1 x A.2 hA hx,
      findip_addip_iff _ A.1 x A.2 hA hx, findip_addip_iff _ B.1 x B.2 hB hx]
    tauto

theorem addip_order_independent_witness :
    (∀ c ∈ [((167772160 : Nat), (9 : Int))], c.1 < 2 ^ 32 ∧ 0 ≤ c.2 ∧ c.2 ≤ 32) ∧
      cidr_block (3232235520, 16) ∧ cidr_block (176160768, 9) ∧
      (addip (addip (addip_seq makeiptree [(167772160, 9)]).1 3232235520 16).2 176160768 9).2
        = (addip (addip (addip_seq makeiptree [(167772160, 9)]).1 176160768 9).2
            3232235520 16).2 ∧
      dumpnode (addip (addip (addip_seq makeiptree [(167772160, 9)]).1 3232235520 16).2
          176160768 9).2.root 0 31
        = [(167772160, 8), (3232235520, 16)] :=
  ⟨by decide, ⟨by decide, by decide, by decide, by decide⟩,
    ⟨by decide, by decide, by decide, by decide⟩,
    addip_order_independent [(167772160, 9)] (by decide) (3232235520, 16) (176160768, 9)
      ⟨by decide, by decide, by decide, by decide⟩ ⟨by decide, by decide, by decide, by decide⟩,
    by decide⟩

/-- C34: for every tree `t` obtained from `makeiptree ()` by `addip` calls with
32-bit addresses and `block` in `0 .. 32`, every block that `dumptree` emits
for `t` is accepted by `addip` on any tree (it is a CIDR block: prefix in
`0 .. 32`, host bits zero), and the `addip` calls for the emitted blocks, in
order, on a fresh `makeiptree ()` all return 0 and give a tree equal to `t`. -/
theorem dump_reload (calls : List (Nat × Int))
    (hc : ∀ c ∈ calls, c.1 < 2 ^ 32 ∧ 0 ≤ c.2 ∧ c.2 ≤ 32) :
    (∀ d ∈ dumpnode (addip_seq makeiptree calls).1.root 0 31,
      cidr_block d ∧ ∀ tree : IPTree, (addip tree d.1 d.2).1 = 0) ∧
    (addip_seq makeiptree (dumpnode (addip_seq makeiptree calls).1.root 0 31)).2
      = dumpnode (addip_seq makeiptree calls).1.root 0 31 ∧
    (addip_seq makeiptree (dumpnode (addip_seq makeiptree calls).1.root 0 31)).1
      = (addip_seq makeiptree calls).1 := by
  have hh := height_addip_seq calls makeiptree (fun c h => (hc c h).2.2) (by decide)
  have hm := mixed_addip_seq calls makeiptree rfl
  obtain ⟨hd1, _, hd3⟩ := dumpnode_root_spec (addip_seq makeiptree calls).1.root hh
  obtain ⟨s1, s2⟩ := findip_addip_seq_iff
    (dumpnode (addip_seq makeiptree calls).1.root 0 31) makeiptree hd1
  refine ⟨?_, s1, ?_⟩
  · intro d hd
    have hb := hd1 d hd
    refine ⟨hb, fun tree => ?_⟩
    rw [addip_of_valid tree d.1 d.2 hb.1 hb.2.1 hb.2.2.1 hb.2.2.2]
  · apply tree_eq_of_findip_eq
    · exact height_addip_seq _ makeiptree (fun c hcm => (hd1 c hcm).2.2.1) (by decide)
    · exact hh
    · exact mixed_addip_seq _ makeiptree rfl
    · exact hm
    · intro x hx
      rw [s2 x hx]
      simp only [findip] at hd3 ⊢
      rw [hd3 x hx]
      simp [makeiptree, node_search]

theorem dump_reload_witness :
    (∀ c ∈ [((167772160 : Nat), (9 : Int)), (167804928, 17), (167772160, 8), (1, 2)],
        c.1 < 2 ^ 32 ∧ 0 ≤ c.2 ∧ c.2 ≤ 32) ∧
      dumpnode
          (addip_seq makeiptree [(167772160, 9), (167804928, 17), (167772160, 8), (1, 2)]).1.root
          0 31 = [(167772160, 8)] ∧
      (addip_seq makeiptree (dumpnode
          (addip_seq makeiptree [(167772160, 9), (167804928, 17), (167772160, 8), (1, 2)]).1.root
          0 31)).1
        = (addip_seq makeiptree [(167772160, 9), (167804928, 17), (167772160, 8), (1, 2)]).1 :=
  ⟨by decide, by decide,
    (dump_reload [(167772160, 9), (167804928, 17), (167772160, 8), (1, 2)] (by decide)).2.2⟩

/-! ## Theorems: a dumped line read back -/

/-- The `%u` conversion of a value below 256 is a decimal octet with that
value. -/
theorem fmt_u_octet (v : Nat) (hv : v < 256) : is_octet (fmt_u v) ∧ decval (fmt_u v) = v := by
  interval_cases v <;> exact ⟨⟨by decide, by decide, by decide⟩, by decide⟩

/-- From the label `ipbyte4`, the text `/n` and a newline that `dumpip` prints
for a prefix `n` in `0 .. 32` give one candidate, with prefix `n`. -/
theorem detectip_run_prefix_text (n : Nat) (hn : n ≤ 32) (ip ipbyte : Nat) :
    detectip_run (47 :: (fmt_d (n : Int) ++ [10])) .ipbyte4 ip ipbyte 32
      = [(((ip * 0x100) % 2 ^ 32 + ipbyte) % 2 ^ 32, (n : Int))] := by
  interval_cases n <;> rfl

/-- C35: for every 32-bit `ip` and every prefix `n` in `0 .. 32`,
`detectip_str` over the line `a.b.c.d/n` and newline that `dumpip` prints for
`(ip, n)` yields exactly one candidate, `(ip, n)`. -/
theorem detectip_str_dumpip (ip : Nat) (n : Int) (hip : ip < 2 ^ 32) (h0 : 0 ≤ n)
    (h32 : n ≤ 32) : detectip_str (dumpip ip n) = [(ip, n)] := by
  obtain ⟨k, rfl⟩ : ∃ k : Nat, n = (k : Int) := ⟨n.toNat, by omega⟩
  have e255 : (0xff : Nat) = 2 ^ 8 - 1 := by decide
  have ha : ip >>> 24 < 256 := by rw [Nat.shiftRight_eq_div_pow]; omega
  have hb : (ip >>> 16) &&& 0xff < 256 := by
    rw [e255, Nat.and_pow_two_sub_one_eq_mod]; omega
  have hc : (ip >>> 8) &&& 0xff < 256 := by
    rw [e255, Nat.and_pow_two_sub_one_eq_mod]; omega
  have hd : ip &&& 0xff < 256 := by
    rw [e255, Nat.and_pow_two_sub_one_eq_mod]; omega
  obtain ⟨oa, va⟩ := fmt_u_octet _ ha
  obtain ⟨ob, vb⟩ := fmt_u_octet _ hb
  obtain ⟨oc, vc⟩ := fmt_u_octet _ hc
  obtain ⟨od, vd⟩ := fmt_u_octet _ hd
  have htext : dumpip ip (k : Int)
      = quad_text (fmt_u (ip >>> 24)) (fmt_u ((ip >>> 16) &&& 0xff))
          (fmt_u ((ip >>> 8) &&& 0xff)) (fmt_u (ip &&& 0xff))
        ++ 47 :: (fmt_d (k : Int) ++ [10]) := by
    simp only [dumpip, quad_text, List.append_assoc, List.cons_append, List.nil_append]
  rw [detectip_str, htext, detectip_run_quad _ _ _ _ _ oa ob oc od,
    detectip_run_prefix_text k (by omega), quad_ip_eq _ _ _ _ oa ob oc od]
  simp only [quad_ip, va, vb, vc, vd]
  congr 2
  rw [e255, Nat.and_pow_two_sub_one_eq_mod, Nat.and_pow_two_sub_one_eq_mod,
    Nat.and_pow_two_sub_one_eq_mod, Nat.shiftRight_eq_div_pow, Nat.shiftRight_eq_div_pow,
    Nat.shiftRight_eq_div_pow]
  omega

theorem detectip_str_dumpip_witness :
    (3232235776 : Nat) < 2 ^ 32 ∧ (0 : Int) ≤ 24 ∧ (24 : Int) ≤ 32 ∧
      dumpip 3232235776 24 = bytes_of "192.168.1.0/24\n" ∧
      detectip_str (dumpip 3232235776 24) = [(3232235776, 24)] :=
  ⟨by decide, by decide, by decide, by decide,
    detectip_str_dumpip 3232235776 24 (by decide) (by decide) (by decide)⟩

/-! ## Theorems: the scratch arrays, octets modulo 256 -/

/-- When more candidates are found than the arrays hold, the candidate with
index `detectip_max` is stored without growth: the test is
`count > detectip_max`. -/
theorem found_stores_at_capacity (cands : List (Nat × Int)) :
    ∀ (count detectip_max : Nat), count ≤ detectip_max →
      detectip_max < count + cands.length →
      (detectip_max, detectip_max) ∈ found_stores cands count detectip_max := by
  induction cands with
  | nil =>
    intro count detectip_max h1 h2
    simp only [List.length_nil] at h2
    omega
  | cons c cands ih =>
    intro count detectip_max h1 h2
    simp only [List.length_cons] at h2
    have hng : ¬ count > detectip_max := by omega
    simp only [found_stores, if_neg hng, List.mem_cons, Prod.mk.injEq]
    by_cases he : count = detectip_max
    · left
      exact ⟨he.symm, trivial⟩
    · right
      exact ih (count + 1) detectip_max (by omega) (by omega)

/-- C36, the code at the failing input: a line with five addresses, scanned with
the initial capacity `IPS_PER_LINE = 4`.  The fifth candidate is stored at
index 4 while the capacity is still 4, since the growth test is
`count > detectip_max`; growth to 8 comes with the sixth candidate. -/
theorem detectip_store_at_capacity :
    detectip_str (bytes_of "1.1.1.1 2.2.2.2 3.3.3.3 4.4.4.4 5.5.5.5\n")
        = [(16843009, 32), (33686018, 32), (50529027, 32), (67372036, 32), (84215045, 32)] ∧
      detectip_stores (bytes_of "1.1.1.1 2.2.2.2 3.3.3.3 4.4.4.4 5.5.5.5\n") IPS_PER_LINE
        = [(0, 4), (1, 4), (2, 4), (3, 4), (4, 4)] ∧
      detectip_stores (bytes_of "1.1.1.1 2.2.2.2 3.3.3.3 4.4.4.4 5.5.5.5 6.6.6.6\n")
          IPS_PER_LINE
        = [(0, 4), (1, 4), (2, 4), (3, 4), (4, 4), (5, 8)] := by
  decide

theorem digit_run_cons (ds : List Nat) (h : digit_run ds) :
    ∃ d0 tl, ds = d0 :: tl ∧ isdigit d0 = true ∧ (∀ b ∈ tl, isdigit b = true) ∧
      tl.foldl (fun a b => a * 10 + (b - 48)) (d0 - 48) = decval ds := by
  obtain ⟨hne, hd⟩ := h
  cases ds with
  | nil => exact absurd rfl hne
  | cons d0 tl =>
    refine ⟨d0, tl, rfl, hd d0 (List.mem_cons_self _ _),
      fun b hb => hd b (List.mem_cons_of_mem _ hb), ?_⟩
    simp [decval]

/-- A digit run read from the label `scan`: `ipbyte` ends as its decimal value
modulo 256. -/
theorem detectip_run_run1 (da rest : List Nat) (ha : digit_run da) (ip ipbyte : Nat)
    (block : Int) :
    detectip_run (da ++ rest) .scan ip ipbyte block =
      detectip_run rest .ipbyte1 0 (decval da % 256) block := by
  obtain ⟨d0, tl, rfl, h0, htl, hval⟩ := digit_run_cons da ha
  rw [← hval, ← detectip_run_digits .ipbyte1 (Or.inl rfl) tl rest 0 (d0 - 48) (d0 - 48) block
    htl (isdigit_bound d0 h0)]
  simp [detectip_run, h0]

theorem detectip_run_run2 (da rest : List Nat) (ha : digit_run da) (ip ipbyte : Nat)
    (block : Int) :
    detectip_run (da ++ rest) .dot1 ip ipbyte block =
      detectip_run rest .ipbyte2 ipbyte (decval da % 256) block := by
  obtain ⟨d0, tl, rfl, h0, htl, hval⟩ := digit_run_cons da ha
  rw [← hval, ← detectip_run_digits .ipbyte2 (Or.inr (Or.inl rfl)) tl rest ipbyte (d0 - 48)
    (d0 - 48) block htl (isdigit_bound d0 h0)]
  simp [detectip_run, h0]

theorem detectip_run_run3 (da rest : List Nat) (ha : digit_run da) (ip ipbyte : Nat)
    (block : Int) :
    detectip_run (da ++ rest) .dot2 ip ipbyte block =
      detectip_run rest .ipbyte3 (((ip * 0x100) % 2 ^ 32 + ipbyte) % 2 ^ 32)
        (decval da % 256) block := by
  obtain ⟨d0, tl, rfl, h0, htl, hval⟩ := digit_run_cons da ha
  rw [← hval, ← detectip_run_digits .ipbyte3 (Or.inr (Or.inr (Or.inl rfl))) tl rest _ (d0 - 48)
    (d0 - 48) block htl (isdigit_bound d0 h0)]
  simp [detectip_run, h0]

theorem detectip_run_run4 (da rest : List Nat) (ha : digit_run da) (ip ipbyte : Nat)
    (block : Int) :
    detectip_run (da ++ rest) .dot3 ip ipbyte block =
      detectip_run rest .ipbyte4 (((ip * 0x100) % 2 ^ 32 + ipbyte) % 2 ^ 32)
        (decval da % 256) block := by
  obtain ⟨d0, tl, rfl, h0, htl, hval⟩ := digit_run_cons da ha
  rw [← hval, ← detectip_run_digits .ipbyte4 (Or.inr (Or.inr (Or.inr rfl))) tl rest _ (d0 - 48)
    (d0 - 48) block htl (isdigit_bound d0 h0)]
  simp [detectip_run, h0]

/-- Four digit runs separated by dots, read from the label `scan`: the scanner
is at the label `ipbyte4` with the first three values modulo 256 in `ip` and
the fourth modulo 256 in `ipbyte`. -/
theorem detectip_run_quad_runs (da db dc dd rest : List Nat) (ha : digit_run da)
    (hb : digit_run db) (hc : digit_run dc) (hd : digit_run dd) (ip ipbyte : Nat)
    (block : Int) :
    detectip_run (quad_text da db dc dd ++ rest) .scan ip ipbyte block =
      detectip_run rest .ipbyte4
        (decval da % 256 * 2 ^ 16 + decval db % 256 * 2 ^ 8 + decval dc % 256)
        (decval dd % 256) block := by
  have e : quad_text da db dc dd ++ rest
      = da ++ 46 :: (db ++ 46 :: (dc ++ 46 :: (dd ++ rest))) := by
    simp [quad_text, List.append_assoc]
  have h46 : isdigit 46 = false := by decide
  have va : decval da % 256 < 256 := Nat.mod_lt _ (by decide)
  have vb : decval db % 256 < 256 := Nat.mod_lt _ (by decide)
  have vc : decval dc % 256 < 256 := Nat.mod_lt _ (by decide)
  rw [e, detectip_run_run1 da _ ha]
  simp only [detectip_run, h46, Bool.false_eq_true, if_false, if_true]
  rw [detectip_run_run2 db _ hb]
  simp only [detectip_run, h46, Bool.false_eq_true, if_false, if_true]
  rw [detectip_run_run3 dc _ hc]
  simp only [detectip_run, h46, Bool.false_eq_true, if_false, if_true]
  rw [detectip_run_run4 dd _ hd]
  congr 1
  omega

/-- Every candidate address is below `2 ^ 32`: `ip` is a `uint32_t`. -/
theorem detectip_run_ip_bound (data : List Nat) :
    ∀ (st : DState) (ip ipbyte : Nat) (block : Int), ip < 2 ^ 32 → ipbyte < 256 →
      ∀ c ∈ detectip_run data st ip ipbyte block, c.1 < 2 ^ 32 := by
  have hm : ∀ a : Nat, a % 2 ^ 32 < 2 ^ 32 := fun a => Nat.mod_lt _ (by decide)
  have hb : ∀ a : Nat, a % 256 < 256 := fun a => Nat.mod_lt _ (by decide)
  induction data with
  | nil =>
    intro st ip ipbyte block h1 h2 c hc
    cases st <;> simp only [detectip_run, List.mem_singleton, List.not_mem_nil] at hc
    all_goals
      subst hc
      simp only
      split
      · exact hm _
      · exact h1
  | cons b data ih =>
    intro st ip ipbyte block h1 h2 c hc
    have hscan : ∀ c ∈ detectip_run data .scan 0 0 32, c.1 < 2 ^ 32 :=
      ih .scan 0 0 32 (by decide) (by decide)
    by_cases hd : isdigit b = true
    · have hr : b - 48 < 256 := by
        simp only [isdigit, decide_eq_true_eq] at hd
        omega
      cases st <;> simp only [detectip_run, hd, if_true] at hc
      · exact ih _ _ _ _ (by decide) hr c hc
      · exact ih _ _ _ _ h1 (hb _) c hc
      · exact ih _ _ _ _ (by omega) hr c hc
      · exact ih _ _ _ _ h1 (hb _) c hc
      · exact ih _ _ _ _ (hm _) hr c hc
      · exact ih _ _ _ _ h1 (hb _) c hc
      · exact ih _ _ _ _ (hm _) hr c hc
      · exact ih _ _ _ _ h1 (hb _) c hc
      · exact ih _ _ _ _ h1 h2 c hc
      · rcases List.mem_cons.1 hc with h | h
        · subst h; exact h1
        · exact hscan c h
    · have hd' : isdigit b = false := by simpa using hd
      cases st <;> simp only [detectip_run, hd', Bool.false_eq_true, if_false] at hc
      · exact ih _ _ _ _ h1 h2 c hc
      · split at hc <;> exact ih _ _ _ _ h1 h2 c hc
      · exact ih _ _ _ _ h1 h2 c hc
      · split at hc <;> exact ih _ _ _ _ h1 h2 c hc
      · exact ih _ _ _ _ h1 h2 c hc
      · split at hc <;> exact ih _ _ _ _ h1 h2 c hc
      · exact ih _ _ _ _ h1 h2 c hc
      · split at hc
        · exact ih _ _ _ _ (hm _) (by decide) c hc
        · rcases List.mem_cons.1 hc with h | h
          · subst h; exact hm _
          · exact hscan c h
      · rcases List.mem_cons.1 hc with h | h
        · subst h; exact h1
        · exact hscan c h
      · rcases List.mem_cons.1 hc with h | h
        · subst h; exact h1
        · exact hscan c h

/-- From the label `cidr1` the candidate that is stored next has the address
`ip` as it is. -/
theorem detectip_run_cidr1_head (rest : List Nat) (ip : Nat) :
    ∃ (blk : Int) (tl : List (Nat × Int)),
      detectip_run rest .cidr1 ip 0 32 = (ip, blk) :: tl := by
  cases rest with
  | nil => exact ⟨32, [], by simp [detectip_run]⟩
  | cons b rest =>
    by_cases hd : isdigit b = true
    · simp only [detectip_run, hd, if_true]
      cases rest with
      | nil => exact ⟨(b : Int) - 48, [], by simp [detectip_run]⟩
      | cons b2 rest =>
        simp only [detectip_run]
        split
        · exact ⟨_, _, rfl⟩
        · exact ⟨_, _, rfl⟩
    · have hd' : isdigit b = false := by simpa using hd
      simp only [detectip_run, hd', Bool.false_eq_true, if_false]
      exact ⟨_, _, rfl⟩

/-! ## Theorems: the bytes the line scan inspects -/

/-- When no terminator lies between the cursor and `end`, the loop inspects the
byte at `end` before it asks for a refill. -/
theorem loadline_reads_end (j : Nat) :
    ∀ (fuel : Nat) (buffer : aio_buffer) (linestart linelimit : Int),
      (∀ i : Nat, i < j → buffer.mem (linelimit + i) ≠ aio_eol) →
      linelimit + j = buffer.end_ →
      buffer.end_ ∈ loadline_reads (fuel + j + 1) buffer linestart linelimit := by
  induction j with
  | zero =>
    intro fuel buffer linestart linelimit _ he
    simp only [Nat.cast_zero, add_zero] at he
    simp only [Nat.add_zero, loadline_reads, he, List.mem_cons, true_or]
  | succ j ih =>
    intro fuel buffer linestart linelimit hne he
    have h0 : buffer.mem linelimit ≠ aio_eol := by
      have := hne 0 (by omega)
      simpa using this
    have hlt : ¬ linelimit ≥ buffer.end_ := by push_cast at he; omega
    have e : fuel + (j + 1) + 1 = (fuel + j + 1) + 1 := by omega
    rw [e]
    unfold loadline_reads
    rw [if_pos h0, if_neg hlt]
    apply List.mem_cons_of_mem
    apply ih fuel buffer linestart (linelimit + 1)
    · intro i hi
      have := hne (i + 1) (by omega)
      have e2 : linelimit + 1 + (i : Int) = linelimit + ((i + 1 : Nat) : Int) := by
        push_cast; ring
      rw [e2]; exact this
    · push_cast at he ⊢; omega

/-- A call of `aio_buffer_loadline` that finds no terminator between its
starting point and `end` inspects the byte at `end`. -/
theorem aio_buffer_loadline_reads_end (b : aio_buffer) (j : Nat)
    (hne : ∀ i : Nat, i < j → b.mem (b.linelimit + 1 + i) ≠ aio_eol)
    (he : b.linelimit + 1 + j = b.end_) : b.end_ ∈ aio_buffer_loadline_reads b := by
  unfold aio_buffer_loadline_reads
  have hb : loadline_bound b (b.linelimit + 1) = src_weight b.src + j + 1 := by
    simp only [loadline_bound]
    omega
  rw [hb]
  exact loadline_reads_end j _ b _ _ hne he

/-- A call of `aio_buffer_loadline` whose line of `k` bytes and terminator
are in the window returns 0 with that line. -/
theorem aio_buffer_loadline_in_window (b : aio_buffer) (k : Nat)
    (hne : ∀ i : Nat, i < k → b.mem (b.linelimit + 1 + i) ≠ aio_eol)
    (heol : b.mem (b.linelimit + 1 + k) = aio_eol) (hle : b.linelimit + 1 + k ≤ b.end_) :
    aio_buffer_loadline b
      = some (0, { b with linestart := b.linelimit + 1, linelimit := b.linelimit + 1 + k }) := by
  unfold aio_buffer_loadline
  have hb : loadline_bound b (b.linelimit + 1)
      = (loadline_bound b (b.linelimit + 1) - k - 1) + 1 + k := by
    simp only [loadline_bound]
    omega
  rw [hb, loadline_loop_skip k _ b _ _ hne hle]
  conv_lhs => unfold loadline_loop
  rw [if_neg (by simpa using heol)]
  rfl

/-- C38, the code at the failing input: the two lines `a` and `b…b` (32784
bytes, shorter than the window capacity 32785).  The first read fills the
window completely, with `a\n` and 32783 of the `b` bytes, so `end` is
`start + limit = data + size`.  The second `aio_buffer_loadline` call scans the
`b` bytes up to `end` and inspects the byte at `end`, at offset `size` from
`data`, before it asks for a refill. -/
theorem loadline_reads_past_arena :
    ∃ b1 b2 : aio_buffer,
      aio_buffer_init 4096 (aio_buffer_alloc 4096 65552 (fun _ => 0)) 0
          [.bytes (97 :: 10 :: List.replicate 32783 98), .bytes [98, 10]] = some (0, b1) ∧
        aio_buffer_loadline b1 = some (0, b2) ∧
        b2.linestart = b2.start ∧ b2.linelimit = b2.start + 1 ∧
        b2.data = 65552 ∧ b2.size = 36865 ∧ b2.end_ = b2.data + b2.size ∧
        (b2.data + (b2.size : Int)) ∈ aio_buffer_loadline_reads b2 := by
  have hstart : ALIGN_TO ((aio_buffer_alloc 4096 65552 (fun _ => 0)).data + 1) 4096 = 69632 := by
    decide
  have hlimit : (aio_buffer_alloc 4096 65552 (fun _ => 0)).size
      - (ALIGN_TO ((aio_buffer_alloc 4096 65552 (fun _ => 0)).data + 1) 4096
        - (aio_buffer_alloc 4096 65552 (fun _ => 0)).data).toNat = 32785 := by
    decide
  have hlen : (97 :: 10 :: List.replicate 32783 98).length = 32785 := by
    rw [List.length_cons, List.length_cons, List.length_replicate]
  have hmem : ∀ (m : Int → Nat) (i : Nat), i < 32785 →
      mem_write m 69632 (97 :: 10 :: List.replicate 32783 98) (69632 + (i : Int))
        = (97 :: 10 :: List.replicate 32783 98).getD i 0 :=
    fun m i hi => mem_write_inside m 69632 _ i (by rw [hlen]; exact hi)
  refine ⟨_, _, aio_buffer_init_bytes 4096 _ 0 (97 :: 10 :: List.replicate 32783 98) _ ?_ ?_,
    aio_buffer_loadline_in_window _ 1 ?_ ?_ ?_, ?_, ?_, rfl, rfl, ?_, ?_⟩
  · rw [hlen]; omega
  · rw [hlen, hlimit]
  · intro i hi
    obtain rfl : i = 0 := by omega
    simp only [hstart]
    have e : (69632 : Int) - 1 + 1 + ((0 : Nat) : Int) = 69632 + ((0 : Nat) : Int) := by omega
    rw [e, hmem _ 0 (by omega)]
    decide
  · simp only [hstart]
    have e : (69632 : Int) - 1 + 1 + ((1 : Nat) : Int) = 69632 + ((1 : Nat) : Int) := by omega
    rw [e, hmem _ 1 (by omega)]
    rfl
  · simp only [hstart, hlen]
    omega
  · simp only [hstart]
    omega
  · simp only [hstart]
    omega
  · simp only [hstart, hlen]
    decide
  · have he : (aio_buffer_alloc 4096 65552 (fun _ => 0)).data
        + (((aio_buffer_alloc 4096 65552 (fun _ => 0)).size : Nat) : Int) = 69632 + 32785 := by
      decide
    have h := aio_buffer_loadline_reads_end
      { (aio_buffer_alloc 4096 65552 (fun _ => 0)) with
        fd := 0, src := [.bytes [98, 10]], start := 69632, limit := 32785
        end_ := 69632 + 32785
        mem := mem_write (fun a => if a = 69632 - 1 then aio_eol else 0) 69632
          (97 :: 10 :: List.replicate 32783 98)
        linestart := 69632 - 1 + 1
        linelimit := 69632 - 1 + 1 + 1 } 32783
      (by
        intro i hi
        simp only
        have e : (69632 : Int) - 1 + 1 + 1 + 1 + (i : Int) = 69632 + ((i + 2 : Nat) : Int) := by
          push_cast; omega
        rw [e, hmem _ (i + 2) (by omega), List.getD_cons_succ, List.getD_cons_succ,
          getD_replicate_lt _ _ _ _ hi]
        decide)
      (by simp only; omega)
    simp only [hstart, hlimit, hlen]
    rw [he]
    exact h

/-! ## Theorems: what the callers of detectip_str read -/

/-- Every store is inside the arrays exactly when the number of candidates is
at most the capacity the arrays have on entry: growth needs `count >
detectip_max`, which comes only after the store at index `detectip_max`. -/
theorem found_stores_all (cands : List (Nat × Int)) :
    ∀ (count detectip_max : Nat), count ≤ detectip_max →
      ((found_stores cands count detectip_max).all (fun s => decide (s.1 < s.2)) = true ↔
        count + cands.length ≤ detectip_max) := by
  induction cands with
  | nil =>
    intro count detectip_max h
    simp only [found_stores, List.all_nil, List.length_nil, Nat.add_zero, true_iff]
    exact h
  | cons c cands ih =>
    intro count detectip_max h
    have hng : ¬ count > detectip_max := by omega
    simp only [found_stores, if_neg hng, List.all_cons, Bool.and_eq_true, decide_eq_true_eq,
      List.length_cons]
    constructor
    · rintro ⟨h1, h2⟩
      have := (ih (count + 1) detectip_max (by omega)).1 h2
      omega
    · intro h1
      exact ⟨by omega, (ih (count + 1) detectip_max (by omega)).2 (by omega)⟩

theorem detectip_arrays_eq (data : List Nat) (detectip_max : Nat) :
    detectip_arrays data detectip_max =
      if (detectip_str data).length ≤ detectip_max then some (detectip_str data) else none := by
  have h := found_stores_all (detectip_str data) 0 detectip_max (Nat.zero_le _)
  rw [Nat.zero_add] at h
  unfold detectip_arrays detectip_stores
  by_cases hl : (detectip_str data).length ≤ detectip_max
  · rw [if_pos hl, if_pos (h.2 hl)]
  · rw [if_neg hl, if_neg (fun hh => hl (h.1 hh))]

theorem detectip_arrays_of_fit (data : List Nat) (detectip_max : Nat)
    (h : (detectip_str data).length ≤ detectip_max) :
    detectip_arrays data detectip_max = some (detectip_str data) := by
  rw [detectip_arrays_eq, if_pos h]

theorem detectip_arrays_some (data : List Nat) (detectip_max : Nat) (cands : List (Nat × Int))
    (h : detectip_arrays data detectip_max = some cands) :
    cands = detectip_str data ∧ (detectip_str data).length ≤ detectip_max := by
  rw [detectip_arrays_eq] at h
  by_cases hl : (detectip_str data).length ≤ detectip_max
  · rw [if_pos hl] at h
    exact ⟨(Option.some.inj h).symm, hl⟩
  · rw [if_neg hl] at h
    cases h

theorem detectip_arrays_none (data : List Nat) (detectip_max : Nat)
    (h : detectip_max < (detectip_str data).length) :
    detectip_arrays data detectip_max = none := by
  rw [detectip_arrays_eq, if_neg (by omega)]

/-- When every store is inside the arrays and `count - pos` does not overflow,
the program's `findip_str` is `findip_str` over the candidates in order. -/
theorem findip_str_arrays_eq (detectip_max : Nat) (tree : IPTree) (data : List Nat) (pos : Int)
    (hfit : (detectip_str data).length ≤ detectip_max)
    (hpos : (if pos > 0 then pos - 1 else ((detectip_str data).length : Int) - pos)
      ≤ 2147483647) :
    findip_str_arrays detectip_max tree data pos = some (findip_str tree data pos) := by
  have hng : ¬ (if pos > 0 then pos - 1 else ((detectip_str data).length : Int) - pos)
      > 2147483647 := by omega
  unfold findip_str_arrays findip_str
  rw [detectip_arrays_of_fit data detectip_max hfit]
  simp only [hng, if_false]
  split
  · rfl
  · split
    · rfl
    · split <;> split <;> rfl

theorem addip_str_arrays_eq (detectip_max : Nat) (tree : IPTree) (data : List Nat)
    (hfit : (detectip_str data).length ≤ detectip_max) :
    addip_str_arrays detectip_max tree data = some (addip_str tree data) := by
  unfold addip_str_arrays addip_str
  rw [detectip_arrays_of_fit data detectip_max hfit]
  cases detectip_str data <;> rfl

theorem detectip_arrays_of_eq (data : List Nat) (detectip_max : Nat) (L : List (Nat × Int))
    (e : detectip_str data = L) (h : L.length ≤ detectip_max) :
    detectip_arrays data detectip_max = some L := by
  rw [detectip_arrays_of_fit data detectip_max (by rw [e]; exact h), e]

/-- C4: where every store is inside the scratch arrays (the candidates of the
line are at most `detectip_max`), a dotted quad `a.b.c.d` with decimal octets in
`0 .. 255`, optionally followed by `/n` with one or two digits, and followed by
a byte `t` that is not a digit, gives the candidate `(a.b.c.d, n)` (`n = 32`
without `/n`), reported before the candidates of the rest of the line; the
bytes `foo 10.0.0.1 bar 192.168.1.0/24 baz` give `[(10.0.0.1, 32),
(192.168.1.0, 24)]`.  The code at the failing input: on a line with five
addresses, scanned with `detectip_max = IPS_PER_LINE`, the fifth candidate is
stored past the arrays, and what the caller reads is not defined. -/
theorem detectip_arrays_quad (da db dc dd : List Nat) (ha : is_octet da) (hb : is_octet db)
    (hc : is_octet dc) (hd : is_octet dd) (t : Nat) (ht : isdigit t = false)
    (rest : List Nat) (detectip_max : Nat)
    (hfit : (detectip_str rest).length + 1 ≤ detectip_max) :
    (t ≠ 47 → detectip_arrays (quad_text da db dc dd ++ t :: rest) detectip_max
        = some ((quad_ip da db dc dd, 32) :: detectip_str rest)) ∧
      detectip_arrays (quad_text da db dc dd ++ 47 :: t :: rest) detectip_max
        = some ((quad_ip da db dc dd, 32) :: detectip_str rest) ∧
      (∀ n1 : Nat, isdigit n1 = true →
        detectip_arrays (quad_text da db dc dd ++ 47 :: n1 :: t :: rest) detectip_max
          = some ((quad_ip da db dc dd, ((decval [n1] : Nat) : Int)) :: detectip_str rest)) ∧
      (∀ n1 n2 : Nat, isdigit n1 = true → isdigit n2 = true →
        detectip_arrays (quad_text da db dc dd ++ 47 :: n1 :: n2 :: t :: rest) detectip_max
          = some ((quad_ip da db dc dd, ((decval [n1, n2] : Nat) : Int))
            :: detectip_str rest)) ∧
      detectip_arrays rest detectip_max = some (detectip_str rest) ∧
      detectip_arrays (bytes_of "foo 10.0.0.1 bar 192.168.1.0/24 baz") IPS_PER_LINE
        = some [(167772161, 32), (3232235776, 24)] ∧
      detectip_arrays (bytes_of "1.1.1.1 2.2.2.2 3.3.3.3 4.4.4.4 5.5.5.5\n") IPS_PER_LINE
        = none := by
  obtain ⟨o1, _, o3, o4, o5, _⟩ := detectip_str_quad da db dc dd ha hb hc hd t ht rest 0 0
  have hl : ∀ c : Nat × Int, (c :: detectip_str rest).length ≤ detectip_max := by
    intro c
    rw [List.length_cons]
    exact hfit
  refine ⟨fun h47 => detectip_arrays_of_eq _ _ _ (o1 h47) (hl _),
    detectip_arrays_of_eq _ _ _ o3 (hl _),
    fun n1 h1 => detectip_arrays_of_eq _ _ _ (o4 n1 h1) (hl _),
    fun n1 n2 h1 h2 => detectip_arrays_of_eq _ _ _ (o5 n1 n2 h1 h2) (hl _),
    detectip_arrays_of_fit _ _ (by omega), by decide, by decide⟩

theorem detectip_arrays_quad_witness :
    is_octet (bytes_of "192") ∧ is_octet (bytes_of "168") ∧ is_octet (bytes_of "1") ∧
      is_octet (bytes_of "0") ∧ isdigit 32 = false ∧
      (detectip_str (bytes_of "10.0.0.1\n")).length + 1 ≤ IPS_PER_LINE ∧
      detectip_arrays (quad_text (bytes_of "192") (bytes_of "168") (bytes_of "1")
          (bytes_of "0") ++ 47 :: 50 :: 52 :: 32 :: bytes_of "10.0.0.1\n") IPS_PER_LINE
        = some ((quad_ip (bytes_of "192") (bytes_of "168") (bytes_of "1") (bytes_of "0"),
            ((decval [50, 52] : Nat) : Int)) :: detectip_str (bytes_of "10.0.0.1\n")) ∧
      quad_ip (bytes_of "192") (bytes_of "168") (bytes_of "1") (bytes_of "0") = 3232235776 ∧
      decval [50, 52] = 24 ∧ detectip_str (bytes_of "10.0.0.1\n") = [(167772161, 32)] :=
  ⟨⟨by decide, by decide, by decide⟩, ⟨by decide, by decide, by decide⟩,
    ⟨by decide, by decide, by decide⟩, ⟨by decide, by decide, by decide⟩,
    by decide, by decide,
    (detectip_arrays_quad (bytes_of "192") (bytes_of "168") (bytes_of "1") (bytes_of "0")
      ⟨by decide, by decide, by decide⟩ ⟨by decide, by decide, by decide⟩
      ⟨by decide, by decide, by decide⟩ ⟨by decide, by decide, by decide⟩
      32 (by decide) (bytes_of "10.0.0.1\n") IPS_PER_LINE (by decide)).2.2.2.1 50 52
      (by decide) (by decide),
    by decide, by decide, by decide⟩

/-- C8: where every store is inside the scratch arrays, on a line with at least
one candidate `findip_str` with `pos = 0` returns 1 if and only if `findip` is
1 for at least one candidate, and returns 0 otherwise.  The code at the failing
input: on a line with six addresses, scanned with `detectip_max =
IPS_PER_LINE`, the fifth candidate is stored past the arrays and is lost when
they grow; the tree holds that candidate, `5.5.5.5`, and what `findip_str`
returns is not defined. -/
theorem findip_str_arrays_pos_zero (detectip_max : Nat) (tree : IPTree) (data : List Nat)
    (hn : detectip_str data ≠ []) (hfit : (detectip_str data).length ≤ detectip_max) :
    (findip_str_arrays detectip_max tree data 0 = some 1 ↔
        ∃ c ∈ detectip_str data, findip tree c.1 = 1) ∧
      ((¬ ∃ c ∈ detectip_str data, findip tree c.1 = 1) →
        findip_str_arrays detectip_max tree data 0 = some 0) ∧
      (∃ c ∈ detectip_str (bytes_of "1.1.1.1 2.2.2.2 3.3.3.3 4.4.4.4 5.5.5.5 6.6.6.6\n"),
        findip (addip makeiptree 84215045 32).2 c.1 = 1) ∧
      findip_str_arrays IPS_PER_LINE (addip makeiptree 84215045 32).2
        (bytes_of "1.1.1.1 2.2.2.2 3.3.3.3 4.4.4.4 5.5.5.5 6.6.6.6\n") 0 = none := by
  have hc : ¬ ((detectip_str data).length : Int) = 0 := by
    intro h
    exact hn (List.length_eq_zero.1 (by exact_mod_cast h))
  have e : findip_str_arrays detectip_max tree data 0
      = some (findip_loop tree (detectip_str data)) := by
    unfold findip_str_arrays
    rw [detectip_arrays_of_fit data detectip_max hfit]
    simp only [hc, if_false, if_true]
  rw [e]
  obtain ⟨h1, h2⟩ := findip_loop_eq_one_iff tree (detectip_str data)
  refine ⟨?_, fun hno => ?_, ⟨(84215045, 32), by decide, by decide⟩, by decide⟩
  · rw [Option.some.injEq]
    exact h1
  · rcases h2 with h | h
    · rw [h]
    · exact absurd (h1.1 h) hno

theorem findip_str_arrays_pos_zero_witness :
    detectip_str (bytes_of "1.2.3.4 10.0.0.1\n") ≠ [] ∧
      (detectip_str (bytes_of "1.2.3.4 10.0.0.1\n")).length ≤ IPS_PER_LINE ∧
      (findip_str_arrays IPS_PER_LINE (addip makeiptree 167772161 32).2
          (bytes_of "1.2.3.4 10.0.0.1\n") 0 = some 1 ↔
        ∃ c ∈ detectip_str (bytes_of "1.2.3.4 10.0.0.1\n"),
          findip (addip makeiptree 167772161 32).2 c.1 = 1) ∧
      findip_str_arrays IPS_PER_LINE (addip makeiptree 167772161 32).2
        (bytes_of "1.2.3.4 10.0.0.1\n") 0 = some 1 :=
  ⟨by decide, by decide,
    (findip_str_arrays_pos_zero IPS_PER_LINE (addip makeiptree 167772161 32).2
      (bytes_of "1.2.3.4 10.0.0.1\n") (by decide) (by decide)).1,
    by decide⟩

/-- C7: where every store is inside the scratch arrays, on a line with `n ≥ 1`
candidates and for a positive `int` selector `pos = k`: if `k ≤ n`,
`findip_str` returns `findip` of the `k`-th candidate from the left (index
`k - 1`); if `k > n` it returns `IP_POS_OUT_OF_BOUNDS`.  The code at the failing
input: on a line with six addresses, scanned with `detectip_max =
IPS_PER_LINE`, the fifth candidate, `5.5.5.5`, is stored past the arrays and is
lost when they grow; the tree holds it, and what `findip_str` returns for
`pos = 5` is not defined. -/
theorem findip_str_arrays_pos_positive (detectip_max : Nat) (tree : IPTree) (data : List Nat)
    (pos : Int) (hpos : 0 < pos) (hint : pos ≤ 2147483647)
    (hn : 1 ≤ (detectip_str data).length)
    (hfit : (detectip_str data).length ≤ detectip_max) :
    (pos ≤ (detectip_str data).length →
        ∃ c, (detectip_str data)[pos.toNat - 1]? = some c ∧
          findip_str_arrays detectip_max tree data pos = some (findip tree c.1)) ∧
      (((detectip_str data).length : Int) < pos →
        findip_str_arrays detectip_max tree data pos = some IP_POS_OUT_OF_BOUNDS) ∧
      (detectip_str (bytes_of "1.1.1.1 2.2.2.2 3.3.3.3 4.4.4.4 5.5.5.5 6.6.6.6\n"))[4]?
        = some (84215045, 32) ∧
      findip (addip makeiptree 84215045 32).2 84215045 = 1 ∧
      findip_str_arrays IPS_PER_LINE (addip makeiptree 84215045 32).2
        (bytes_of "1.1.1.1 2.2.2.2 3.3.3.3 4.4.4.4 5.5.5.5 6.6.6.6\n") 5 = none := by
  have e := findip_str_arrays_eq detectip_max tree data pos hfit
    (by rw [if_pos hpos]; omega)
  obtain ⟨o1, o2⟩ := findip_str_pos_positive tree data pos hpos hn
  refine ⟨fun hle => ?_, fun hlt => ?_, by decide, by decide, by decide⟩
  · obtain ⟨c, hc1, hc2⟩ := o1 hle
    exact ⟨c, hc1, by rw [e, hc2]⟩
  · rw [e, o2 hlt]

theorem findip_str_arrays_pos_positive_witness :
    (0 : Int) < 2 ∧ (2 : Int) ≤ 2147483647 ∧
      1 ≤ (detectip_str (bytes_of "10.0.0.1\n")).length ∧
      (detectip_str (bytes_of "10.0.0.1\n")).length ≤ IPS_PER_LINE ∧
      ((detectip_str (bytes_of "10.0.0.1\n")).length : Int) < 2 ∧
      findip_str_arrays IPS_PER_LINE (addip makeiptree 167772161 32).2
        (bytes_of "10.0.0.1\n") 2 = some IP_POS_OUT_OF_BOUNDS ∧
      findip_str_arrays IPS_PER_LINE (addip makeiptree 167772161 32).2
        (bytes_of "10.0.0.1\n") 1 = some 1 :=
  ⟨by decide, by decide, by decide, by decide, by decide,
    (findip_str_arrays_pos_positive IPS_PER_LINE (addip makeiptree 167772161 32).2
      (bytes_of "10.0.0.1\n") 2 (by decide) (by decide) (by decide) (by decide)).2.1
      (by decide),
    by decide⟩

/-- C19: where every store is inside the scratch arrays: if `detectip_str` finds
no candidate, `addip_str` returns `IP_NOT_FOUND` and the tree is unchanged;
otherwise it returns what `addip` returns on the first candidate and leaves
the tree that call leaves.  The code at the failing input: on a line with five
addresses, scanned with `detectip_max = IPS_PER_LINE`, the fifth candidate is
stored past the arrays before `ips[0]` and `blocks[0]` are read, and what
`addip_str` inserts is not defined. -/
theorem addip_str_arrays_first (detectip_max : Nat) (tree : IPTree) (data : List Nat)
    (hfit : (detectip_str data).length ≤ detectip_max) :
    (detectip_str data = [] →
        addip_str_arrays detectip_max tree data = some (IP_NOT_FOUND, tree)) ∧
      (∀ (c : Nat × Int) (rest : List (Nat × Int)), detectip_str data = c :: rest →
        addip_str_arrays detectip_max tree data = some (addip tree c.1 c.2)) ∧
      (detectip_str (bytes_of "1.1.1.1 2.2.2.2 3.3.3.3 4.4.4.4 5.5.5.5\n")).head?
        = some (16843009, 32) ∧
      addip_str_arrays IPS_PER_LINE makeiptree
        (bytes_of "1.1.1.1 2.2.2.2 3.3.3.3 4.4.4.4 5.5.5.5\n") = none := by
  have e := addip_str_arrays_eq detectip_max tree data hfit
  refine ⟨fun h => ?_, fun c rest h => ?_, by decide, by decide⟩
  · rw [e]
    simp [addip_str, h]
  · rw [e]
    simp [addip_str, h]

theorem addip_str_arrays_first_witness :
    (detectip_str (bytes_of "10.0.0.0/24 192.168.0.0/16\n")).length ≤ IPS_PER_LINE ∧
      detectip_str (bytes_of "10.0.0.0/24 192.168.0.0/16\n")
        = (167772160, 24) :: [(3232235520, 16)] ∧
      addip_str_arrays IPS_PER_LINE makeiptree (bytes_of "10.0.0.0/24 192.168.0.0/16\n")
        = some (addip makeiptree 167772160 24) ∧
      (detectip_str (bytes_of "none\n")).length ≤ IPS_PER_LINE ∧
      detectip_str (bytes_of "none\n") = [] ∧
      addip_str_arrays IPS_PER_LINE makeiptree (bytes_of "none\n")
        = some (IP_NOT_FOUND, makeiptree) :=
  ⟨by decide, by decide,
    (addip_str_arrays_first IPS_PER_LINE makeiptree (bytes_of "10.0.0.0/24 192.168.0.0/16\n")
      (by decide)).2.1 (167772160, 24) [(3232235520, 16)] (by decide),
    by decide, by decide,
    (addip_str_arrays_first IPS_PER_LINE makeiptree (bytes_of "none\n") (by decide)).1
      (by decide)⟩

/-- C25: where every store is inside the scratch arrays (the candidates of `P`
and of `Q` together are at most `detectip_max`), for all byte sequences `P` and
`Q` where `P` ends with a byte that is not a digit, `.` or `/`, the candidates
reported for `P` followed by `Q` are those reported for `P` followed by those
reported for `Q`.  The code at the failing input: with three addresses in `P`
and two in `Q`, scanned with `detectip_max = IPS_PER_LINE`, each part alone
stays inside the arrays, but in `P` followed by `Q` the fifth candidate is
stored past them, and what the caller reads is not defined. -/
theorem detectip_arrays_append (P Q : List Nat) (t : Nat) (detectip_max : Nat)
    (ht : isdigit t = false) (h46 : t ≠ 46) (h47 : t ≠ 47)
    (hfit : (detectip_str (P ++ [t])).length + (detectip_str Q).length ≤ detectip_max) :
    detectip_arrays (P ++ [t]) detectip_max = some (detectip_str (P ++ [t])) ∧
      detectip_arrays Q detectip_max = some (detectip_str Q) ∧
      detectip_arrays ((P ++ [t]) ++ Q) detectip_max
        = some (detectip_str (P ++ [t]) ++ detectip_str Q) ∧
      detectip_arrays (bytes_of "1.1.1.1 2.2.2.2 3.3.3.3 ") IPS_PER_LINE
        = some [(16843009, 32), (33686018, 32), (50529027, 32)] ∧
      detectip_arrays (bytes_of "4.4.4.4 5.5.5.5\n") IPS_PER_LINE
        = some [(67372036, 32), (84215045, 32)] ∧
      detectip_arrays (bytes_of "1.1.1.1 2.2.2.2 3.3.3.3 " ++ bytes_of "4.4.4.4 5.5.5.5\n")
        IPS_PER_LINE = none := by
  refine ⟨detectip_arrays_of_fit _ _ (by omega), detectip_arrays_of_fit _ _ (by omega),
    detectip_arrays_of_eq _ _ _ (detectip_str_append P Q t ht h46 h47)
      (by rw [List.length_append]; exact hfit),
    by decide, by decide, by decide⟩

theorem detectip_arrays_append_witness :
    isdigit 32 = false ∧ (32 : Nat) ≠ 46 ∧ (32 : Nat) ≠ 47 ∧
      (detectip_str (bytes_of "10.0.0.1 300.1.2" ++ [32])).length
        + (detectip_str (bytes_of "192.168.1.0/24\n")).length ≤ IPS_PER_LINE ∧
      detectip_arrays ((bytes_of "10.0.0.1 300.1.2" ++ [32]) ++ bytes_of "192.168.1.0/24\n")
          IPS_PER_LINE
        = some (detectip_str (bytes_of "10.0.0.1 300.1.2" ++ [32]) ++
          detectip_str (bytes_of "192.168.1.0/24\n")) ∧
      detectip_str (bytes_of "10.0.0.1 300.1.2" ++ [32]) = [(167772161, 32)] ∧
      detectip_str (bytes_of "192.168.1.0/24\n") = [(3232235776, 24)] :=
  ⟨by decide, by decide, by decide, by decide,
    (detectip_arrays_append (bytes_of "10.0.0.1 300.1.2") (bytes_of "192.168.1.0/24\n") 32
      IPS_PER_LINE (by decide) (by decide) (by decide) (by decide)).2.2.1,
    by decide, by decide⟩

/-- Four digit runs separated by dots, at the end of the bytes: the fourth value
modulo 256 is shifted in only when it is not zero (label `tail`). -/
theorem detectip_str_quad_runs_at_end (da db dc dd : List Nat) (ha : digit_run da)
    (hb : digit_run db) (hc : digit_run dc) (hd : digit_run dd) :
    detectip_str (quad_text da db dc dd)
      = [(if decval dd % 256 ≠ 0 then
            decval da % 256 * 2 ^ 24 + decval db % 256 * 2 ^ 16 + decval dc % 256 * 2 ^ 8
              + decval dd % 256
          else decval da % 256 * 2 ^ 16 + decval db % 256 * 2 ^ 8 + decval dc % 256, 32)] := by
  have va : decval da % 256 < 256 := Nat.mod_lt _ (by decide)
  have vb : decval db % 256 < 256 := Nat.mod_lt _ (by decide)
  have vc : decval dc % 256 < 256 := Nat.mod_lt _ (by decide)
  have vd : decval dd % 256 < 256 := Nat.mod_lt _ (by decide)
  have hq : (((decval da % 256 * 2 ^ 16 + decval db % 256 * 2 ^ 8 + decval dc % 256) * 0x100)
        % 2 ^ 32 + decval dd % 256) % 2 ^ 32
      = decval da % 256 * 2 ^ 24 + decval db % 256 * 2 ^ 16 + decval dc % 256 * 2 ^ 8
        + decval dd % 256 := by omega
  have h := detectip_run_quad_runs da db dc dd [] ha hb hc hd 0 0 32
  rw [List.append_nil] at h
  rw [detectip_str, h]
  simp only [detectip_run]
  rw [hq]

/-- C37: where every store is inside the scratch arrays, for digit runs `da`,
`db`, `dc`, `dd` of any length, separated by dots, the address of the
candidate is made of their decimal values modulo 256 when a byte other than a
digit follows the fourth run (with `/`, whatever the prefix is); every
candidate has an address below `2 ^ 32`, and `addip` on a candidate never
returns `IP_ERROR_ADDRESS_INVALID_BAD_IP`.  The code at the failing input: when
the bytes end right after the fourth run, its value modulo 256 is shifted in
only when it is not zero, so `10.0.0.256` with nothing after it is extracted
as `0.10.0.0`; followed by a newline it is extracted as `10.0.0.0`. -/
theorem detectip_arrays_octets_mod_256 (da db dc dd rest : List Nat) (t : Nat)
    (detectip_max : Nat) (ha : digit_run da) (hb : digit_run db) (hc : digit_run dc)
    (hd : digit_run dd) (ht : isdigit t = false) (ht2 : t ≠ 47)
    (hfit : (detectip_str rest).length + 1 ≤ detectip_max) :
    detectip_arrays (quad_text da db dc dd ++ t :: rest) detectip_max
        = some ((decval da % 256 * 2 ^ 24 + decval db % 256 * 2 ^ 16 + decval dc % 256 * 2 ^ 8
            + decval dd % 256, 32) :: detectip_str rest) ∧
      (∀ cands : List (Nat × Int),
        detectip_arrays (quad_text da db dc dd ++ 47 :: rest) detectip_max = some cands →
        ∃ (blk : Int) (tl : List (Nat × Int)),
          cands = (decval da % 256 * 2 ^ 24 + decval db % 256 * 2 ^ 16
            + decval dc % 256 * 2 ^ 8 + decval dd % 256, blk) :: tl) ∧
      detectip_arrays (quad_text da db dc dd) detectip_max
        = some [(if decval dd % 256 ≠ 0 then
            decval da % 256 * 2 ^ 24 + decval db % 256 * 2 ^ 16 + decval dc % 256 * 2 ^ 8
              + decval dd % 256
          else decval da % 256 * 2 ^ 16 + decval db % 256 * 2 ^ 8 + decval dc % 256, 32)] ∧
      (∀ (data : List Nat) (cands : List (Nat × Int)),
        detectip_arrays data detectip_max = some cands →
        ∀ c ∈ cands, c.1 < 2 ^ 32 ∧
          ∀ tree : IPTree, (addip tree c.1 c.2).1 ≠ IP_ERROR_ADDRESS_INVALID_BAD_IP) ∧
      detectip_arrays (bytes_of "10.0.0.256") IPS_PER_LINE = some [(655360, 32)] ∧
      detectip_arrays (bytes_of "10.0.0.256\n") IPS_PER_LINE = some [(167772160, 32)] := by
  have va : decval da % 256 < 256 := Nat.mod_lt _ (by decide)
  have vb : decval db % 256 < 256 := Nat.mod_lt _ (by decide)
  have vc : decval dc % 256 < 256 := Nat.mod_lt _ (by decide)
  have vd : decval dd % 256 < 256 := Nat.mod_lt _ (by decide)
  have hq : (((decval da % 256 * 2 ^ 16 + decval db % 256 * 2 ^ 8 + decval dc % 256) * 0x100)
        % 2 ^ 32 + decval dd % 256) % 2 ^ 32
      = decval da % 256 * 2 ^ 24 + decval db % 256 * 2 ^ 16 + decval dc % 256 * 2 ^ 8
        + decval dd % 256 := by omega
  have h47 : isdigit 47 = false := by decide
  refine ⟨?_, ?_, ?_, ?_, by decide, by decide⟩
  · apply detectip_arrays_of_eq
    · rw [detectip_str, detectip_run_quad_runs da db dc dd _ ha hb hc hd]
      simp only [detectip_run, ht, Bool.false_eq_true, if_false, if_neg ht2]
      rw [hq]
      rfl
    · rw [List.length_cons]
      exact hfit
  · intro cands h
    obtain ⟨e, _⟩ := detectip_arrays_some _ _ _ h
    rw [e, detectip_str, detectip_run_quad_runs da db dc dd _ ha hb hc hd]
    simp only [detectip_run, h47, Bool.false_eq_true, if_false, if_true]
    rw [hq]
    exact detectip_run_cidr1_head rest _
  · exact detectip_arrays_of_eq _ _ _ (detectip_str_quad_runs_at_end da db dc dd ha hb hc hd)
      (by simp only [List.length_singleton]; omega)
  · intro data cands h c hcm
    obtain ⟨e, _⟩ := detectip_arrays_some _ _ _ h
    subst e
    have hlt := detectip_run_ip_bound data .scan 0 0 32 (by decide) (by decide) c hcm
    refine ⟨hlt, fun tree => ?_⟩
    rw [addip_fst]
    unfold validateip
    rw [if_neg (by omega)]
    split <;> decide

theorem detectip_arrays_octets_mod_256_witness :
    digit_run (bytes_of "10") ∧ digit_run (bytes_of "0") ∧ digit_run (bytes_of "1256") ∧
      isdigit 32 = false ∧ (32 : Nat) ≠ 47 ∧
      (detectip_str (bytes_of "x")).length + 1 ≤ IPS_PER_LINE ∧
      detectip_arrays (quad_text (bytes_of "10") (bytes_of "0") (bytes_of "0")
          (bytes_of "1256") ++ 32 :: bytes_of "x") IPS_PER_LINE
        = some ((decval (bytes_of "10") % 256 * 2 ^ 24 + decval (bytes_of "0") % 256 * 2 ^ 16
            + decval (bytes_of "0") % 256 * 2 ^ 8 + decval (bytes_of "1256") % 256, 32)
          :: detectip_str (bytes_of "x")) ∧
      decval (bytes_of "1256") % 256 = 232 :=
  ⟨by decide, by decide, by decide, by decide, by decide, by decide,
    (detectip_arrays_octets_mod_256 (bytes_of "10") (bytes_of "0") (bytes_of "0")
      (bytes_of "1256") (bytes_of "x") 32 IPS_PER_LINE (by decide) (by decide) (by decide)
      (by decide) (by decide) (by decide) (by decide)).1,
    by decide⟩

end Logtools
